import Mathlib

/-!
# Raster primitives and 2D transforms of `final_project.cpp`

A shallow embedding of the three rasterizers of the village scene renderer
(`drawLineDDA`, `drawLineBresenham`, `drawCircleMidpoint`), of its 2D
transforms (`translate2D`, `scale2D`, `rotate2D`, `reflectX`, `reflectY`,
`shear2D`, `applyAllTransforms`) and of the global animation state as changed
by the key handler `keyboard`.

Modelling conventions.

* `plotPoint(x, y)` appends the pixel `(x, y)` to the output; a rasterizer is
  the list of pixels it plots, in plotting order.
* C `int` values are mathematical integers (`ℤ`), and `int` arithmetic is the
  arithmetic of `ℤ`: this is the program as long as no `int` operation
  overflows.  A loop `for (int v = a; v <= b; v++)` is not left when
  `b = INT_MAX`; the vertical loop of `drawLineBresenham`, whose bound is an
  endpoint coordinate, is therefore also modelled on 32-bit `int`s
  (`vertLoopInt`, `drawLineBresenhamRun`), and the statements on what
  `drawLineBresenham` returns are made there.
* C `float` values are the rationals they denote.  Every `float` operation of
  the source (`int` to `float` conversion, `+`, `-`, `*`, `/`) is the exact
  operation followed by one rounding `fl : ℚ → ℚ`.  The compiled program is
  the instance `fl = f32`, IEEE-754 binary32 rounding to nearest, ties to
  even, with gradual underflow; results of magnitude `2^128` and above
  (unreachable from 32-bit coordinates) are not given a special value.
* `fabs` is the absolute value, `round` rounds half away from zero, and an
  `(int)` cast of a non-negative `float` is the floor (the value of the cast
  for a `float` below `2^31`).
-/

set_option autoImplicit false

/-- A pixel passed to `plotPoint`. -/
abbrev Pixel := ℤ × ℤ

/-! ## Floating point -/

/-- Nearest integer to `q`, a tie going to the even neighbour. -/
def roundEven (q : ℚ) : ℤ :=
  if q - ⌊q⌋ < 1 / 2 then ⌊q⌋
  else if 1 / 2 < q - ⌊q⌋ then ⌊q⌋ + 1
  else if ⌊q⌋ % 2 = 0 then ⌊q⌋ else ⌊q⌋ + 1

/-- Number of halvings that take `n` below `2`, at most `fuel` of them. -/
def log2Aux : ℕ → ℕ → ℕ
  | 0, _ => 0
  | fuel + 1, n => if n < 2 then 0 else log2Aux fuel (n / 2) + 1

/-- Position of the leading bit of `n`: `⌊log₂ n⌋` for `n ≥ 1`. -/
def natLog2 (n : ℕ) : ℕ := log2Aux n n

/-- Binary exponent of a non-zero `q`: the `e` with `2^e ≤ |q| < 2^(e+1)`
(`ilog2_spec`), read off the bit lengths of numerator and denominator. -/
def ilog2 (q : ℚ) : ℤ :=
  let k : ℤ := (natLog2 q.num.natAbs : ℤ) - (natLog2 q.den : ℤ)
  if (2 : ℚ) ^ k ≤ |q| then k else k - 1

/-- Exponent of the binary32 unit in the last place at `q`: 24 significant
bits, least normal exponent `-126` (so the subnormal spacing is `2^(-149)`). -/
def f32Exp (q : ℚ) : ℤ := max (ilog2 q) (-126) - 23

/-- IEEE-754 binary32 rounding (nearest, ties to even) of an exact value. -/
def f32 (q : ℚ) : ℚ := roundEven (q / 2 ^ f32Exp q) * 2 ^ f32Exp q

/-- C `round`: nearest integer, halves away from zero. -/
def cround (q : ℚ) : ℤ := if 0 ≤ q then ⌊q + 1 / 2⌋ else -⌊-q + 1 / 2⌋

/-! ## `drawLineDDA` -/

/-- The local `steps` of `drawLineDDA`:
`(fabs(xdif) > fabs(ydif)) ? (int)fabs(xdif) : (int)fabs(ydif)` with
`xdif = (float)x2 - (float)x1` and `ydif = (float)y2 - (float)y1`. -/
def ddaSteps (fl : ℚ → ℚ) (x1 y1 x2 y2 : ℤ) : ℤ :=
  let xdif := fl (fl x2 - fl x1)
  let ydif := fl (fl y2 - fl y1)
  if |xdif| > |ydif| then ⌊|xdif|⌋ else ⌊|ydif|⌋

/-- The loop `for (i = 0; i <= steps; i++) { plotPoint(round x, round y);
x += xinc; y += yinc; }` with `n` iterations left. -/
def ddaLoop (fl : ℚ → ℚ) (xinc yinc : ℚ) : ℕ → ℚ → ℚ → List Pixel
  | 0, _, _ => []
  | n + 1, x, y =>
      (cround x, cround y) :: ddaLoop fl xinc yinc n (fl (x + xinc)) (fl (y + yinc))

/-- The function `drawLineDDA` over a `float` rounding `fl`. -/
def drawLineDDAWith (fl : ℚ → ℚ) (x1 y1 x2 y2 : ℤ) : List Pixel :=
  let xdif := fl (fl x2 - fl x1)
  let ydif := fl (fl y2 - fl y1)
  let steps := ddaSteps fl x1 y1 x2 y2
  if steps = 0 then [(x1, y1)]
  else
    let xinc := fl (xdif / fl steps)
    let yinc := fl (ydif / fl steps)
    ddaLoop fl xinc yinc (steps + 1).toNat (fl x1) (fl y1)

/-- The function `drawLineDDA` as compiled: `float` is binary32. -/
def drawLineDDA (x1 y1 x2 y2 : ℤ) : List Pixel := drawLineDDAWith f32 x1 y1 x2 y2

/-! ## `drawLineBresenham` -/

/-- The loop `for (int y = ys; y <= ye; y++) plotPoint(x1, y);` of the
vertical case as a counted loop with `n = ye - ys + 1` iterations left: what
the loop plots when `ye < INT_MAX`, so that `y++` does not overflow before the
loop is left (`vertLoopInt_returns`).  For `ye = INT_MAX` the compiled loop is
never left; `vertLoopInt` runs it on 32-bit `int`s. -/
def vertLoop (x : ℤ) : ℕ → ℤ → List Pixel
  | 0, _ => []
  | n + 1, y => (x, y) :: vertLoop x n (y + 1)

/-- The decision loop shared by the four slope regimes, with `n` iterations
left: plot `(x, y)`; when `pk < 0` move by `(ax, ay)` and add `inc1` to `pk`,
otherwise move by `(ux, uy)` and add `inc2`. -/
def bresLoop (ax ay ux uy inc1 inc2 : ℤ) : ℕ → ℤ → ℤ → ℤ → List Pixel
  | 0, _, _, _ => []
  | n + 1, x, y, pk =>
      (x, y) ::
        (if pk < 0 then bresLoop ax ay ux uy inc1 inc2 n (x + ax) (y + ay) (pk + inc1)
         else bresLoop ax ay ux uy inc1 inc2 n (x + ux) (y + uy) (pk + inc2))

/-- The slope `float(y2 - y1) / float(x2 - x1)`. -/
def bresSlope (fl : ℚ → ℚ) (x1 y1 x2 y2 : ℤ) : ℚ :=
  fl (fl ((y2 - y1 : ℤ) : ℚ) / fl ((x2 - x1 : ℤ) : ℚ))

/-- The three conditional `std::swap` pairs of `drawLineBresenham`, applied in
order with the slope `m` computed before them; returns `(x1, y1, x2, y2)`. -/
def bresNormalize (m : ℚ) (x1 y1 x2 y2 : ℤ) : ℤ × ℤ × ℤ × ℤ :=
  let s1 : ℤ × ℤ × ℤ × ℤ :=
    if |m| ≤ 1 ∧ x1 > x2 then (x2, y2, x1, y1) else (x1, y1, x2, y2)
  let s2 : ℤ × ℤ × ℤ × ℤ :=
    if m > 1 ∧ s1.2.1 > s1.2.2.2 then (s1.2.2.1, s1.2.2.2, s1.1, s1.2.1) else s1
  if m < -1 ∧ s2.2.1 < s2.2.2.2 then (s2.2.2.1, s2.2.2.2, s2.1, s2.2.1) else s2

/-- The four slope regimes of `drawLineBresenham`, entered with the endpoints
as they are after the swaps. -/
def bresRegimes (fl : ℚ → ℚ) (x1 y1 x2 y2 : ℤ) : List Pixel :=
  let m := bresSlope fl x1 y1 x2 y2
  if 0 ≤ m ∧ m ≤ 1 then
    bresLoop 1 0 1 1 (2 * (y2 - y1)) (2 * (y2 - y1) - 2 * (x2 - x1))
      (x2 - x1 + 1).toNat x1 y1 (2 * (y2 - y1) - (x2 - x1))
  else if m > 1 then
    bresLoop 0 1 1 1 (2 * (x2 - x1)) (2 * (x2 - x1) - 2 * (y2 - y1))
      (y2 - y1 + 1).toNat x1 y1 (2 * (x2 - x1) - (y2 - y1))
  else if m < 0 ∧ m ≥ -1 then
    bresLoop 1 0 1 (-1) (2 * (y1 - y2)) (2 * (y1 - y2) - 2 * (x2 - x1))
      (x2 - x1 + 1).toNat x1 y1 (2 * (y1 - y2) - (x2 - x1))
  else
    bresLoop 0 (-1) 1 (-1) (2 * (x2 - x1)) (2 * (x2 - x1) - 2 * (y1 - y2))
      (y1 - y2 + 1).toNat x1 y1 (2 * (x2 - x1) - (y1 - y2))

/-- The function `drawLineBresenham` over a `float` rounding `fl`. -/
def drawLineBresenhamWith (fl : ℚ → ℚ) (x1 y1 x2 y2 : ℤ) : List Pixel :=
  if x1 = x2 then
    let ys := if y1 < y2 then y1 else y2
    let ye := if y1 < y2 then y2 else y1
    vertLoop x1 (ye - ys + 1).toNat ys
  else
    let n := bresNormalize (bresSlope fl x1 y1 x2 y2) x1 y1 x2 y2
    bresRegimes fl n.1 n.2.1 n.2.2.1 n.2.2.2

/-- The function `drawLineBresenham` as compiled: `float` is binary32. -/
def drawLineBresenham (x1 y1 x2 y2 : ℤ) : List Pixel :=
  drawLineBresenhamWith f32 x1 y1 x2 y2

/-! ## `drawCircleMidpoint` -/

/-- The lambda `plot8` of `drawCircleMidpoint`, for the centre `(cx, cy)`. -/
def plot8 (cx cy px py : ℤ) : List Pixel :=
  [(cx + px, cy + py), (cx + py, cy + px),
   (cx - px, cy + py), (cx - py, cy + px),
   (cx - px, cy - py), (cx - py, cy - px),
   (cx + px, cy - py), (cx + py, cy - px)]

/-- The loop `while (x < y) { plot8(x, y); ... }` of `drawCircleMidpoint`, run
for at most `fuel` iterations. -/
def circleLoop (cx cy : ℤ) : ℕ → ℤ → ℤ → ℤ → List Pixel
  | 0, _, _, _ => []
  | fuel + 1, x, y, p =>
      if x < y then
        plot8 cx cy x y ++
          (if p < 0 then circleLoop cx cy fuel (x + 1) y (p + 2 * (x + 1) + 3)
           else circleLoop cx cy fuel (x + 1) (y - 1) (p + 2 * (x + 1) - 2 * (y - 1) + 5))
      else []

/-- The function `drawCircleMidpoint`.  Every iteration lowers `y - x` by at
least one, so `r` iterations exhaust the loop (`drawCircleMidpoint_fuel`). -/
def drawCircleMidpoint (cx cy r : ℤ) : List Pixel :=
  circleLoop cx cy r.toNat 0 r (1 - r)

/-- The eight sign/swap images of an offset `(a, b)` about `(cx, cy)` all lie in `l`. -/
def Sym8 (cx cy : ℤ) (l : List Pixel) (a b : ℤ) : Prop :=
  (cx + a, cy + b) ∈ l ∧ (cx - a, cy + b) ∈ l ∧ (cx + a, cy - b) ∈ l ∧ (cx - a, cy - b) ∈ l ∧
  (cx + b, cy + a) ∈ l ∧ (cx - b, cy + a) ∈ l ∧ (cx + b, cy - a) ∈ l ∧ (cx - b, cy - a) ∈ l

/-- The values of `x` and `y` with which the `while (x < y)` loop of
`drawCircleMidpoint` is left, the loop run for at most `fuel` iterations. -/
def circleExit : ℕ → ℤ → ℤ → ℤ → ℤ × ℤ
  | 0, x, y, _ => (x, y)
  | fuel + 1, x, y, p =>
      if x < y then
        (if p < 0 then circleExit fuel (x + 1) y (p + 2 * (x + 1) + 3)
         else circleExit fuel (x + 1) (y - 1) (p + 2 * (x + 1) - 2 * (y - 1) + 5))
      else (x, y)

/-- Two consecutive pixels of a line driven on `x`: one column apart, at most
one row apart. -/
abbrev stepAlongX (p q : Pixel) : Prop := |q.1 - p.1| = 1 ∧ |q.2 - p.2| ≤ 1

/-- Two consecutive pixels of a line driven on `y`: one row apart, at most one
column apart. -/
abbrev stepAlongY (p q : Pixel) : Prop := |q.2 - p.2| = 1 ∧ |q.1 - p.1| ≤ 1

/-! ## Floating point: `double`

The 2D transforms evaluate the angle conversion and the products with `cos`
and `sin` in `double`: `M_PI` is a `double` literal and the unqualified calls
`cos(rad)` and `sin(rad)` select the `double` functions of the C library.
Signed zeros are identified. -/

/-- Exponent of the unit in the last place at `q` of the binary format with
`p + 1` significant bits and least normal exponent `emin`. -/
def fpExp (p emin : ℤ) (q : ℚ) : ℤ := max (ilog2 q) emin - p

/-- Rounding to nearest, ties to even, into the binary format with `p + 1`
significant bits and least normal exponent `emin`; `f32` is the instance
`p = 23`, `emin = -126`. -/
def fpRound (p emin : ℤ) (q : ℚ) : ℚ :=
  roundEven (q / 2 ^ fpExp p emin q) * 2 ^ fpExp p emin q

/-- IEEE-754 binary64 rounding (nearest, ties to even) of an exact value:
53 significant bits, least normal exponent `-1022`. -/
def f64 (q : ℚ) : ℚ := fpRound 52 (-1022) q

/-- The macro `M_PI`: the `double` denoted by the literal
`3.14159265358979323846`. -/
def M_PI : ℚ := f64 (314159265358979323846 / 100000000000000000000)

/-! ## 2D transforms -/

/-- The struct `Vec2 { float x, y; }` over the carrier `K` of `float` values. -/
structure Vec2 (K : Type) where
  x : K
  y : K

/-- What `rotate2D` takes from outside the `float` arithmetic: the value
`degRad` of the constant `M_PI / 180.0f`, the rounding `fd` of `double`
operations, and the library functions `cos` and `sin`. -/
structure Trig (K : Type) where
  degRad : K
  fd : K → K
  cos : K → K
  sin : K → K

/-- The function `translate2D`: `p.x += tx; p.y += ty;`. -/
def translate2D {K : Type} [Field K] (fl : K → K) (p : Vec2 K) (tx ty : K) : Vec2 K :=
  ⟨fl (p.x + tx), fl (p.y + ty)⟩

/-- The function `scale2D`: `p.x *= sx; p.y *= sy;`. -/
def scale2D {K : Type} [Field K] (fl : K → K) (p : Vec2 K) (sx sy : K) : Vec2 K :=
  ⟨fl (p.x * sx), fl (p.y * sy)⟩

/-- The function `rotate2D`: `rad = angle * (M_PI / 180.0f)` is a `double`
product stored to `float`; `newX = p.x * cos(rad) - p.y * sin(rad)` and
`newY = p.x * sin(rad) + p.y * cos(rad)` are `double` expressions stored to
`float`, both computed from the coordinates on entry. -/
def rotate2D {K : Type} [Field K] (fl : K → K) (T : Trig K) (p : Vec2 K) (angle : K) :
    Vec2 K :=
  let rad := fl (T.fd (angle * T.degRad))
  let newX := fl (T.fd (T.fd (p.x * T.cos rad) - T.fd (p.y * T.sin rad)))
  let newY := fl (T.fd (T.fd (p.x * T.sin rad) + T.fd (p.y * T.cos rad)))
  ⟨newX, newY⟩

/-- The function `reflectX`, reflection about the X axis: `p.y = -p.y;`. -/
def reflectX {K : Type} [Field K] (p : Vec2 K) : Vec2 K := ⟨p.x, -p.y⟩

/-- The function `reflectY`, reflection about the Y axis: `p.x = -p.x;`. -/
def reflectY {K : Type} [Field K] (p : Vec2 K) : Vec2 K := ⟨-p.x, p.y⟩

/-- The function `shear2D`: `return { p.x + shx * p.y, p.y + shy * p.x };`. -/
def shear2D {K : Type} [Field K] (fl : K → K) (p : Vec2 K) (shx shy : K) : Vec2 K :=
  ⟨fl (p.x + fl (shx * p.y)), fl (p.y + fl (shy * p.x))⟩

/-- The function `applyAllTransforms`: `p` is reassigned by `scale2D`,
`rotate2D`, `reflectX` if `doReflectX`, `reflectY` if `doReflectY`, `shear2D`
and `translate2D`, in this order. -/
def applyAllTransforms {K : Type} [Field K] (fl : K → K) (T : Trig K) (p : Vec2 K)
    (sx sy rotDeg : K) (doReflectX doReflectY : Bool) (shx shy tx ty : K) : Vec2 K :=
  let p := scale2D fl p sx sy
  let p := rotate2D fl T p rotDeg
  let p := if doReflectX then reflectX p else p
  let p := if doReflectY then reflectY p else p
  let p := shear2D fl p shx shy
  translate2D fl p tx ty

/-- The `double` side of the compiled program: binary64 rounding, the constant
`M_PI / 180.0f` folded in binary64, and the `cos` and `sin` of the C library,
which the source does not fix and which are parameters here. -/
def libm (cosLib sinLib : ℚ → ℚ) : Trig ℚ :=
  ⟨f64 (M_PI / 180), f64, cosLib, sinLib⟩

/-- The accuracy asked of the library functions at the argument `t`: the
values returned for `cos(t)` and `sin(t)` are within `2^(-30)` of the real
cosine and sine. -/
def LibmAccurateAt (T : Trig ℚ) (t : ℚ) : Prop :=
  |((T.cos t : ℚ) : ℝ) - Real.cos ((t : ℚ) : ℝ)| ≤ 1 / 2 ^ 30 ∧
    |((T.sin t : ℚ) : ℝ) - Real.sin ((t : ℚ) : ℝ)| ≤ 1 / 2 ^ 30

/-- A table of `cos` at the three values of `rad` that the angles `0`, `90`
and `180` are converted to, to 14 decimals: a concrete stand-in for the
library function at these arguments. -/
def cosAt (t : ℚ) : ℚ :=
  if t = 0 then 1
  else if t = 13176795 / 8388608 then -(4371139 / 100000000000000)
  else -1

/-- A table of `sin` at the three values of `rad` that the angles `0`, `90`
and `180` are converted to, to 14 decimals. -/
def sinAt (t : ℚ) : ℚ :=
  if t = 0 then 0
  else if t = 13176795 / 8388608 then 1
  else -(8742278 / 100000000000000)

/-! ## The line rasterizers with checked divisions -/

/-- A `float` division that reports a zero divisor: `none` when `b = 0`,
otherwise the rounded quotient. -/
def divChecked (fl : ℚ → ℚ) (a b : ℚ) : Option ℚ :=
  if b = 0 then none else some (fl (a / b))

/-- The function `drawLineDDA` with the divisions `xdif / steps` and
`ydif / steps` checked: `none` when one of them is executed with a zero
divisor. -/
def drawLineDDAChecked (fl : ℚ → ℚ) (x1 y1 x2 y2 : ℤ) : Option (List Pixel) :=
  let xdif := fl (fl x2 - fl x1)
  let ydif := fl (fl y2 - fl y1)
  let steps := ddaSteps fl x1 y1 x2 y2
  if steps = 0 then some [(x1, y1)]
  else
    (divChecked fl xdif (fl steps)).bind fun xinc =>
      (divChecked fl ydif (fl steps)).bind fun yinc =>
        some (ddaLoop fl xinc yinc (steps + 1).toNat (fl x1) (fl y1))

/-- The four slope regimes of `drawLineBresenham` with the recomputed slope
`m = float(dy) / float(dx)` checked. -/
def bresRegimesChecked (fl : ℚ → ℚ) (x1 y1 x2 y2 : ℤ) : Option (List Pixel) :=
  (divChecked fl (fl ((y2 - y1 : ℤ) : ℚ)) (fl ((x2 - x1 : ℤ) : ℚ))).bind fun m =>
    some
      (if 0 ≤ m ∧ m ≤ 1 then
        bresLoop 1 0 1 1 (2 * (y2 - y1)) (2 * (y2 - y1) - 2 * (x2 - x1))
          (x2 - x1 + 1).toNat x1 y1 (2 * (y2 - y1) - (x2 - x1))
      else if m > 1 then
        bresLoop 0 1 1 1 (2 * (x2 - x1)) (2 * (x2 - x1) - 2 * (y2 - y1))
          (y2 - y1 + 1).toNat x1 y1 (2 * (x2 - x1) - (y2 - y1))
      else if m < 0 ∧ m ≥ -1 then
        bresLoop 1 0 1 (-1) (2 * (y1 - y2)) (2 * (y1 - y2) - 2 * (x2 - x1))
          (x2 - x1 + 1).toNat x1 y1 (2 * (y1 - y2) - (x2 - x1))
      else
        bresLoop 0 (-1) 1 (-1) (2 * (x2 - x1)) (2 * (x2 - x1) - 2 * (y1 - y2))
          (y1 - y2 + 1).toNat x1 y1 (2 * (x2 - x1) - (y1 - y2)))

/-- The function `drawLineBresenham` with both slope computations checked:
`none` when one of them is executed with a zero divisor. -/
def drawLineBresenhamChecked (fl : ℚ → ℚ) (x1 y1 x2 y2 : ℤ) : Option (List Pixel) :=
  if x1 = x2 then
    let ys := if y1 < y2 then y1 else y2
    let ye := if y1 < y2 then y2 else y1
    some (vertLoop x1 (ye - ys + 1).toNat ys)
  else
    (divChecked fl (fl ((y2 - y1 : ℤ) : ℚ)) (fl ((x2 - x1 : ℤ) : ℚ))).bind fun m =>
      let n := bresNormalize m x1 y1 x2 y2
      bresRegimesChecked fl n.1 n.2.1 n.2.2.1 n.2.2.2

/-! ## Animation state and the keyboard handler -/

/-- The global animation states and toggle flags of the program. -/
structure SceneState where
  sunAngle : ℚ
  cloudOffset : ℚ
  boatPosition : ℚ
  birdOffset : ℚ
  windmillAngle : ℚ
  carPosition : ℚ
  busPosition : ℚ
  isDay : Bool
  animationPaused : Bool
  swingAngle : ℚ
  swingForward : Bool
  planePosition : ℚ
  isRaining : Bool
  rainOffset : ℚ
  speedFactor : ℚ
  trainPosition : ℚ
  personPosition : ℚ
  riverWave : ℚ
  fishPosition : ℚ
  smokeOffset : ℚ
  dayNightBlend : ℚ
  sunGlow : ℚ
  windIntensity : ℚ
  windUser : ℚ
  trainBogieCount : ℤ
  balloonPosition : ℚ
  trafficTimer : ℚ
  trafficState : ℤ
  festivalMode : Bool
  kitePosition : ℚ
  showBirds : Bool
  showPlane : Bool
  showTrain : Bool
  showLights : Bool
  showPerson : Bool
  useScaleT : Bool
  useRotateT : Bool
  useReflectT : Bool
  useShearT : Bool

/-- The constant `WIDTH`. -/
def WIDTH : ℤ := 1400

/-- The values the globals are initialised with at program start. -/
def initialState : SceneState where
  sunAngle := 0
  cloudOffset := 0
  boatPosition := 0
  birdOffset := 0
  windmillAngle := 0
  carPosition := 0
  busPosition := -300
  isDay := true
  animationPaused := false
  swingAngle := 0
  swingForward := true
  planePosition := 0
  isRaining := false
  rainOffset := 0
  speedFactor := 1
  trainPosition := f32 ((WIDTH : ℚ) + 400)
  personPosition := 0
  riverWave := 0
  fishPosition := -300
  smokeOffset := 0
  dayNightBlend := 1
  sunGlow := 0
  windIntensity := 1
  windUser := 1
  trainBogieCount := 5
  balloonPosition := 0
  trafficTimer := 0
  trafficState := 0
  festivalMode := false
  kitePosition := 0
  showBirds := true
  showPlane := true
  showTrain := true
  showLights := true
  showPerson := true
  useScaleT := false
  useRotateT := false
  useReflectT := false
  useShearT := false

/-- The branch `case 'e': case 'E':` of `keyboard`. -/
def keyboardReset (s : SceneState) : SceneState :=
  { s with
    sunAngle := 0
    cloudOffset := 0
    boatPosition := 0
    birdOffset := 0
    windmillAngle := 0
    carPosition := 0
    busPosition := -300
    swingAngle := 0
    swingForward := true
    planePosition := 0
    rainOffset := 0
    speedFactor := 1
    trainPosition := f32 ((WIDTH : ℚ) + 400)
    personPosition := 0
    riverWave := 0
    fishPosition := 0
    smokeOffset := 0
    windIntensity := 1
    dayNightBlend := if s.isDay then 1 else 0
    balloonPosition := 0
    trafficTimer := 0
    trafficState := 0
    kitePosition := 0
    showBirds := true
    showPlane := true
    showTrain := true
    showLights := true
    showPerson := true
    festivalMode := false
    useScaleT := true
    useRotateT := true
    useReflectT := true
    useShearT := true }

/-- The function `keyboard(key, x, y)` as a transition of the globals; the
`printf` calls are left out and `exit(0)` (key 27) is `none`. -/
def keyboard (key : Char) (s : SceneState) : Option SceneState :=
  if key = 'p' ∨ key = 'P' then some { s with animationPaused := !s.animationPaused }
  else if key = 'd' ∨ key = 'D' then
    some { s with sunAngle := f32 (3 / 10), isDay := true, dayNightBlend := 1 }
  else if key = 'n' ∨ key = 'N' then
    some { s with sunAngle := f32 (17 / 5), isDay := false, dayNightBlend := 0 }
  else if key = '1' then
    let v := f32 (s.speedFactor * f32 (13 / 10))
    some { s with speedFactor := if v > 8 then 8 else v }
  else if key = '2' then
    let v := f32 (s.speedFactor * f32 (7 / 10))
    some { s with speedFactor := if v < f32 (1 / 10) then f32 (1 / 10) else v }
  else if key = 'w' ∨ key = 'W' then
    let v := f32 (s.windUser + f32 (1 / 5))
    some { s with windUser := if v > 2 then 2 else v }
  else if key = 's' ∨ key = 'S' then
    let v := f32 (s.windUser - f32 (1 / 5))
    some { s with windUser := if v < f32 (1 / 5) then f32 (1 / 5) else v }
  else if key = 'b' ∨ key = 'B' then some { s with showBirds := !s.showBirds }
  else if key = 'a' ∨ key = 'A' then some { s with showPlane := !s.showPlane }
  else if key = 'g' ∨ key = 'G' then some { s with showTrain := !s.showTrain }
  else if key = 'l' ∨ key = 'L' then some { s with showLights := !s.showLights }
  else if key = 'h' ∨ key = 'H' then some { s with showPerson := !s.showPerson }
  else if key = 'f' ∨ key = 'F' then some { s with festivalMode := !s.festivalMode }
  else if key = 'r' ∨ key = 'R' then some { s with isRaining := !s.isRaining }
  else if key = 'z' ∨ key = 'Z' then some { s with useScaleT := !s.useScaleT }
  else if key = 'x' ∨ key = 'X' then some { s with useRotateT := !s.useRotateT }
  else if key = 'c' ∨ key = 'C' then some { s with useReflectT := !s.useReflectT }
  else if key = 'v' ∨ key = 'V' then some { s with useShearT := !s.useShearT }
  else if key = 'e' ∨ key = 'E' then some (keyboardReset s)
  else if key = Char.ofNat 27 then none
  else some s

/-- The values `(x, y, p)` at the start of every iteration of the
`while (x < y)` loop of `drawCircleMidpoint`, the loop run for at most `fuel`
iterations. -/
def circleStates : ℕ → ℤ → ℤ → ℤ → List (ℤ × ℤ × ℤ)
  | 0, _, _, _ => []
  | fuel + 1, x, y, p =>
      if x < y then
        (x, y, p) ::
          (if p < 0 then circleStates fuel (x + 1) y (p + 2 * (x + 1) + 3)
           else circleStates fuel (x + 1) (y - 1) (p + 2 * (x + 1) - 2 * (y - 1) + 5))
      else []

/-- The decision value of the classical midpoint circle algorithm at the
octant point `(x, y)`: the circle function at the midpoint `(x+1, y-1/2)`
minus `1/4`. -/
def midpointDecision (r x y : ℤ) : ℤ := (x + 1) ^ 2 + y ^ 2 - y - r ^ 2

/-- The number of minor-axis steps taken before the `i`-th pixel of a
Bresenham loop with major extent `a` and minor extent `b`:
`⌊(2·i·b + a) / (2·a)⌋`, which is `i·b/a` rounded to nearest, halves up. -/
def bresMinor (a b : ℤ) (i : ℕ) : ℤ := (2 * (i : ℤ) * b + a) / (2 * a)

/-! ## The vertical loop on 32-bit `int`s

The rasterizers above take `int` values as integers.  The one place where
that hides a behaviour of the compiled program is the loop condition `y <= ye`
of the vertical case: for `ye = INT_MAX` it cannot fail.  The definitions
below run that loop with `y++` as the machine performs it. -/

/-- The largest `int`, `2^31 - 1`. -/
def INT_MAX : ℤ := 2147483647

/-- The operation `y++` on a 32-bit `int` as the compiled program performs it:
the successor, with `INT_MAX` wrapping to `INT_MIN`. -/
def intSucc (y : ℤ) : ℤ := if y = INT_MAX then -2147483648 else y + 1

/-- The loop `for (int y = ys; y <= ye; y++) plotPoint(x1, y);` on 32-bit
`int`s, run for at most `fuel` tests of `y <= ye`: the pixels plotted so far,
and whether the loop has been left. -/
def vertLoopInt (x ye : ℤ) : ℕ → ℤ → List Pixel × Bool
  | 0, _ => ([], false)
  | fuel + 1, y =>
      if y ≤ ye then
        ((x, y) :: (vertLoopInt x ye fuel (intSucc y)).1, (vertLoopInt x ye fuel (intSucc y)).2)
      else ([], true)

/-- The function `drawLineBresenham` with its vertical loop run on 32-bit
`int`s for at most `fuel` tests: the pixels plotted so far, and whether the
function has returned.  For `x1 ≠ x2` the slope regimes run the counted loops
`for (i = 0; i <= d; i++)` with `d = x2 - x1` or `d = |y2 - y1|`, which are
left after `d + 1` iterations when `d < INT_MAX`; they are taken as returning
what `bresRegimes` plots, and the statements made on this case bound the
coordinate differences by `2^24`. -/
def drawLineBresenhamRun (fl : ℚ → ℚ) (fuel : ℕ) (x1 y1 x2 y2 : ℤ) : List Pixel × Bool :=
  if x1 = x2 then
    let ys := if y1 < y2 then y1 else y2
    let ye := if y1 < y2 then y2 else y1
    vertLoopInt x1 ye fuel ys
  else
    let n := bresNormalize (bresSlope fl x1 y1 x2 y2) x1 y1 x2 y2
    (bresRegimes fl n.1 n.2.1 n.2.2.1 n.2.2.2, true)

/-! ## Facts about the binary32 rounding -/

theorem log2Aux_spec : ∀ (fuel n : ℕ), n ≤ fuel → 1 ≤ n →
    2 ^ log2Aux fuel n ≤ n ∧ n < 2 ^ (log2Aux fuel n + 1) := by
  intro fuel
  induction fuel with
  | zero => intro n h1 h2; omega
  | succ f ih =>
      intro n hn h1
      rw [log2Aux]
      by_cases h2 : n < 2
      · rw [if_pos h2]
        simp only [pow_zero, zero_add, pow_one]
        omega
      · rw [if_neg h2]
        obtain ⟨ha, hb⟩ := ih (n / 2) (by omega) (by omega)
        rw [pow_succ] at hb
        rw [pow_succ, pow_succ, pow_succ]
        generalize 2 ^ log2Aux f (n / 2) = a at ha hb ⊢
        omega

theorem natLog2_spec (n : ℕ) (h : 1 ≤ n) :
    2 ^ natLog2 n ≤ n ∧ n < 2 ^ (natLog2 n + 1) :=
  log2Aux_spec n n le_rfl h

theorem rat_abs_eq_div (q : ℚ) : |q| = (q.num.natAbs : ℚ) / (q.den : ℚ) := by
  have hd : (0 : ℚ) < (q.den : ℚ) := by exact_mod_cast q.den_pos
  have hn : ((q.num.natAbs : ℕ) : ℚ) = |(q.num : ℚ)| := by
    rw [Nat.cast_natAbs, Int.cast_abs]
  conv_lhs => rw [← Rat.num_div_den q]
  rw [abs_div, abs_of_pos hd, hn]

/-- The exponent computed by `ilog2` brackets `|q|` between consecutive powers of two. -/
theorem ilog2_spec (q : ℚ) (hq : q ≠ 0) :
    (2 : ℚ) ^ ilog2 q ≤ |q| ∧ |q| < (2 : ℚ) ^ (ilog2 q + 1) := by
  have h2 : (2 : ℚ) ≠ 0 := by norm_num
  have hn : 1 ≤ q.num.natAbs := Int.natAbs_pos.mpr (Rat.num_ne_zero.mpr hq)
  have hd : 1 ≤ q.den := q.den_pos
  obtain ⟨ha1, ha2⟩ := natLog2_spec _ hn
  obtain ⟨hb1, hb2⟩ := natLog2_spec _ hd
  have hdpos : (0 : ℚ) < (q.den : ℚ) := by exact_mod_cast q.den_pos
  have ha1' : (2 : ℚ) ^ (natLog2 q.num.natAbs : ℤ) ≤ (q.num.natAbs : ℚ) := by
    rw [zpow_natCast]; exact_mod_cast ha1
  have ha2' : (q.num.natAbs : ℚ) < (2 : ℚ) ^ (natLog2 q.num.natAbs : ℤ) * 2 := by
    rw [zpow_natCast, ← pow_succ]; exact_mod_cast ha2
  have hb1' : (2 : ℚ) ^ (natLog2 q.den : ℤ) ≤ (q.den : ℚ) := by
    rw [zpow_natCast]; exact_mod_cast hb1
  have hb2' : (q.den : ℚ) < (2 : ℚ) ^ (natLog2 q.den : ℤ) * 2 := by
    rw [zpow_natCast, ← pow_succ]; exact_mod_cast hb2
  have habs := rat_abs_eq_div q
  set a : ℤ := (natLog2 q.num.natAbs : ℤ) with ha
  set b : ℤ := (natLog2 q.den : ℤ) with hb
  have hpa : (0 : ℚ) < 2 ^ a := zpow_pos (by norm_num) _
  have hpb : (0 : ℚ) < 2 ^ b := zpow_pos (by norm_num) _
  have hk : (2 : ℚ) ^ (a - b) = 2 ^ a / 2 ^ b := zpow_sub₀ h2 a b
  -- upper bound `|q| < 2^(a-b+1)` and lower bound `2^(a-b-1) ≤ |q|`
  have hup : |q| < (2 : ℚ) ^ (a - b + 1) := by
    rw [habs, zpow_add_one₀ h2, hk, div_lt_iff₀ hdpos]
    have : 2 ^ a / 2 ^ b * 2 * (q.den : ℚ) = (2 ^ a * 2) * ((q.den : ℚ) / 2 ^ b) := by
      field_simp
    rw [this]
    have h1 : (1 : ℚ) ≤ (q.den : ℚ) / 2 ^ b := (one_le_div hpb).mpr hb1'
    nlinarith
  have hlo : (2 : ℚ) ^ (a - b - 1) ≤ |q| := by
    rw [habs, zpow_sub_one₀ h2, hk, le_div_iff₀ hdpos]
    have : 2 ^ a / 2 ^ b * 2⁻¹ * (q.den : ℚ) = 2 ^ a * ((q.den : ℚ) / (2 ^ b * 2)) := by
      field_simp
    rw [this]
    have h1 : (q.den : ℚ) / (2 ^ b * 2) ≤ 1 := (div_le_one (by positivity)).mpr hb2'.le
    nlinarith
  simp only [ilog2]
  split_ifs with hc
  · exact ⟨hc, hup⟩
  · refine ⟨hlo, ?_⟩
    rw [sub_add_cancel]
    exact not_le.mp hc

/-- The bracketing exponent is unique, so `ilog2` can be read off any bracket. -/
theorem ilog2_unique (q : ℚ) (e : ℤ) (h1 : (2 : ℚ) ^ e ≤ |q|) (h2 : |q| < (2 : ℚ) ^ (e + 1)) :
    ilog2 q = e := by
  have hq : q ≠ 0 := by
    intro h0
    rw [h0, abs_zero] at h1
    exact absurd h1 (not_le.mpr (zpow_pos (by norm_num) _))
  obtain ⟨s1, s2⟩ := ilog2_spec q hq
  have a1 : e < ilog2 q + 1 :=
    (zpow_lt_zpow_iff_right₀ (by norm_num : (1 : ℚ) < 2)).mp (lt_of_le_of_lt h1 s2)
  have a2 : ilog2 q < e + 1 :=
    (zpow_lt_zpow_iff_right₀ (by norm_num : (1 : ℚ) < 2)).mp (lt_of_le_of_lt s1 h2)
  omega

theorem roundEven_intCast (k : ℤ) : roundEven (k : ℚ) = k := by
  simp [roundEven]

/-- The value `roundEven` picks is within one half of its argument. -/
theorem roundEven_bounds (q : ℚ) :
    q - 1 / 2 ≤ (roundEven q : ℚ) ∧ (roundEven q : ℚ) ≤ q + 1 / 2 := by
  have h1 := Int.floor_le q
  have h2 := Int.lt_floor_add_one q
  unfold roundEven
  split_ifs with a b c <;> push_cast <;> constructor <;> linarith

theorem roundEven_le_of_le (q : ℚ) (n : ℤ) (h : q ≤ n) : roundEven q ≤ n := by
  have hb := (roundEven_bounds q).2
  have : (roundEven q : ℚ) < (n : ℚ) + 1 := by linarith
  have : roundEven q < n + 1 := by exact_mod_cast this
  omega

theorem le_roundEven_of_le (q : ℚ) (n : ℤ) (h : (n : ℚ) ≤ q) : n ≤ roundEven q := by
  have hb := (roundEven_bounds q).1
  have : (n : ℚ) - 1 < (roundEven q : ℚ) := by linarith
  have : n - 1 < roundEven q := by exact_mod_cast this
  omega

theorem lt_roundEven_of_half_lt (q : ℚ) (n : ℤ) (h : (n : ℚ) + 1 / 2 < q) :
    n < roundEven q := by
  have hb := (roundEven_bounds q).1
  have : (n : ℚ) < (roundEven q : ℚ) := by linarith
  exact_mod_cast this

theorem roundEven_neg (q : ℚ) : roundEven (-q) = -roundEven q := by
  by_cases hint : (⌊q⌋ : ℚ) = q
  · rw [← hint, ← Int.cast_neg, roundEven_intCast, roundEven_intCast]
  · have h1 := Int.floor_le q
    have h2 := Int.lt_floor_add_one q
    have h3 : (⌊q⌋ : ℚ) < q := lt_of_le_of_ne h1 hint
    have hfl : ⌊-q⌋ = -⌊q⌋ - 1 := by
      rw [Int.floor_eq_iff]
      push_cast
      constructor <;> linarith
    unfold roundEven
    rw [hfl]
    push_cast
    split_ifs <;> first | omega | (exfalso; linarith)

theorem f32_zero : f32 0 = 0 := by
  simp [f32, roundEven]

theorem ilog2_neg (q : ℚ) : ilog2 (-q) = ilog2 q := by
  simp [ilog2]

theorem f32Exp_neg (q : ℚ) : f32Exp (-q) = f32Exp q := by
  simp [f32Exp, ilog2_neg]

/-- Rounding to nearest-even is symmetric about zero. -/
theorem f32_neg (q : ℚ) : f32 (-q) = -f32 q := by
  unfold f32
  rw [f32Exp_neg, neg_div, roundEven_neg]
  push_cast
  ring

theorem f32_nonneg (q : ℚ) (h : 0 ≤ q) : 0 ≤ f32 q := by
  unfold f32
  have hp : (0 : ℚ) < 2 ^ f32Exp q := zpow_pos (by norm_num) _
  have : (0 : ℤ) ≤ roundEven (q / 2 ^ f32Exp q) :=
    le_roundEven_of_le _ 0 (by push_cast; positivity)
  have : (0 : ℚ) ≤ (roundEven (q / 2 ^ f32Exp q) : ℚ) := by exact_mod_cast this
  positivity

/-- A value on the binary32 grid at `q` is not crossed by rounding `q` (from below). -/
theorem f32_le_of_le_grid (q : ℚ) (k : ℤ) (h : q ≤ k * 2 ^ f32Exp q) :
    f32 q ≤ k * 2 ^ f32Exp q := by
  unfold f32
  have hp : (0 : ℚ) < 2 ^ f32Exp q := zpow_pos (by norm_num) _
  have : roundEven (q / 2 ^ f32Exp q) ≤ k :=
    roundEven_le_of_le _ k ((div_le_iff₀ hp).mpr h)
  have : (roundEven (q / 2 ^ f32Exp q) : ℚ) ≤ (k : ℚ) := by exact_mod_cast this
  exact mul_le_mul_of_nonneg_right this hp.le

/-- A value on the binary32 grid at `q` is not crossed by rounding `q` (from above). -/
theorem le_f32_of_grid_le (q : ℚ) (k : ℤ) (h : (k : ℚ) * 2 ^ f32Exp q ≤ q) :
    (k : ℚ) * 2 ^ f32Exp q ≤ f32 q := by
  unfold f32
  have hp : (0 : ℚ) < 2 ^ f32Exp q := zpow_pos (by norm_num) _
  have : k ≤ roundEven (q / 2 ^ f32Exp q) :=
    le_roundEven_of_le _ k ((le_div_iff₀ hp).mpr h)
  have : (k : ℚ) ≤ (roundEven (q / 2 ^ f32Exp q) : ℚ) := by exact_mod_cast this
  exact mul_le_mul_of_nonneg_right this hp.le

/-- A value on the binary32 grid at its own exponent is left unchanged. -/
theorem f32_exact (q : ℚ) (k : ℤ) (h : q = k * 2 ^ f32Exp q) : f32 q = q :=
  le_antisymm (le_trans (f32_le_of_le_grid q k h.le) h.ge)
    (le_trans h.le (le_f32_of_grid_le q k h.ge))

/-- Integers of magnitude up to `2^24` are binary32 values: converting them is exact. -/
theorem f32_intCast (n : ℤ) (h : |n| ≤ 16777216) : f32 (n : ℚ) = n := by
  by_cases hn : n = 0
  · subst hn; simpa using f32_zero
  have hq : (n : ℚ) ≠ 0 := by exact_mod_cast hn
  obtain ⟨s1, s2⟩ := ilog2_spec n hq
  have habs : |(n : ℚ)| = ((|n| : ℤ) : ℚ) := (Int.cast_abs).symm
  have h1 : (1 : ℚ) ≤ |(n : ℚ)| := by
    rw [habs]; exact_mod_cast Int.one_le_abs hn
  have h24 : |(n : ℚ)| ≤ (2 : ℚ) ^ (24 : ℤ) := by
    rw [habs]; norm_num; exact_mod_cast h
  have two : (1 : ℚ) < 2 := by norm_num
  have he0 : 0 ≤ ilog2 (n : ℚ) := by
    have : (2 : ℚ) ^ (0 : ℤ) < 2 ^ (ilog2 (n : ℚ) + 1) := by
      rw [zpow_zero]; exact lt_of_le_of_lt h1 s2
    have := (zpow_lt_zpow_iff_right₀ two).mp this
    omega
  have he24 : ilog2 (n : ℚ) ≤ 24 :=
    (zpow_le_zpow_iff_right₀ two).mp (le_trans s1 h24)
  have hE : f32Exp (n : ℚ) = ilog2 (n : ℚ) - 23 := by
    unfold f32Exp
    rw [max_eq_left (by omega)]
  by_cases hlt : ilog2 (n : ℚ) ≤ 23
  · apply f32_exact _ (n * 2 ^ (23 - ilog2 (n : ℚ)).toNat)
    rw [hE]
    push_cast
    rw [← zpow_natCast, Int.toNat_of_nonneg (by omega), mul_assoc,
      ← zpow_add₀ (by norm_num : (2 : ℚ) ≠ 0)]
    simp
  · have he : ilog2 (n : ℚ) = 24 := by omega
    rw [he] at s1 hE
    have hge : (16777216 : ℤ) ≤ |n| := by
      have : ((16777216 : ℤ) : ℚ) ≤ ((|n| : ℤ) : ℚ) := by
        rw [← habs]; norm_num at s1 ⊢; exact s1
      exact_mod_cast this
    have hcases : n = 16777216 ∨ n = -16777216 := by
      rcases abs_cases n with ⟨h0, _⟩ | ⟨h0, _⟩ <;> omega
    apply f32_exact _ (n / 2)
    rw [hE]
    rcases hcases with rfl | rfl <;> norm_num

/-- Rounding a positive normal value keeps at least its leading power of two. -/
theorem zpow_ilog2_le_f32 (q : ℚ) (hq : 0 < q) (he : -126 ≤ ilog2 q) :
    (2 : ℚ) ^ ilog2 q ≤ f32 q := by
  obtain ⟨s1, _⟩ := ilog2_spec q (ne_of_gt hq)
  rw [abs_of_pos hq] at s1
  have hE : f32Exp q = ilog2 q - 23 := by
    unfold f32Exp
    rw [max_eq_left he]
  have hk : ((8388608 : ℤ) : ℚ) * 2 ^ f32Exp q = 2 ^ ilog2 q := by
    rw [hE, zpow_sub₀ (by norm_num : (2 : ℚ) ≠ 0)]
    norm_num
    field_simp
  have := le_f32_of_grid_le q 8388608 (by rw [hk]; exact s1)
  rwa [hk] at this

/-- A non-zero quotient of magnitude at least `2^(-126)` does not round to zero. -/
theorem f32_pos (q : ℚ) (h : (2 : ℚ) ^ (-126 : ℤ) ≤ q) : 0 < f32 q := by
  have hq : 0 < q := lt_of_lt_of_le (zpow_pos (by norm_num) _) h
  obtain ⟨_, s2⟩ := ilog2_spec q (ne_of_gt hq)
  rw [abs_of_pos hq] at s2
  have he : -126 ≤ ilog2 q := by
    have := (zpow_lt_zpow_iff_right₀ (by norm_num : (1 : ℚ) < 2)).mp (lt_of_le_of_lt h s2)
    omega
  exact lt_of_lt_of_le (zpow_pos (by norm_num) _) (zpow_ilog2_le_f32 q hq he)

/-- Rounding does not carry a value of `[0, 1]` above `1`. -/
theorem f32_le_one (q : ℚ) (h0 : 0 ≤ q) (h1 : q ≤ 1) : f32 q ≤ 1 := by
  rcases h0.eq_or_lt with h | hpos
  · rw [← h, f32_zero]; norm_num
  obtain ⟨s1, _⟩ := ilog2_spec q (ne_of_gt hpos)
  rw [abs_of_pos hpos] at s1
  have he : ilog2 q ≤ 0 := by
    have : (2 : ℚ) ^ ilog2 q ≤ 2 ^ (0 : ℤ) := by rw [zpow_zero]; exact le_trans s1 h1
    exact (zpow_le_zpow_iff_right₀ (by norm_num : (1 : ℚ) < 2)).mp this
  have hE : f32Exp q ≤ 0 := by
    unfold f32Exp
    have : max (ilog2 q) (-126) ≤ 0 := max_le he (by norm_num)
    omega
  have hk : (((2 : ℤ) ^ (-f32Exp q).toNat : ℤ) : ℚ) * 2 ^ f32Exp q = 1 := by
    push_cast
    rw [← zpow_natCast, Int.toNat_of_nonneg (by omega),
      ← zpow_add₀ (by norm_num : (2 : ℚ) ≠ 0)]
    simp
  have := f32_le_of_le_grid q ((2 : ℤ) ^ (-f32Exp q).toNat) (by rw [hk]; exact h1)
  rwa [hk] at this

/-- A value more than half a unit in the last place above `1` rounds above `1`. -/
theorem one_lt_f32 (q : ℚ) (h : 1 + 1 / 16777216 < q) : 1 < f32 q := by
  have hq : 0 < q := by linarith
  obtain ⟨s1, s2⟩ := ilog2_spec q (ne_of_gt hq)
  rw [abs_of_pos hq] at s1 s2
  have two : (1 : ℚ) < 2 := by norm_num
  have he0 : 0 ≤ ilog2 q := by
    have : (2 : ℚ) ^ (0 : ℤ) < 2 ^ (ilog2 q + 1) := by
      rw [zpow_zero]; linarith
    have := (zpow_lt_zpow_iff_right₀ two).mp this
    omega
  rcases he0.eq_or_lt with h0 | hpos
  · have hE : f32Exp q = -23 := by
      unfold f32Exp
      rw [← h0]; norm_num
    have hlt : (8388608 : ℤ) < roundEven (q / 2 ^ f32Exp q) := by
      apply lt_roundEven_of_half_lt
      rw [hE, lt_div_iff₀ (zpow_pos (by norm_num) _)]
      norm_num
      linarith
    have hge : ((8388609 : ℤ) : ℚ) ≤ (roundEven (q / 2 ^ f32Exp q) : ℚ) := by
      exact_mod_cast hlt
    unfold f32
    rw [hE] at hge ⊢
    norm_num at hge ⊢
    linarith
  · have h2 : (2 : ℚ) ^ (1 : ℤ) ≤ 2 ^ ilog2 q :=
      (zpow_le_zpow_iff_right₀ two).mpr (by omega)
    have := zpow_ilog2_le_f32 q hq (by omega)
    norm_num at h2
    linarith

/-! ## Theorems: `drawCircleMidpoint` -/

/-- One unfolding of the `while` loop. -/
theorem circleLoop_succ (cx cy : ℤ) (fuel : ℕ) (x y p : ℤ) :
    circleLoop cx cy (fuel + 1) x y p =
      if x < y then
        plot8 cx cy x y ++
          (if p < 0 then circleLoop cx cy fuel (x + 1) y (p + 2 * (x + 1) + 3)
           else circleLoop cx cy fuel (x + 1) (y - 1) (p + 2 * (x + 1) - 2 * (y - 1) + 5))
      else [] := by
  rw [circleLoop]

/-- One spare iteration changes nothing once `fuel` covers `y - x`: the loop
has already stopped on its own condition `x < y`. -/
theorem circleLoop_fuel_succ (cx cy : ℤ) :
    ∀ (fuel : ℕ) (x y p : ℤ), (y - x).toNat ≤ fuel →
      circleLoop cx cy (fuel + 1) x y p = circleLoop cx cy fuel x y p := by
  intro fuel
  induction fuel with
  | zero =>
      intro x y p h
      have hxy : ¬ x < y := by omega
      simp [circleLoop, hxy]
  | succ n ih =>
      intro x y p h
      rw [circleLoop_succ cx cy (n + 1) x y p, circleLoop_succ cx cy n x y p]
      by_cases hxy : x < y
      · have h1 : (y - (x + 1)).toNat ≤ n := by omega
        have h2 : (y - 1 - (x + 1)).toNat ≤ n := by omega
        rw [ih (x + 1) y _ h1, ih (x + 1) (y - 1) _ h2]
      · simp [hxy]

/-- Any fuel of at least `y - x` runs the `while` loop to its natural end. -/
theorem circleLoop_fuel (cx cy : ℤ) (k fuel : ℕ) (x y p : ℤ)
    (h : (y - x).toNat ≤ fuel) :
    circleLoop cx cy (fuel + k) x y p = circleLoop cx cy fuel x y p := by
  induction k with
  | zero => rfl
  | succ k ih =>
      rw [← Nat.add_assoc, circleLoop_fuel_succ cx cy (fuel + k) x y p (by omega), ih]

/-- The fuel `r` given to the loop by `drawCircleMidpoint` is enough: with any
larger fuel the `while` loop plots the same pixels. -/
theorem drawCircleMidpoint_fuel (cx cy r : ℤ) (k : ℕ) :
    circleLoop cx cy (r.toNat + k) 0 r (1 - r) = drawCircleMidpoint cx cy r :=
  circleLoop_fuel cx cy k r.toNat 0 r (1 - r) (by simp)

/-- The loop body is never entered when `y ≤ x` at the loop head. -/
theorem circleLoop_stop (cx cy : ℤ) (fuel : ℕ) (x y p : ℤ) (h : y ≤ x) :
    circleLoop cx cy fuel x y p = [] := by
  cases fuel with
  | zero => rfl
  | succ n =>
      have hxy : ¬ x < y := by omega
      simp [circleLoop, hxy]

theorem sym8_plot8 (cx cy x y a b : ℤ) (h : (cx + a, cy + b) ∈ plot8 cx cy x y) :
    Sym8 cx cy (plot8 cx cy x y) a b := by
  simp only [plot8, List.mem_cons, Prod.mk.injEq, sub_eq_add_neg, add_right_inj,
    List.mem_nil_iff, or_false, List.mem_singleton] at h
  rcases h with h | h | h | h | h | h | h | h <;>
    (obtain ⟨ha, hb⟩ := h
     subst ha hb
     simp [Sym8, plot8, sub_eq_add_neg])

theorem sym8_append_left (cx cy : ℤ) (l1 l2 : List Pixel) (a b : ℤ)
    (h : Sym8 cx cy l1 a b) : Sym8 cx cy (l1 ++ l2) a b := by
  simp only [Sym8, List.mem_append] at h ⊢
  tauto

theorem sym8_append_right (cx cy : ℤ) (l1 l2 : List Pixel) (a b : ℤ)
    (h : Sym8 cx cy l2 a b) : Sym8 cx cy (l1 ++ l2) a b := by
  simp only [Sym8, List.mem_append] at h ⊢
  tauto

theorem sym8_circleLoop (cx cy a b : ℤ) :
    ∀ (fuel : ℕ) (x y p : ℤ), (cx + a, cy + b) ∈ circleLoop cx cy fuel x y p →
      Sym8 cx cy (circleLoop cx cy fuel x y p) a b := by
  intro fuel
  induction fuel with
  | zero => intro x y p h; simp [circleLoop] at h
  | succ n ih =>
      intro x y p h
      rw [circleLoop_succ] at h ⊢
      by_cases hxy : x < y
      · rw [if_pos hxy] at h ⊢
        rcases List.mem_append.mp h with h8 | hrest
        · exact sym8_append_left _ _ _ _ _ _ (sym8_plot8 cx cy x y a b h8)
        · apply sym8_append_right
          by_cases hp : p < 0
          · rw [if_pos hp] at hrest ⊢
            exact ih _ _ _ hrest
          · rw [if_neg hp] at hrest ⊢
            exact ih _ _ _ hrest
      · rw [if_neg hxy] at h
        simp at h

/-- Claim C6: the pixels plotted by `drawCircleMidpoint` are closed under the
eight sign/swap symmetries about the centre: with `(cx + a, cy + b)` also
`(cx ± a, cy ± b)` and `(cx ± b, cy ± a)` are plotted, for all sign choices. -/
theorem circle_closed_under_octant_symmetries (cx cy r a b : ℤ)
    (h : (cx + a, cy + b) ∈ drawCircleMidpoint cx cy r) :
    (cx + a, cy + b) ∈ drawCircleMidpoint cx cy r ∧
    (cx - a, cy + b) ∈ drawCircleMidpoint cx cy r ∧
    (cx + a, cy - b) ∈ drawCircleMidpoint cx cy r ∧
    (cx - a, cy - b) ∈ drawCircleMidpoint cx cy r ∧
    (cx + b, cy + a) ∈ drawCircleMidpoint cx cy r ∧
    (cx - b, cy + a) ∈ drawCircleMidpoint cx cy r ∧
    (cx + b, cy - a) ∈ drawCircleMidpoint cx cy r ∧
    (cx - b, cy - a) ∈ drawCircleMidpoint cx cy r :=
  sym8_circleLoop cx cy a b r.toNat 0 r (1 - r) h

/-- Witness for C6: the offset `(2, 4)` on the circle of radius `5` about the origin. -/
theorem circle_closed_under_octant_symmetries_witness :
    ((0 + 2, 0 + 4) : Pixel) ∈ drawCircleMidpoint 0 0 5 ∧
    (((0 + 2, 0 + 4) : Pixel) ∈ drawCircleMidpoint 0 0 5 ∧
    ((0 - 2, 0 + 4) : Pixel) ∈ drawCircleMidpoint 0 0 5 ∧
    ((0 + 2, 0 - 4) : Pixel) ∈ drawCircleMidpoint 0 0 5 ∧
    ((0 - 2, 0 - 4) : Pixel) ∈ drawCircleMidpoint 0 0 5 ∧
    ((0 + 4, 0 + 2) : Pixel) ∈ drawCircleMidpoint 0 0 5 ∧
    ((0 - 4, 0 + 2) : Pixel) ∈ drawCircleMidpoint 0 0 5 ∧
    ((0 + 4, 0 - 2) : Pixel) ∈ drawCircleMidpoint 0 0 5 ∧
    ((0 - 4, 0 - 2) : Pixel) ∈ drawCircleMidpoint 0 0 5) :=
  ⟨by decide, circle_closed_under_octant_symmetries 0 0 5 2 4 (by decide)⟩

/-- Claim C7: for a radius `r ≤ 0` the loop condition `x < y` fails at once, so
`drawCircleMidpoint` plots nothing, whatever the centre and however many
iterations the loop is allowed; the result is a plain (empty) list, no error. -/
theorem circle_nonpositive_radius_empty (cx cy r : ℤ) (h : r ≤ 0) :
    drawCircleMidpoint cx cy r = [] ∧
    ∀ fuel : ℕ, circleLoop cx cy fuel 0 r (1 - r) = [] :=
  ⟨circleLoop_stop cx cy _ 0 r (1 - r) h, fun fuel => circleLoop_stop cx cy fuel 0 r (1 - r) h⟩

/-- Witness for C7: `drawCircleMidpoint(0, 0, 0)`. -/
theorem circle_nonpositive_radius_empty_witness :
    (0 : ℤ) ≤ 0 ∧ (drawCircleMidpoint 0 0 0 = [] ∧
      ∀ fuel : ℕ, circleLoop 0 0 fuel 0 0 (1 - 0) = []) :=
  ⟨le_refl 0, circle_nonpositive_radius_empty 0 0 0 (le_refl 0)⟩

/-! ## Theorems: `drawLineDDA` -/

theorem ddaLoop_length (fl : ℚ → ℚ) (xinc yinc : ℚ) :
    ∀ (n : ℕ) (x y : ℚ), (ddaLoop fl xinc yinc n x y).length = n := by
  intro n
  induction n with
  | zero => intro x y; rfl
  | succ n ih => intro x y; simp [ddaLoop, ih]

theorem ddaSteps_nonneg (fl : ℚ → ℚ) (x1 y1 x2 y2 : ℤ) : 0 ≤ ddaSteps fl x1 y1 x2 y2 := by
  unfold ddaSteps
  simp only
  split_ifs <;> exact Int.floor_nonneg.mpr (abs_nonneg _)

/-- The loop of `drawLineDDA` runs `steps + 1` times, also when `steps = 0`
(where the single pixel is plotted before the early `return`). -/
theorem drawLineDDAWith_length (fl : ℚ → ℚ) (x1 y1 x2 y2 : ℤ) :
    (drawLineDDAWith fl x1 y1 x2 y2).length = (ddaSteps fl x1 y1 x2 y2).toNat + 1 := by
  have h0 := ddaSteps_nonneg fl x1 y1 x2 y2
  unfold drawLineDDAWith
  simp only
  split_ifs with h
  · rw [h]; rfl
  · rw [ddaLoop_length]
    omega

/-- With coordinates and differences of magnitude up to `2^24` the binary32
differences are exact and `steps` is the larger absolute difference. -/
theorem ddaSteps_f32 (x1 y1 x2 y2 : ℤ)
    (hx1 : |x1| ≤ 16777216) (hy1 : |y1| ≤ 16777216)
    (hx2 : |x2| ≤ 16777216) (hy2 : |y2| ≤ 16777216)
    (hdx : |x2 - x1| ≤ 16777216) (hdy : |y2 - y1| ≤ 16777216) :
    ddaSteps f32 x1 y1 x2 y2 = max |x2 - x1| |y2 - y1| := by
  have ex : f32 (f32 x2 - f32 x1) = ((x2 - x1 : ℤ) : ℚ) := by
    rw [f32_intCast x2 hx2, f32_intCast x1 hx1, ← Int.cast_sub, f32_intCast _ hdx]
  have ey : f32 (f32 y2 - f32 y1) = ((y2 - y1 : ℤ) : ℚ) := by
    rw [f32_intCast y2 hy2, f32_intCast y1 hy1, ← Int.cast_sub, f32_intCast _ hdy]
  unfold ddaSteps
  simp only [ex, ey, ← Int.cast_abs, Int.floor_intCast, gt_iff_lt, Int.cast_lt]
  split_ifs with h
  · exact (max_eq_left h.le).symm
  · exact (max_eq_right (not_lt.mp h)).symm

/-- With exact arithmetic `steps` is the larger absolute difference. -/
theorem ddaSteps_id (x1 y1 x2 y2 : ℤ) :
    ddaSteps id x1 y1 x2 y2 = max |x2 - x1| |y2 - y1| := by
  unfold ddaSteps
  simp only [id, ← Int.cast_sub, ← Int.cast_abs, Int.floor_intCast, gt_iff_lt, Int.cast_lt]
  split_ifs with h
  · exact (max_eq_left h.le).symm
  · exact (max_eq_right (not_lt.mp h)).symm

/-- With exact arithmetic the `i`-th sample of the loop is `(x + i·xinc, y + i·yinc)`. -/
theorem ddaLoop_id (xinc yinc : ℚ) :
    ∀ (n : ℕ) (x y : ℚ), ddaLoop id xinc yinc n x y =
      (List.range n).map (fun i : ℕ => (cround (x + i * xinc), cround (y + i * yinc))) := by
  intro n
  induction n with
  | zero => intro x y; rfl
  | succ n ih =>
      intro x y
      rw [ddaLoop, ih, List.range_succ_eq_map, List.map_cons, List.map_map]
      simp only [id, Nat.cast_zero, zero_mul, add_zero, List.cons.injEq, true_and]
      apply List.map_congr_left
      intro i _
      simp only [Function.comp, Nat.cast_succ]
      congr 2 <;> ring

theorem vertLoop_eq_map (x : ℤ) :
    ∀ (n : ℕ) (y : ℤ), vertLoop x n y = (List.range n).map (fun i : ℕ => (x, y + (i : ℤ))) := by
  intro n
  induction n with
  | zero => intro y; rfl
  | succ n ih =>
      intro y
      rw [vertLoop, ih, List.range_succ_eq_map, List.map_cons, List.map_map]
      simp only [Nat.cast_zero, add_zero, List.cons.injEq, true_and]
      apply List.map_congr_left
      intro i _
      simp only [Function.comp, Nat.cast_succ]
      congr 1
      ring

theorem bresLoop_length (ax ay ux uy inc1 inc2 : ℤ) :
    ∀ (n : ℕ) (x y pk : ℤ), (bresLoop ax ay ux uy inc1 inc2 n x y pk).length = n := by
  intro n
  induction n with
  | zero => intro x y pk; rfl
  | succ n ih =>
      intro x y pk
      rw [bresLoop]
      split_ifs <;> simp [ih]

/-- The vertical special case, entered when `x1 == x2`. -/
theorem drawLineBresenhamWith_vertical (fl : ℚ → ℚ) (x y1 y2 : ℤ) :
    drawLineBresenhamWith fl x y1 x y2 =
      (List.range ((max y1 y2 - min y1 y2).toNat + 1)).map
        (fun i : ℕ => (x, min y1 y2 + (i : ℤ))) := by
  unfold drawLineBresenhamWith
  rw [if_pos rfl, vertLoop_eq_map]
  by_cases h : y1 < y2
  · simp only [if_pos h, max_eq_right h.le, min_eq_left h.le]
    congr 2
    omega
  · simp only [if_neg h, max_eq_left (not_lt.mp h), min_eq_right (not_lt.mp h)]
    congr 2
    omega

/-- The slope is computed from the two differences; swapping the endpoints
negates both, which a sign-symmetric rounding cancels. -/
theorem bresSlope_swap (fl : ℚ → ℚ) (hodd : ∀ q, fl (-q) = -fl q) (x1 y1 x2 y2 : ℤ) :
    bresSlope fl x2 y2 x1 y1 = bresSlope fl x1 y1 x2 y2 := by
  unfold bresSlope
  have hy : ((y1 - y2 : ℤ) : ℚ) = -((y2 - y1 : ℤ) : ℚ) := by push_cast; ring
  have hx : ((x1 - x2 : ℤ) : ℚ) = -((x2 - x1 : ℤ) : ℚ) := by push_cast; ring
  rw [hy, hx, hodd, hodd, neg_div_neg_eq]

theorem fl_zero_of_odd (fl : ℚ → ℚ) (hodd : ∀ q, fl (-q) = -fl q) : fl 0 = 0 := by
  have h := hodd 0
  rw [neg_zero] at h
  linarith

/-- A horizontal segment has slope zero. -/
theorem bresSlope_horizontal (fl : ℚ → ℚ) (hodd : ∀ q, fl (-q) = -fl q) (x1 y x2 : ℤ) :
    bresSlope fl x1 y x2 y = 0 := by
  unfold bresSlope
  rw [sub_self, Int.cast_zero, fl_zero_of_odd fl hodd, zero_div, fl_zero_of_odd fl hodd]

theorem bresNormalize_shallow (m : ℚ) (hm : |m| ≤ 1) (x1 y1 x2 y2 : ℤ) :
    bresNormalize m x1 y1 x2 y2 = if x1 > x2 then (x2, y2, x1, y1) else (x1, y1, x2, y2) := by
  have h1 : ¬ m > 1 := not_lt.mpr (le_trans (le_abs_self m) hm)
  have h2 : ¬ m < -1 := by
    have := neg_abs_le m
    intro h; linarith
  unfold bresNormalize
  simp only [hm, h1, h2, true_and, false_and, if_false]

theorem bresNormalize_steep_pos (m : ℚ) (hm : 1 < m) (x1 y1 x2 y2 : ℤ) :
    bresNormalize m x1 y1 x2 y2 = if y1 > y2 then (x2, y2, x1, y1) else (x1, y1, x2, y2) := by
  have h1 : ¬ |m| ≤ 1 := by
    intro h; have := le_abs_self m; linarith
  have h2 : ¬ m < -1 := by intro h; linarith
  unfold bresNormalize
  simp only [hm, h1, h2, gt_iff_lt, true_and, false_and, if_false]

theorem bresNormalize_steep_neg (m : ℚ) (hm : m < -1) (x1 y1 x2 y2 : ℤ) :
    bresNormalize m x1 y1 x2 y2 = if y1 < y2 then (x2, y2, x1, y1) else (x1, y1, x2, y2) := by
  have h1 : ¬ |m| ≤ 1 := by
    intro h; have := neg_abs_le m; linarith
  have h2 : ¬ m > 1 := by intro h; linarith
  unfold bresNormalize
  simp only [hm, h1, h2, true_and, false_and, if_false]

/-- The endpoint normalisation makes the output independent of the order in
which the two endpoints are passed. -/
theorem drawLineBresenhamWith_swap (fl : ℚ → ℚ) (hodd : ∀ q, fl (-q) = -fl q)
    (x1 y1 x2 y2 : ℤ) :
    drawLineBresenhamWith fl x2 y2 x1 y1 = drawLineBresenhamWith fl x1 y1 x2 y2 := by
  by_cases hx : x1 = x2
  · subst hx
    rw [drawLineBresenhamWith_vertical, drawLineBresenhamWith_vertical, max_comm, min_comm]
  · have hx' : ¬ x2 = x1 := fun h => hx h.symm
    unfold drawLineBresenhamWith
    rw [if_neg hx, if_neg hx', bresSlope_swap fl hodd]
    have key : bresNormalize (bresSlope fl x1 y1 x2 y2) x2 y2 x1 y1 =
        bresNormalize (bresSlope fl x1 y1 x2 y2) x1 y1 x2 y2 := by
      by_cases hm : |bresSlope fl x1 y1 x2 y2| ≤ 1
      · rw [bresNormalize_shallow _ hm, bresNormalize_shallow _ hm]
        by_cases h12 : x1 > x2
        · have : ¬ x2 > x1 := by omega
          rw [if_pos h12, if_neg this]
        · have : x2 > x1 := by omega
          rw [if_neg h12, if_pos this]
      · have hy : y1 ≠ y2 := by
          intro h
          rw [h, bresSlope_horizontal fl hodd] at hm
          simp at hm
        rcases lt_or_gt_of_ne (show bresSlope fl x1 y1 x2 y2 ≠ 0 from by
          intro h; rw [h] at hm; simp at hm) with hneg | hpos
        · have hm' : bresSlope fl x1 y1 x2 y2 < -1 := by
            rw [abs_of_neg hneg] at hm; linarith
          rw [bresNormalize_steep_neg _ hm', bresNormalize_steep_neg _ hm']
          by_cases h12 : y1 < y2
          · have : ¬ y2 < y1 := by omega
            rw [if_pos h12, if_neg this]
          · have : y2 < y1 := by omega
            rw [if_neg h12, if_pos this]
        · have hm' : 1 < bresSlope fl x1 y1 x2 y2 := by
            rw [abs_of_pos hpos] at hm; linarith
          rw [bresNormalize_steep_pos _ hm', bresNormalize_steep_pos _ hm']
          by_cases h12 : y1 > y2
          · have : ¬ y2 > y1 := by omega
            rw [if_pos h12, if_neg this]
          · have : y2 > y1 := by omega
            rw [if_neg h12, if_pos this]
    simp only [key]

theorem bresRegimes_length_shallow (fl : ℚ → ℚ) (x1 y1 x2 y2 : ℤ)
    (hm : |bresSlope fl x1 y1 x2 y2| ≤ 1) :
    (bresRegimes fl x1 y1 x2 y2).length = (x2 - x1 + 1).toNat := by
  have h1 : ¬ bresSlope fl x1 y1 x2 y2 > 1 := not_lt.mpr (le_trans (le_abs_self _) hm)
  have h2 : bresSlope fl x1 y1 x2 y2 ≥ -1 := by
    have := neg_abs_le (bresSlope fl x1 y1 x2 y2)
    linarith
  have h3 : bresSlope fl x1 y1 x2 y2 ≤ 1 := le_trans (le_abs_self _) hm
  unfold bresRegimes
  simp only
  by_cases h0 : 0 ≤ bresSlope fl x1 y1 x2 y2
  · rw [if_pos ⟨h0, h3⟩, bresLoop_length]
  · rw [if_neg (fun h => h0 h.1), if_neg h1, if_pos ⟨not_le.mp h0, h2⟩, bresLoop_length]

theorem bresRegimes_length_steep_pos (fl : ℚ → ℚ) (x1 y1 x2 y2 : ℤ)
    (hm : 1 < bresSlope fl x1 y1 x2 y2) :
    (bresRegimes fl x1 y1 x2 y2).length = (y2 - y1 + 1).toNat := by
  unfold bresRegimes
  simp only
  rw [if_neg (fun h => absurd h.2 (not_le.mpr hm)), if_pos hm, bresLoop_length]

theorem bresRegimes_length_steep_neg (fl : ℚ → ℚ) (x1 y1 x2 y2 : ℤ)
    (hm : bresSlope fl x1 y1 x2 y2 < -1) :
    (bresRegimes fl x1 y1 x2 y2).length = (y1 - y2 + 1).toNat := by
  unfold bresRegimes
  simp only
  rw [if_neg (fun h => absurd h.1 (not_le.mpr (by linarith))),
    if_neg (fun h : bresSlope fl x1 y1 x2 y2 > 1 => absurd h (not_lt.mpr (by linarith))),
    if_neg (fun h => absurd h.2 (not_le.mpr hm)), bresLoop_length]

/-- A non-vertical line whose computed slope has magnitude at most `1` is
driven on `x`: one pixel per column. -/
theorem drawLineBresenhamWith_length_shallow (fl : ℚ → ℚ) (hodd : ∀ q, fl (-q) = -fl q)
    (x1 y1 x2 y2 : ℤ) (hx : x1 ≠ x2) (hm : |bresSlope fl x1 y1 x2 y2| ≤ 1) :
    ((drawLineBresenhamWith fl x1 y1 x2 y2).length : ℤ) = |x2 - x1| + 1 := by
  unfold drawLineBresenhamWith
  rw [if_neg hx, bresNormalize_shallow _ hm]
  by_cases h12 : x1 > x2
  · rw [if_pos h12]
    simp only
    rw [bresRegimes_length_shallow fl x2 y2 x1 y1 (by rw [bresSlope_swap fl hodd]; exact hm),
      abs_of_neg (by omega)]
    omega
  · rw [if_neg h12]
    simp only
    rw [bresRegimes_length_shallow fl x1 y1 x2 y2 hm, abs_of_pos (by omega)]
    omega

/-- A line whose computed slope has magnitude above `1` is driven on `y`: one
pixel per row. -/
theorem drawLineBresenhamWith_length_steep (fl : ℚ → ℚ) (hodd : ∀ q, fl (-q) = -fl q)
    (x1 y1 x2 y2 : ℤ) (hx : x1 ≠ x2) (hm : 1 < |bresSlope fl x1 y1 x2 y2|) :
    ((drawLineBresenhamWith fl x1 y1 x2 y2).length : ℤ) = |y2 - y1| + 1 := by
  have hy : y1 ≠ y2 := by
    intro h
    rw [h, bresSlope_horizontal fl hodd] at hm
    norm_num at hm
  unfold drawLineBresenhamWith
  rw [if_neg hx]
  rcases lt_or_le (bresSlope fl x1 y1 x2 y2) 0 with hneg | hpos
  · have hm' : bresSlope fl x1 y1 x2 y2 < -1 := by
      rw [abs_of_neg hneg] at hm; linarith
    rw [bresNormalize_steep_neg _ hm']
    by_cases h12 : y1 < y2
    · rw [if_pos h12]
      simp only
      rw [bresRegimes_length_steep_neg fl x2 y2 x1 y1 (by rw [bresSlope_swap fl hodd]; exact hm'),
        abs_of_pos (by omega)]
      omega
    · rw [if_neg h12]
      simp only
      rw [bresRegimes_length_steep_neg fl x1 y1 x2 y2 hm', abs_of_neg (by omega)]
      omega
  · have hm' : 1 < bresSlope fl x1 y1 x2 y2 := by
      rw [abs_of_nonneg hpos] at hm; exact hm
    rw [bresNormalize_steep_pos _ hm']
    by_cases h12 : y1 > y2
    · rw [if_pos h12]
      simp only
      rw [bresRegimes_length_steep_pos fl x2 y2 x1 y1 (by rw [bresSlope_swap fl hodd]; exact hm'),
        abs_of_neg (by omega)]
      omega
    · rw [if_neg h12]
      simp only
      rw [bresRegimes_length_steep_pos fl x1 y1 x2 y2 hm', abs_of_pos (by omega)]
      omega

theorem f32_abs (q : ℚ) : |f32 q| = f32 |q| := by
  rcases le_or_lt 0 q with h | h
  · rw [abs_of_nonneg h, abs_of_nonneg (f32_nonneg q h)]
  · have h1 : 0 ≤ f32 (-q) := f32_nonneg _ (by linarith)
    rw [f32_neg] at h1
    rw [abs_of_neg h, f32_neg, abs_of_nonpos (by linarith)]

/-- For integer differences of magnitude up to `2^24` the binary32 slope test
`|m| ≤ 1` decides exactly whether `|dy| ≤ |dx|`. -/
theorem abs_f32_div_le_one_iff (a b : ℤ) (hb : b ≠ 0) (ha24 : |a| ≤ 16777216)
    (hb24 : |b| ≤ 16777216) :
    |f32 ((a : ℚ) / (b : ℚ))| ≤ 1 ↔ |a| ≤ |b| := by
  have hbpos : (0 : ℚ) < |(b : ℚ)| := abs_pos.mpr (by exact_mod_cast hb)
  rw [f32_abs, abs_div]
  constructor
  · intro h
    by_contra hc
    push_neg at hc
    have hb1 : |b| + 1 ≤ |a| := by omega
    have hb2 : |b| ≤ 16777215 := by omega
    have hbq : |(b : ℚ)| ≤ 16777215 := by
      rw [← Int.cast_abs]; exact_mod_cast hb2
    have haq : |(b : ℚ)| + 1 ≤ |(a : ℚ)| := by
      rw [← Int.cast_abs, ← Int.cast_abs]; exact_mod_cast hb1
    have : 1 + 1 / 16777216 < |(a : ℚ)| / |(b : ℚ)| := by
      rw [lt_div_iff₀ hbpos]
      nlinarith
    have := one_lt_f32 _ this
    linarith
  · intro h
    have haq : |(a : ℚ)| ≤ |(b : ℚ)| := by
      rw [← Int.cast_abs, ← Int.cast_abs]; exact_mod_cast h
    exact f32_le_one _ (by positivity) ((div_le_one hbpos).mpr haq)

theorem bresSlope_f32 (x1 y1 x2 y2 : ℤ) (hdx : |x2 - x1| ≤ 16777216)
    (hdy : |y2 - y1| ≤ 16777216) :
    bresSlope f32 x1 y1 x2 y2 = f32 (((y2 - y1 : ℤ) : ℚ) / ((x2 - x1 : ℤ) : ℚ)) := by
  unfold bresSlope
  rw [f32_intCast _ hdx, f32_intCast _ hdy]

/-! ## The claims on the line rasterizers -/

/-- Claim C1, refuted as stated: `drawLineBresenham(0,0,4,2)` does not plot
`(0,0),(1,0),(2,1),(3,1),(4,2)`. -/
theorem bresenham_0042_differs_from_stated_sequence :
    drawLineBresenham 0 0 4 2 ≠ [(0, 0), (1, 0), (2, 1), (3, 1), (4, 2)] := by
  decide!

/-- Claim C1, amended: `drawLineBresenham(0,0,4,2)` plots exactly
`(0,0),(1,1),(2,1),(3,2),(4,2)`; the decision value starts at `2·2 - 4 = 0`,
and `pk ≥ 0` takes the `y`-step at once. -/
theorem bresenham_0042_sequence :
    drawLineBresenham 0 0 4 2 = [(0, 0), (1, 1), (2, 1), (3, 2), (4, 2)] := by
  decide!

/-- Claim C2, refuted as stated: from `(0,0)` to `(16777217,0)` the binary32
difference is `16777216`, so `drawLineDDA` plots `16777217` pixels and not
`max(|Δx|,|Δy|) + 1 = 16777218`. -/
theorem dda_count_off_beyond_float_precision :
    ((drawLineDDA 0 0 16777217 0).length : ℤ) ≠
      max |(16777217 : ℤ) - 0| |(0 : ℤ) - 0| + 1 := by
  have hs : ddaSteps f32 0 0 16777217 0 = 16777216 := by decide!
  unfold drawLineDDA
  rw [drawLineDDAWith_length, hs]
  norm_num

/-- Claim C2, amended: for endpoints whose coordinates and coordinate
differences have magnitude at most `2^24 = 16777216` (where the `float`
conversions are exact) `drawLineDDA` plots exactly `max(|x2-x1|,|y2-y1|) + 1`
pixels, which is `1` for equal endpoints and is `steps + 1` in both cases. -/
theorem dda_pixel_count (x1 y1 x2 y2 : ℤ)
    (hx1 : |x1| ≤ 16777216) (hy1 : |y1| ≤ 16777216)
    (hx2 : |x2| ≤ 16777216) (hy2 : |y2| ≤ 16777216)
    (hdx : |x2 - x1| ≤ 16777216) (hdy : |y2 - y1| ≤ 16777216) :
    ((drawLineDDA x1 y1 x2 y2).length : ℤ) = max |x2 - x1| |y2 - y1| + 1 ∧
    (x1 = x2 → y1 = y2 → (drawLineDDA x1 y1 x2 y2).length = 1) ∧
    ((drawLineDDA x1 y1 x2 y2).length : ℤ) = ddaSteps f32 x1 y1 x2 y2 + 1 := by
  have hs := ddaSteps_f32 x1 y1 x2 y2 hx1 hy1 hx2 hy2 hdx hdy
  have hn := ddaSteps_nonneg f32 x1 y1 x2 y2
  have hl : ((drawLineDDA x1 y1 x2 y2).length : ℤ) = ddaSteps f32 x1 y1 x2 y2 + 1 := by
    unfold drawLineDDA
    rw [drawLineDDAWith_length]
    push_cast
    rw [Int.toNat_of_nonneg hn]
  refine ⟨by rw [hl, hs], ?_, hl⟩
  intro ex ey
  have : ((drawLineDDA x1 y1 x2 y2).length : ℤ) = 1 := by
    rw [hl, hs, ex, ey]; simp
  exact_mod_cast this

/-- Witness for C2: the segment from `(0,0)` to `(4,2)`. -/
theorem dda_pixel_count_witness :
    (|(0 : ℤ)| ≤ 16777216 ∧ |(0 : ℤ)| ≤ 16777216 ∧ |(4 : ℤ)| ≤ 16777216 ∧
      |(2 : ℤ)| ≤ 16777216 ∧ |(4 : ℤ) - 0| ≤ 16777216 ∧ |(2 : ℤ) - 0| ≤ 16777216) ∧
    (((drawLineDDA 0 0 4 2).length : ℤ) = max |(4 : ℤ) - 0| |(2 : ℤ) - 0| + 1 ∧
      ((0 : ℤ) = 4 → (0 : ℤ) = 2 → (drawLineDDA 0 0 4 2).length = 1) ∧
      ((drawLineDDA 0 0 4 2).length : ℤ) = ddaSteps f32 0 0 4 2 + 1) :=
  ⟨⟨by decide, by decide, by decide, by decide, by decide, by decide⟩,
    dda_pixel_count 0 0 4 2 (by decide) (by decide) (by decide) (by decide) (by decide)
      (by decide)⟩

/-- Claim C4: `drawLineBresenham(A, B)` and `drawLineBresenham(B, A)` plot the
same set of pixels. -/
theorem bresenham_pixel_set_symmetric (x1 y1 x2 y2 : ℤ) (p : Pixel) :
    p ∈ drawLineBresenham x2 y2 x1 y1 ↔ p ∈ drawLineBresenham x1 y1 x2 y2 := by
  unfold drawLineBresenham
  rw [drawLineBresenhamWith_swap f32 f32_neg]

/-! ## Octant-boundary pixels of `drawCircleMidpoint` -/

/-- With fuel covering `y - x` the loop is left on its own condition: `y ≤ x`. -/
theorem circleExit_stops :
    ∀ (fuel : ℕ) (x y p : ℤ), (y - x).toNat ≤ fuel →
      (circleExit fuel x y p).2 ≤ (circleExit fuel x y p).1 := by
  intro fuel
  induction fuel with
  | zero => intro x y p h; simp only [circleExit]; omega
  | succ n ih =>
      intro x y p h
      rw [circleExit]
      by_cases hxy : x < y
      · rw [if_pos hxy]
        by_cases hp : p < 0
        · rw [if_pos hp]; exact ih _ _ _ (by omega)
        · rw [if_neg hp]; exact ih _ _ _ (by omega)
      · rw [if_neg hxy]; simp only; omega

/-- Every pixel is plotted from a loop state with `0 ≤ x < y`, so its two
offsets from the centre never have the same magnitude. -/
theorem circleLoop_off_diagonal (cx cy : ℤ) :
    ∀ (fuel : ℕ) (x y p : ℤ), 0 ≤ x → ∀ q ∈ circleLoop cx cy fuel x y p,
      |q.1 - cx| ≠ |q.2 - cy| := by
  intro fuel
  induction fuel with
  | zero => intro x y p _ q hq; simp [circleLoop] at hq
  | succ n ih =>
      intro x y p hx q hq
      rw [circleLoop_succ] at hq
      by_cases hxy : x < y
      · rw [if_pos hxy] at hq
        rcases List.mem_append.mp hq with h8 | hrest
        · simp only [plot8, List.mem_cons, List.mem_nil_iff, or_false,
            List.mem_singleton] at h8
          have ax : |x| = x := abs_of_nonneg hx
          have ay : |y| = y := abs_of_nonneg (by omega)
          rcases h8 with h | h | h | h | h | h | h | h <;>
            (subst h
             simp only [add_sub_cancel_left, sub_sub_cancel_left, abs_neg, ax, ay]
             omega)
        · by_cases hp : p < 0
          · rw [if_pos hp] at hrest
            exact ih _ _ _ (by omega) q hrest
          · rw [if_neg hp] at hrest
            exact ih _ _ _ (by omega) q hrest
      · rw [if_neg hxy] at hq
        simp at hq

/-- After the first iteration `x ≥ 1` and `y > x`, so no later pixel lies on
the horizontal or the vertical line through the centre. -/
theorem circleLoop_off_axes (cx cy : ℤ) :
    ∀ (fuel : ℕ) (x y p : ℤ), 1 ≤ x → ∀ q ∈ circleLoop cx cy fuel x y p,
      q.1 ≠ cx ∧ q.2 ≠ cy := by
  intro fuel
  induction fuel with
  | zero => intro x y p _ q hq; simp [circleLoop] at hq
  | succ n ih =>
      intro x y p hx q hq
      rw [circleLoop_succ] at hq
      by_cases hxy : x < y
      · rw [if_pos hxy] at hq
        rcases List.mem_append.mp hq with h8 | hrest
        · simp only [plot8, List.mem_cons, List.mem_nil_iff, or_false,
            List.mem_singleton] at h8
          rcases h8 with h | h | h | h | h | h | h | h <;>
            (subst h
             constructor <;> simp only [ne_eq] <;> omega)
        · by_cases hp : p < 0
          · rw [if_pos hp] at hrest
            exact ih _ _ _ (by omega) q hrest
          · rw [if_neg hp] at hrest
            exact ih _ _ _ (by omega) q hrest
      · rw [if_neg hxy] at hq
        simp at hq

/-- The first iteration `plot8(0, r)` plots every cardinal pixel twice, and no
later iteration plots one. -/
theorem circle_cardinal_count (cx cy r : ℤ) (hr : 1 ≤ r) (q : Pixel)
    (hq : q = (cx + r, cy) ∨ q = (cx - r, cy) ∨ q = (cx, cy + r) ∨ q = (cx, cy - r)) :
    (drawCircleMidpoint cx cy r).count q = 2 := by
  obtain ⟨n, hn⟩ : ∃ n : ℕ, r.toNat = n + 1 := ⟨r.toNat - 1, by omega⟩
  unfold drawCircleMidpoint
  rw [hn, circleLoop_succ, if_pos (by omega), List.count_append]
  have hrest : ∀ l : List Pixel, (∀ t ∈ l, t.1 ≠ cx ∧ t.2 ≠ cy) → l.count q = 0 := by
    intro l hl
    apply List.count_eq_zero_of_not_mem
    intro hmem
    have := hl q hmem
    rcases hq with h | h | h | h <;> (subst h; simp at this)
  have h2 : (if (1 : ℤ) - r < 0 then circleLoop cx cy n (0 + 1) r (1 - r + 2 * (0 + 1) + 3)
      else circleLoop cx cy n (0 + 1) (r - 1) (1 - r + 2 * (0 + 1) - 2 * (r - 1) + 5)).count q
      = 0 := by
    apply hrest
    intro t ht
    split_ifs at ht
    · exact circleLoop_off_axes cx cy n _ _ _ (by norm_num) t ht
    · exact circleLoop_off_axes cx cy n _ _ _ (by norm_num) t ht
  rw [h2, add_zero]
  have e1 : cx + r ≠ cx := by omega
  have e2 : cx - r ≠ cx := by omega
  have e3 : cy + r ≠ cy := by omega
  have e4 : cy - r ≠ cy := by omega
  have e5 : cx + r ≠ cx - r := by omega
  have e6 : cy + r ≠ cy - r := by omega
  rcases hq with h | h | h | h <;>
    (subst h
     simp [plot8, List.count_cons, e1, e2, e3, e4, e5, e6, e1.symm, e2.symm, e3.symm,
       e4.symm, e5.symm, e6.symm])

/-- Claim C18, refuted as stated: the circle of radius `5` about the origin
contains the cardinal pixel `(0, 5)` twice, not once. -/
theorem circle_cardinal_not_once :
    (drawCircleMidpoint 0 0 5).count ((0, 0 + 5) : Pixel) ≠ 1 := by
  decide

/-- Claim C18, amended: for every centre and every radius `r ≥ 1` each of the
four cardinal pixels `(cx+r,cy)`, `(cx-r,cy)`, `(cx,cy+r)`, `(cx,cy-r)` occurs
exactly twice in the sequence plotted by `drawCircleMidpoint`: the 8-way
expansion of the first iteration `plot8(0, r)` plots each of them twice, and
no later iteration plots one. -/
theorem circle_cardinal_pixels_twice (cx cy r : ℤ) (hr : 1 ≤ r) :
    (drawCircleMidpoint cx cy r).count (cx + r, cy) = 2 ∧
    (drawCircleMidpoint cx cy r).count (cx - r, cy) = 2 ∧
    (drawCircleMidpoint cx cy r).count (cx, cy + r) = 2 ∧
    (drawCircleMidpoint cx cy r).count (cx, cy - r) = 2 :=
  ⟨circle_cardinal_count cx cy r hr _ (Or.inl rfl),
   circle_cardinal_count cx cy r hr _ (Or.inr (Or.inl rfl)),
   circle_cardinal_count cx cy r hr _ (Or.inr (Or.inr (Or.inl rfl))),
   circle_cardinal_count cx cy r hr _ (Or.inr (Or.inr (Or.inr rfl)))⟩

/-- Witness for C18: the circle of radius `5` about the origin. -/
theorem circle_cardinal_pixels_twice_witness :
    (1 : ℤ) ≤ 5 ∧
    ((drawCircleMidpoint 0 0 5).count ((0 + 5, 0) : Pixel) = 2 ∧
     (drawCircleMidpoint 0 0 5).count ((0 - 5, 0) : Pixel) = 2 ∧
     (drawCircleMidpoint 0 0 5).count ((0, 0 + 5) : Pixel) = 2 ∧
     (drawCircleMidpoint 0 0 5).count ((0, 0 - 5) : Pixel) = 2) :=
  ⟨by decide, circle_cardinal_pixels_twice 0 0 5 (by decide)⟩

/-- Claim C19, refuted as stated: for `r = 3` the octant walk is left with
`x = y = 2`, and the diagonal pixel `(2, 2)` is not plotted. -/
theorem circle_diagonal_missing_r3 :
    circleExit (3 : ℤ).toNat 0 3 (1 - 3) = (2, 2) ∧
    ((0 + 2, 0 + 2) : Pixel) ∉ drawCircleMidpoint 0 0 3 := by
  decide

/-- Claim C19, amended: no pixel `(cx±d, cy±d)` is ever in the sequence
plotted by `drawCircleMidpoint`, for any `d`; in particular, when the octant
walk is left with `x = y = d`, the four diagonal pixels on the octant boundary
are not plotted.  The loop tests `x < y` before it plots, so every plotted
pixel has offsets of different magnitude; it is left with `y ≤ x`. -/
theorem circle_diagonal_pixels_absent (cx cy r d : ℤ) :
    ((cx + d, cy + d) ∉ drawCircleMidpoint cx cy r ∧
     (cx - d, cy + d) ∉ drawCircleMidpoint cx cy r ∧
     (cx + d, cy - d) ∉ drawCircleMidpoint cx cy r ∧
     (cx - d, cy - d) ∉ drawCircleMidpoint cx cy r) ∧
    (circleExit r.toNat 0 r (1 - r)).2 ≤ (circleExit r.toNat 0 r (1 - r)).1 := by
  have key : ∀ q : Pixel, |q.1 - cx| = |q.2 - cy| → q ∉ drawCircleMidpoint cx cy r :=
    fun q hq hmem =>
      circleLoop_off_diagonal cx cy r.toNat 0 r (1 - r) (le_refl 0) q hmem hq
  refine ⟨⟨key _ ?_, key _ ?_, key _ ?_, key _ ?_⟩, circleExit_stops _ _ _ _ (by simp)⟩ <;>
    simp

/-! ## Horizontal lines and pixel steps of `drawLineDDA` -/

theorem cround_intCast (n : ℤ) : cround (n : ℚ) = n := by
  unfold cround
  have h1 : ⌊(n : ℚ) + 1 / 2⌋ = n := by
    rw [Int.floor_eq_iff]; constructor <;> linarith
  have h2 : ⌊-(n : ℚ) + 1 / 2⌋ = -n := by
    rw [Int.floor_eq_iff]; push_cast; constructor <;> linarith
  split_ifs
  · exact h1
  · rw [h2]; ring

/-- With integer increments, no binary32 addition of the loop rounds as long as
every plotted sample stays within `2^24`. -/
theorem ddaLoop_f32_int_samples (s t : ℤ) :
    ∀ (n : ℕ) (a b : ℤ),
      (∀ i : ℕ, i < n → |a + i * s| ≤ 16777216 ∧ |b + i * t| ≤ 16777216) →
      ddaLoop f32 s t n a b = ddaLoop id s t n a b := by
  intro n
  induction n with
  | zero => intro a b _; rfl
  | succ n ih =>
      intro a b h
      rw [ddaLoop, ddaLoop]
      congr 1
      cases n with
      | zero => rfl
      | succ m =>
          have h1 := h 1 (by omega)
          simp only [Nat.cast_one, one_mul] at h1
          simp only [id]
          rw [← Int.cast_add, ← Int.cast_add, f32_intCast (a + s) h1.1,
            f32_intCast (b + t) h1.2]
          apply ih
          intro i hi
          have h2 := h (i + 1) (by omega)
          push_cast at h2
          have ea : a + s + (i : ℤ) * s = a + ((i : ℤ) + 1) * s := by ring
          have eb : b + t + (i : ℤ) * t = b + ((i : ℤ) + 1) * t := by ring
          rw [ea, eb]
          exact h2

/-- A horizontal line with coordinates and length within the exactly
representable range is rasterized to its integer points, left to right. -/
theorem drawLineDDA_horizontal (x1 x2 y : ℤ) (h12 : x1 ≤ x2)
    (hx1 : |x1| ≤ 16777216) (hx2 : |x2| ≤ 16777216) (hy : |y| ≤ 16777216)
    (hdx : x2 - x1 ≤ 16777216) :
    drawLineDDA x1 y x2 y =
      (List.range ((x2 - x1).toNat + 1)).map (fun i : ℕ => (x1 + (i : ℤ), y)) := by
  have hdx0 : 0 ≤ x2 - x1 := by omega
  have hadx : |x2 - x1| = x2 - x1 := abs_of_nonneg hdx0
  have hsf : ddaSteps f32 x1 y x2 y = x2 - x1 := by
    rw [ddaSteps_f32 x1 y x2 y hx1 hy hx2 hy (by rw [hadx]; exact hdx) (by simp), hadx]
    simp [hdx0]
  have ex : f32 (f32 x2 - f32 x1) = ((x2 - x1 : ℤ) : ℚ) := by
    rw [f32_intCast x2 hx2, f32_intCast x1 hx1, ← Int.cast_sub,
      f32_intCast _ (by rw [hadx]; exact hdx)]
  have ey : f32 (f32 y - f32 y) = 0 := by rw [sub_self, f32_zero]
  unfold drawLineDDA drawLineDDAWith
  simp only [hsf, ex, ey]
  by_cases h0 : x2 - x1 = 0
  · rw [if_pos h0, h0]
    simp [List.range_succ]
  · rw [if_neg h0]
    have hq : ((x2 - x1 : ℤ) : ℚ) ≠ 0 := by exact_mod_cast h0
    have e1 : f32 (((x2 - x1 : ℤ) : ℚ) / f32 ((x2 - x1 : ℤ) : ℚ)) = ((1 : ℤ) : ℚ) := by
      rw [f32_intCast _ (by rw [hadx]; exact hdx), div_self hq]
      exact_mod_cast f32_intCast 1 (by norm_num)
    have e2 : f32 (0 / f32 ((x2 - x1 : ℤ) : ℚ)) = ((0 : ℤ) : ℚ) := by
      rw [zero_div, f32_zero]; simp
    rw [e1, e2, f32_intCast x1 hx1, f32_intCast y hy]
    have hn : (x2 - x1 + 1).toNat = (x2 - x1).toNat + 1 := by omega
    rw [hn, ddaLoop_f32_int_samples 1 0 _ x1 y, ddaLoop_id]
    · apply List.map_congr_left
      intro i _
      have ea : (x1 : ℚ) + (i : ℚ) * ((1 : ℤ) : ℚ) = ((x1 + (i : ℤ) : ℤ) : ℚ) := by
        push_cast; ring
      have eb : (y : ℚ) + (i : ℚ) * ((0 : ℤ) : ℚ) = ((y : ℤ) : ℚ) := by
        push_cast; ring
      rw [ea, eb, cround_intCast, cround_intCast]
    · intro i hi
      constructor
      · rw [abs_le] at hx1 hx2 ⊢
        constructor <;> omega
      · simpa using hy

/-- One binary32 rounding moves a value below `2^(m+1)` by at most half a unit
in the last place, `2^(m-24)`. -/
theorem f32_error (q : ℚ) (m : ℤ) (hm : -126 ≤ m) (h : |q| < 2 ^ (m + 1)) :
    |f32 q - q| ≤ 2 ^ (m - 24) := by
  have two : (1 : ℚ) < 2 := by norm_num
  by_cases h0 : q = 0
  · rw [h0, f32_zero, sub_zero, abs_zero]
    exact (zpow_pos (by norm_num) _).le
  obtain ⟨s1, _⟩ := ilog2_spec q h0
  have he : ilog2 q ≤ m := by
    have := (zpow_lt_zpow_iff_right₀ two).mp (lt_of_le_of_lt s1 h)
    omega
  have hE : f32Exp q ≤ m - 23 := by
    unfold f32Exp
    have : max (ilog2 q) (-126) ≤ m := max_le he hm
    omega
  have hp : (0 : ℚ) < 2 ^ f32Exp q := zpow_pos (by norm_num) _
  obtain ⟨b1, b2⟩ := roundEven_bounds (q / 2 ^ f32Exp q)
  have hdiff : f32 q - q =
      ((roundEven (q / 2 ^ f32Exp q) : ℚ) - q / 2 ^ f32Exp q) * 2 ^ f32Exp q := by
    unfold f32
    field_simp
  have habs : |(roundEven (q / 2 ^ f32Exp q) : ℚ) - q / 2 ^ f32Exp q| ≤ 1 / 2 := by
    rw [abs_le]; constructor <;> linarith
  have hpow : (2 : ℚ) ^ f32Exp q ≤ 2 ^ (m - 23) := (zpow_le_zpow_iff_right₀ two).mpr hE
  have hsplit : (2 : ℚ) ^ (m - 23) = 2 ^ (m - 24) * 2 := by
    rw [← zpow_add_one₀ (by norm_num : (2 : ℚ) ≠ 0)]
    congr 1; ring
  rw [hdiff, abs_mul, abs_of_pos hp]
  calc |(roundEven (q / 2 ^ f32Exp q) : ℚ) - q / 2 ^ f32Exp q| * 2 ^ f32Exp q
      ≤ 1 / 2 * 2 ^ f32Exp q := mul_le_mul_of_nonneg_right habs hp.le
    _ ≤ 1 / 2 * 2 ^ (m - 23) := by
        apply mul_le_mul_of_nonneg_left hpow; norm_num
    _ = 2 ^ (m - 24) := by rw [hsplit]; ring

/-- C `round` stays within one half of its argument. -/
theorem cround_bounds (q : ℚ) : q - 1 / 2 ≤ (cround q : ℚ) ∧ (cround q : ℚ) ≤ q + 1 / 2 := by
  unfold cround
  split_ifs with h
  · have h1 := Int.floor_le (q + 1 / 2)
    have h2 := Int.lt_floor_add_one (q + 1 / 2)
    constructor <;> linarith
  · have h1 := Int.floor_le (-q + 1 / 2)
    have h2 := Int.lt_floor_add_one (-q + 1 / 2)
    push_cast
    constructor <;> linarith

/-- Samples less than one apart are rounded to pixels at most one apart. -/
theorem cround_step (a b : ℚ) (h : |b - a| < 1) : |cround b - cround a| ≤ 1 := by
  obtain ⟨a1, a2⟩ := cround_bounds a
  obtain ⟨b1, b2⟩ := cround_bounds b
  rw [abs_lt] at h
  have h1 : ((cround b - cround a : ℤ) : ℚ) < 2 := by push_cast; linarith
  have h2 : (-2 : ℚ) < ((cround b - cround a : ℤ) : ℚ) := by push_cast; linarith
  have h1' : cround b - cround a < 2 := by exact_mod_cast h1
  have h2' : -2 < cround b - cround a := by exact_mod_cast h2
  rw [abs_le]; constructor <;> omega

/-- A non-zero difference over its own magnitude is `1` or `-1`. -/
theorem int_div_abs (d : ℤ) (hd : d ≠ 0) :
    ∃ u : ℤ, |u| = 1 ∧ (d : ℚ) / ((|d| : ℤ) : ℚ) = (u : ℚ) := by
  have hq : (d : ℚ) ≠ 0 := by exact_mod_cast hd
  rcases lt_or_gt_of_ne hd with h | h
  · refine ⟨-1, by simp, ?_⟩
    rw [abs_of_neg h]; push_cast; field_simp
  · refine ⟨1, by simp, ?_⟩
    rw [abs_of_pos h]; push_cast; field_simp

/-- With exact arithmetic a line driven on `x` moves one column per pixel and
at most one row. -/
theorem drawLineDDAWith_id_chain_x (x1 y1 x2 y2 : ℤ) (hne : x1 ≠ x2)
    (h : |y2 - y1| ≤ |x2 - x1|) :
    List.Chain' stepAlongX (drawLineDDAWith id x1 y1 x2 y2) := by
  have hdx : x2 - x1 ≠ 0 := by omega
  have hpos : 0 < |x2 - x1| := abs_pos.mpr hdx
  have hs : ddaSteps id x1 y1 x2 y2 = |x2 - x1| := by
    rw [ddaSteps_id, max_eq_left h]
  obtain ⟨u, hu, hux⟩ := int_div_abs (x2 - x1) hdx
  unfold drawLineDDAWith
  simp only [hs, id]
  rw [if_neg (ne_of_gt hpos), ddaLoop_id, List.chain'_map]
  have hn : (|x2 - x1| + 1).toNat = (|x2 - x1|).toNat + 1 := by omega
  rw [hn, List.chain'_range_succ]
  intro m _
  have hNq : (0 : ℚ) < ((|x2 - x1| : ℤ) : ℚ) := by exact_mod_cast hpos
  have exu : ((x2 : ℚ) - (x1 : ℚ)) / ((|x2 - x1| : ℤ) : ℚ) = (u : ℚ) := by
    rw [← hux]; push_cast; rfl
  have ex : ∀ j : ℕ, (x1 : ℚ) + (j : ℚ) * (((x2 : ℚ) - (x1 : ℚ)) / ((|x2 - x1| : ℤ) : ℚ))
      = ((x1 + (j : ℤ) * u : ℤ) : ℚ) := by
    intro j; rw [exu]; push_cast; ring
  simp only [stepAlongX]
  rw [ex, ex, cround_intCast, cround_intCast]
  constructor
  · have : x1 + ((m + 1 : ℕ) : ℤ) * u - (x1 + (m : ℤ) * u) = u := by push_cast; ring
    rw [this]; exact hu
  · rcases lt_or_eq_of_le h with hlt | heq
    · apply cround_step
      have hdy : |((y2 : ℚ) - (y1 : ℚ))| < ((|x2 - x1| : ℤ) : ℚ) := by
        have : ((|y2 - y1| : ℤ) : ℚ) < ((|x2 - x1| : ℤ) : ℚ) := by exact_mod_cast hlt
        simpa using this
      have : (y1 : ℚ) + ((m + 1 : ℕ) : ℚ) * (((y2 : ℚ) - (y1 : ℚ)) / ((|x2 - x1| : ℤ) : ℚ))
          - ((y1 : ℚ) + (m : ℚ) * (((y2 : ℚ) - (y1 : ℚ)) / ((|x2 - x1| : ℤ) : ℚ)))
          = ((y2 : ℚ) - (y1 : ℚ)) / ((|x2 - x1| : ℤ) : ℚ) := by push_cast; ring
      rw [this, abs_div, abs_of_pos hNq, div_lt_one hNq]
      exact hdy
    · have hdy : y2 - y1 ≠ 0 := by
        intro h0; rw [h0, abs_zero] at heq; omega
      obtain ⟨v, hv, hvy⟩ := int_div_abs (y2 - y1) hdy
      have eyv : ((y2 : ℚ) - (y1 : ℚ)) / ((|x2 - x1| : ℤ) : ℚ) = (v : ℚ) := by
        rw [← hvy, heq]; push_cast; rfl
      have ey : ∀ j : ℕ, (y1 : ℚ) + (j : ℚ) * (((y2 : ℚ) - (y1 : ℚ)) / ((|x2 - x1| : ℤ) : ℚ))
          = ((y1 + (j : ℤ) * v : ℤ) : ℚ) := by
        intro j; rw [eyv]; push_cast; ring
      rw [ey, ey, cround_intCast, cround_intCast]
      have : y1 + ((m + 1 : ℕ) : ℤ) * v - (y1 + (m : ℤ) * v) = v := by push_cast; ring
      rw [this, hv]


/-- The ideal line stays between its endpoints: `y1 + k·(dy/N)` for `k ≤ N`. -/
theorem line_sample_bound (y1 y2 : ℤ) (B : ℚ) (h1 : |(y1 : ℚ)| ≤ B) (h2 : |(y2 : ℚ)| ≤ B)
    (N : ℕ) (hN : 0 < N) (k : ℕ) (hk : k ≤ N) :
    |(y1 : ℚ) + (k : ℚ) * (((y2 : ℚ) - (y1 : ℚ)) / (N : ℚ))| ≤ B := by
  have hNq : (0 : ℚ) < (N : ℚ) := by exact_mod_cast hN
  have hkq : (k : ℚ) ≤ (N : ℚ) := by exact_mod_cast hk
  have hk0 : (0 : ℚ) ≤ (k : ℚ) := by positivity
  have e : (y1 : ℚ) + (k : ℚ) * (((y2 : ℚ) - (y1 : ℚ)) / (N : ℚ))
      = (((N : ℚ) - k) * y1 + k * y2) / N := by field_simp; ring
  rw [e, abs_div, abs_of_pos hNq, div_le_iff₀ hNq]
  rw [abs_le] at h1 h2 ⊢
  constructor <;> nlinarith

theorem ddaLoop_transpose (fl : ℚ → ℚ) (xinc yinc : ℚ) :
    ∀ (n : ℕ) (x y : ℚ),
      (ddaLoop fl xinc yinc n x y).map Prod.swap = ddaLoop fl yinc xinc n y x := by
  intro n
  induction n with
  | zero => intro x y; rfl
  | succ n ih => intro x y; simp only [ddaLoop, List.map_cons, ih, Prod.swap_prod_mk]

theorem ddaSteps_transpose (fl : ℚ → ℚ) (x1 y1 x2 y2 : ℤ) :
    ddaSteps fl y1 x1 y2 x2 = ddaSteps fl x1 y1 x2 y2 := by
  unfold ddaSteps
  simp only
  split_ifs with h1 h2 h2
  · exact absurd h1 (not_lt.mpr h2.le)
  · rfl
  · rfl
  · rw [le_antisymm (not_lt.mp h1) (not_lt.mp h2)]

/-- Exchanging the roles of `x` and `y` in the input exchanges them in every
plotted pixel. -/
theorem drawLineDDAWith_transpose (fl : ℚ → ℚ) (x1 y1 x2 y2 : ℤ) :
    (drawLineDDAWith fl x1 y1 x2 y2).map Prod.swap = drawLineDDAWith fl y1 x1 y2 x2 := by
  unfold drawLineDDAWith
  simp only [ddaSteps_transpose fl x1 y1 x2 y2]
  split_ifs
  · rfl
  · exact ddaLoop_transpose fl _ _ _ _ _

theorem chain_y_of_transpose (l : List Pixel)
    (h : List.Chain' stepAlongX (l.map Prod.swap)) : List.Chain' stepAlongY l :=
  (List.chain'_map Prod.swap).mp h

/-- With exact arithmetic a line driven on `y` moves one row per pixel and at
most one column. -/
theorem drawLineDDAWith_id_chain_y (x1 y1 x2 y2 : ℤ) (hne : y1 ≠ y2)
    (h : |x2 - x1| ≤ |y2 - y1|) :
    List.Chain' stepAlongY (drawLineDDAWith id x1 y1 x2 y2) := by
  apply chain_y_of_transpose
  rw [drawLineDDAWith_transpose]
  exact drawLineDDAWith_id_chain_x y1 x1 y2 x2 hne h


/-- Claim C16, refuted as stated: for the horizontal segment from
`(16777216,0)` to `(16777218,0)` the binary32 sum `16777216 + 1` rounds back to
`16777216`, so `drawLineDDA` plots `(16777216,0)` three times and not
`(16777216,0),(16777217,0),(16777218,0)`. -/
theorem dda_horizontal_stalls_beyond_float_precision :
    drawLineDDA 16777216 0 16777218 0 =
        [(16777216, 0), (16777216, 0), (16777216, 0)] ∧
      drawLineDDA 16777216 0 16777218 0 ≠
        (List.range (((16777218 : ℤ) - 16777216).toNat + 1)).map
          (fun i : ℕ => ((16777216 : ℤ) + (i : ℤ), (0 : ℤ))) := by
  decide!

/-- Claim C16, amended: for a horizontal segment `y1 = y2 = y`, `x1 ≤ x2` whose
coordinates and length have magnitude at most `2^24 = 16777216`, `drawLineDDA`
plots exactly `(x1,y),(x1+1,y),…,(x2,y)` in that order; in particular
`drawLineDDA(0,0,4,0)` plots `(0,0),(1,0),(2,0),(3,0),(4,0)`. -/
theorem dda_horizontal_line (x1 x2 y : ℤ) (h12 : x1 ≤ x2)
    (hx1 : |x1| ≤ 16777216) (hx2 : |x2| ≤ 16777216) (hy : |y| ≤ 16777216)
    (hdx : x2 - x1 ≤ 16777216) :
    drawLineDDA x1 y x2 y =
        (List.range ((x2 - x1).toNat + 1)).map (fun i : ℕ => (x1 + (i : ℤ), y)) ∧
      drawLineDDA 0 0 4 0 = [(0, 0), (1, 0), (2, 0), (3, 0), (4, 0)] :=
  ⟨drawLineDDA_horizontal x1 x2 y h12 hx1 hx2 hy hdx, by decide!⟩

/-- Witness for C16: the segment from `(-3,7)` to `(2,7)`. -/
theorem dda_horizontal_line_witness :
    ((-3 : ℤ) ≤ 2 ∧ |(-3 : ℤ)| ≤ 16777216 ∧ |(2 : ℤ)| ≤ 16777216 ∧
      |(7 : ℤ)| ≤ 16777216 ∧ (2 : ℤ) - (-3) ≤ 16777216) ∧
    (drawLineDDA (-3) 7 2 7 =
        (List.range (((2 : ℤ) - (-3)).toNat + 1)).map
          (fun i : ℕ => ((-3 : ℤ) + (i : ℤ), (7 : ℤ))) ∧
      drawLineDDA 0 0 4 0 = [(0, 0), (1, 0), (2, 0), (3, 0), (4, 0)]) :=
  ⟨⟨by decide, by decide, by decide, by decide, by decide⟩,
    dda_horizontal_line (-3) 2 7 (by decide) (by decide) (by decide) (by decide)
      (by decide)⟩

/-! ## Binary rounding in general: `f32` and `f64` -/

theorem f32_eq_fpRound (q : ℚ) : f32 q = fpRound 23 (-126) q := rfl

theorem roundEven_mono (x y : ℚ) (h : x ≤ y) : roundEven x ≤ roundEven y := by
  by_contra hlt
  push_neg at hlt
  obtain ⟨_, x2⟩ := roundEven_bounds x
  obtain ⟨y1, _⟩ := roundEven_bounds y
  have h1 : (roundEven y : ℚ) + 1 ≤ (roundEven x : ℚ) := by exact_mod_cast hlt
  have hxy : x = y := by linarith
  rw [hxy] at hlt
  exact lt_irrefl _ hlt

theorem fpExp_neg (p emin : ℤ) (q : ℚ) : fpExp p emin (-q) = fpExp p emin q := by
  simp [fpExp, ilog2_neg]

theorem fpRound_zero (p emin : ℤ) : fpRound p emin 0 = 0 := by
  simp [fpRound, roundEven]

theorem fpRound_neg (p emin : ℤ) (q : ℚ) : fpRound p emin (-q) = -fpRound p emin q := by
  unfold fpRound
  rw [fpExp_neg, neg_div, roundEven_neg]
  push_cast
  ring

theorem fpRound_le_of_le_grid (p emin : ℤ) (q : ℚ) (k : ℤ)
    (h : q ≤ k * 2 ^ fpExp p emin q) : fpRound p emin q ≤ k * 2 ^ fpExp p emin q := by
  unfold fpRound
  have hp : (0 : ℚ) < 2 ^ fpExp p emin q := zpow_pos (by norm_num) _
  have : roundEven (q / 2 ^ fpExp p emin q) ≤ k :=
    roundEven_le_of_le _ k ((div_le_iff₀ hp).mpr h)
  have : (roundEven (q / 2 ^ fpExp p emin q) : ℚ) ≤ (k : ℚ) := by exact_mod_cast this
  exact mul_le_mul_of_nonneg_right this hp.le

theorem le_fpRound_of_grid_le (p emin : ℤ) (q : ℚ) (k : ℤ)
    (h : (k : ℚ) * 2 ^ fpExp p emin q ≤ q) : (k : ℚ) * 2 ^ fpExp p emin q ≤ fpRound p emin q := by
  unfold fpRound
  have hp : (0 : ℚ) < 2 ^ fpExp p emin q := zpow_pos (by norm_num) _
  have : k ≤ roundEven (q / 2 ^ fpExp p emin q) :=
    le_roundEven_of_le _ k ((le_div_iff₀ hp).mpr h)
  have : (k : ℚ) ≤ (roundEven (q / 2 ^ fpExp p emin q) : ℚ) := by exact_mod_cast this
  exact mul_le_mul_of_nonneg_right this hp.le

/-- A value on the grid of its own exponent is left unchanged by rounding. -/
theorem fpRound_exact (p emin : ℤ) (q : ℚ) (k : ℤ) (h : q = k * 2 ^ fpExp p emin q) :
    fpRound p emin q = q :=
  le_antisymm (le_trans (fpRound_le_of_le_grid p emin q k h.le) h.ge)
    (le_trans h.le (le_fpRound_of_grid_le p emin q k h.ge))

theorem fpRound_nonneg (p emin : ℤ) (q : ℚ) (h : 0 ≤ q) : 0 ≤ fpRound p emin q := by
  have := le_fpRound_of_grid_le p emin q 0 (by simpa using h)
  simpa using this

/-- The integer `2^n` times `2^e` is `2^(n+e)`. -/
theorem two_pow_grid (n : ℕ) (e : ℤ) :
    (((2 : ℤ) ^ n : ℤ) : ℚ) * 2 ^ e = 2 ^ ((n : ℤ) + e) := by
  push_cast
  rw [← zpow_natCast, ← zpow_add₀ (by norm_num : (2 : ℚ) ≠ 0)]

/-- Rounding a positive value keeps at least its leading power of two, when
that is normal. -/
theorem zpow_ilog2_le_fpRound (p emin : ℤ) (hp : 0 ≤ p) (q : ℚ) (hq : 0 < q)
    (he : emin ≤ ilog2 q) : (2 : ℚ) ^ ilog2 q ≤ fpRound p emin q := by
  obtain ⟨s1, _⟩ := ilog2_spec q (ne_of_gt hq)
  rw [abs_of_pos hq] at s1
  have hE : fpExp p emin q = ilog2 q - p := by
    unfold fpExp
    rw [max_eq_left he]
  have hk : (((2 : ℤ) ^ p.toNat : ℤ) : ℚ) * 2 ^ fpExp p emin q = 2 ^ ilog2 q := by
    rw [two_pow_grid, Int.toNat_of_nonneg hp, hE]
    congr 1; ring
  have := le_fpRound_of_grid_le p emin q ((2 : ℤ) ^ p.toNat) (by rw [hk]; exact s1)
  rwa [hk] at this

/-- Rounding a positive value does not pass the next power of two above its
exponent (or above the least normal exponent). -/
theorem fpRound_le_zpow (p emin : ℤ) (hp : 0 ≤ p) (q : ℚ) (hq : 0 < q) :
    fpRound p emin q ≤ 2 ^ (max (ilog2 q) emin + 1) := by
  obtain ⟨_, s2⟩ := ilog2_spec q (ne_of_gt hq)
  rw [abs_of_pos hq] at s2
  have hk : (((2 : ℤ) ^ (p + 1).toNat : ℤ) : ℚ) * 2 ^ fpExp p emin q =
      2 ^ (max (ilog2 q) emin + 1) := by
    rw [two_pow_grid, Int.toNat_of_nonneg (by omega)]
    unfold fpExp
    congr 1; ring
  have hle : q ≤ 2 ^ (max (ilog2 q) emin + 1) :=
    le_trans s2.le ((zpow_le_zpow_iff_right₀ (by norm_num : (1 : ℚ) < 2)).mpr
      (by have := le_max_left (ilog2 q) emin; omega))
  have := fpRound_le_of_le_grid p emin q ((2 : ℤ) ^ (p + 1).toNat) (by rw [hk]; exact hle)
  rwa [hk] at this

theorem ilog2_mono (q r : ℚ) (hq : 0 < q) (h : q ≤ r) : ilog2 q ≤ ilog2 r := by
  have hr : 0 < r := lt_of_lt_of_le hq h
  obtain ⟨s1, _⟩ := ilog2_spec q (ne_of_gt hq)
  obtain ⟨_, t2⟩ := ilog2_spec r (ne_of_gt hr)
  rw [abs_of_pos hq] at s1
  rw [abs_of_pos hr] at t2
  have := (zpow_lt_zpow_iff_right₀ (by norm_num : (1 : ℚ) < 2)).mp
    (lt_of_le_of_lt (le_trans s1 h) t2)
  omega

theorem fpRound_mono_pos (p emin : ℤ) (hp : 0 ≤ p) (q r : ℚ) (hq : 0 < q) (h : q ≤ r) :
    fpRound p emin q ≤ fpRound p emin r := by
  have hr : 0 < r := lt_of_lt_of_le hq h
  have hlog := ilog2_mono q r hq h
  by_cases hE : max (ilog2 q) emin = max (ilog2 r) emin
  · have hE2 : fpExp p emin q = fpExp p emin r := by unfold fpExp; rw [hE]
    unfold fpRound
    rw [hE2]
    have hpos : (0 : ℚ) < 2 ^ fpExp p emin r := zpow_pos (by norm_num) _
    have := roundEven_mono (q / 2 ^ fpExp p emin r) (r / 2 ^ fpExp p emin r)
      (div_le_div_of_nonneg_right h hpos.le)
    have : (roundEven (q / 2 ^ fpExp p emin r) : ℚ) ≤ roundEven (r / 2 ^ fpExp p emin r) := by
      exact_mod_cast this
    exact mul_le_mul_of_nonneg_right this hpos.le
  · have hlt : max (ilog2 q) emin + 1 ≤ ilog2 r := by
      rcases le_total (ilog2 q) emin with a | a <;> rcases le_total (ilog2 r) emin with b | b
      · rw [max_eq_right a, max_eq_right b] at hE; exact absurd rfl hE
      · rw [max_eq_right a, max_eq_left b] at hE
        rw [max_eq_right a]; omega
      · rw [max_eq_left a, max_eq_right b] at hE
        exfalso; apply hE; omega
      · rw [max_eq_left a, max_eq_left b] at hE
        rw [max_eq_left a]; omega
    have hemin : emin ≤ ilog2 r := by
      have := le_max_right (ilog2 q) emin; omega
    calc fpRound p emin q ≤ 2 ^ (max (ilog2 q) emin + 1) := fpRound_le_zpow p emin hp q hq
      _ ≤ 2 ^ ilog2 r := (zpow_le_zpow_iff_right₀ (by norm_num : (1 : ℚ) < 2)).mpr hlt
      _ ≤ fpRound p emin r := zpow_ilog2_le_fpRound p emin hp r hr hemin

/-- Rounding to nearest is monotone. -/
theorem fpRound_mono (p emin : ℤ) (hp : 0 ≤ p) (q r : ℚ) (h : q ≤ r) :
    fpRound p emin q ≤ fpRound p emin r := by
  rcases lt_trichotomy 0 q with hq | hq | hq
  · exact fpRound_mono_pos p emin hp q r hq h
  · rw [← hq, fpRound_zero]
    exact fpRound_nonneg p emin r (by rw [hq]; exact h)
  · rcases le_or_lt 0 r with hr | hr
    · have h1 := fpRound_nonneg p emin (-q) (by linarith)
      rw [fpRound_neg] at h1
      have h2 := fpRound_nonneg p emin r hr
      linarith
    · have := fpRound_mono_pos p emin hp (-r) (-q) (by linarith) (by linarith)
      rw [fpRound_neg, fpRound_neg] at this
      linarith

/-- A value `k * 2^m` with `|k| < 2^(p+1)` and `m` not below the least
exponent of the format is a value of the format. -/
theorem fpRound_repr (p emin : ℤ) (k m : ℤ)
    (hk : |(k : ℚ)| < 2 ^ (p + 1)) (hm : emin - p ≤ m) :
    fpRound p emin (k * 2 ^ m) = k * 2 ^ m := by
  by_cases h0 : k = 0
  · rw [h0]; simp [fpRound_zero]
  have two : (1 : ℚ) < 2 := by norm_num
  have hpm : (0 : ℚ) < 2 ^ m := zpow_pos (by norm_num) _
  have hq : (k : ℚ) * 2 ^ m ≠ 0 := mul_ne_zero (by exact_mod_cast h0) (ne_of_gt hpm)
  obtain ⟨s1, _⟩ := ilog2_spec _ hq
  have habs : |(k : ℚ) * 2 ^ m| < 2 ^ (p + 1 + m) := by
    rw [abs_mul, abs_of_pos hpm, zpow_add₀ (by norm_num : (2 : ℚ) ≠ 0)]
    exact mul_lt_mul_of_pos_right hk hpm
  have hlog : ilog2 ((k : ℚ) * 2 ^ m) ≤ p + m := by
    have := (zpow_lt_zpow_iff_right₀ two).mp (lt_of_le_of_lt s1 habs)
    omega
  have hE : fpExp p emin ((k : ℚ) * 2 ^ m) ≤ m := by
    unfold fpExp
    have : max (ilog2 ((k : ℚ) * 2 ^ m)) emin ≤ p + m := max_le hlog (by omega)
    omega
  apply fpRound_exact p emin _ (k * 2 ^ (m - fpExp p emin ((k : ℚ) * 2 ^ m)).toNat)
  push_cast
  rw [← zpow_natCast, Int.toNat_of_nonneg (by omega), mul_assoc,
    ← zpow_add₀ (by norm_num : (2 : ℚ) ≠ 0)]
  congr 2
  ring

/-- Every binary32 value is `k * 2^e` with `|k| ≤ 2^24` and `e ≥ -149`. -/
theorem f32_grid (q : ℚ) :
    |((roundEven (q / 2 ^ f32Exp q) : ℤ) : ℚ)| ≤ 16777216 ∧ -149 ≤ f32Exp q := by
  have hE : -149 ≤ f32Exp q := by
    unfold f32Exp
    have := le_max_right (ilog2 q) (-126)
    omega
  refine ⟨?_, hE⟩
  by_cases h0 : q = 0
  · rw [h0]; simp [roundEven]
  obtain ⟨_, s2⟩ := ilog2_spec q h0
  have hpos : (0 : ℚ) < 2 ^ f32Exp q := zpow_pos (by norm_num) _
  have hlog : ilog2 q + 1 ≤ f32Exp q + 24 := by
    unfold f32Exp
    have := le_max_left (ilog2 q) (-126)
    omega
  have hq : |q| ≤ 16777216 * 2 ^ f32Exp q := by
    have h24 : (16777216 : ℚ) * 2 ^ f32Exp q = 2 ^ (f32Exp q + 24) := by
      rw [zpow_add₀ (by norm_num : (2 : ℚ) ≠ 0)]; norm_num; ring
    rw [h24]
    exact le_trans s2.le ((zpow_le_zpow_iff_right₀ (by norm_num : (1 : ℚ) < 2)).mpr hlog)
  rw [abs_le] at hq ⊢
  have u1 : q / 2 ^ f32Exp q ≤ ((16777216 : ℤ) : ℚ) := by
    rw [div_le_iff₀ hpos]; push_cast; exact hq.2
  have u2 : ((-16777216 : ℤ) : ℚ) ≤ q / 2 ^ f32Exp q := by
    rw [le_div_iff₀ hpos]; push_cast; linarith [hq.1]
  have v1 := roundEven_le_of_le _ _ u1
  have v2 := le_roundEven_of_le _ _ u2
  constructor
  · exact_mod_cast v2
  · exact_mod_cast v1

/-- A `float` value converts to `double` exactly. -/
theorem f64_of_f32 (q : ℚ) (h : f32 q = q) : f64 q = q := by
  obtain ⟨g1, g2⟩ := f32_grid q
  have hq : q = (roundEven (q / 2 ^ f32Exp q) : ℤ) * 2 ^ f32Exp q := by
    conv_lhs => rw [← h]
    rfl
  rw [hq]
  exact fpRound_repr 52 (-1022) _ _
    (lt_of_le_of_lt g1 (by norm_num)) (by omega)

theorem f64_zero : f64 0 = 0 := fpRound_zero 52 (-1022)

theorem f64_mono (q r : ℚ) (h : q ≤ r) : f64 q ≤ f64 r :=
  fpRound_mono 52 (-1022) (by norm_num) q r h

theorem f32_mono (q r : ℚ) (h : q ≤ r) : f32 q ≤ f32 r :=
  fpRound_mono 23 (-126) (by norm_num) q r h

/-! ## The real cosine and sine at the `float` angles of 90° and 180° -/

/-- The `float` nearest to `π/2` exceeds `π/2` by about `4.37e-8`. -/
theorem rad90_sub_bounds :
    (4371138 : ℝ) / 10 ^ 14 < 13176795 / 8388608 - Real.pi / 2 ∧
      (13176795 : ℝ) / 8388608 - Real.pi / 2 < 4371140 / 10 ^ 14 := by
  have h1 := Real.pi_gt_d20
  have h2 := Real.pi_lt_d20
  constructor <;> norm_num at h1 h2 ⊢ <;> linarith

theorem sin_small_bounds (d lo hi : ℝ) (h0 : 0 < lo) (h1 : lo < d) (h2 : d < hi)
    (h3 : hi ≤ 1 / 10 ^ 5) :
    lo - 1 / 10 ^ 9 * hi < Real.sin d ∧ Real.sin d < hi := by
  have hd : 0 < d := lt_trans h0 h1
  refine ⟨?_, lt_trans (Real.sin_lt hd) h2⟩
  have h := Real.sin_gt_sub_cube hd (by linarith)
  have hc : d ^ 3 / 4 ≤ 1 / 10 ^ 9 * hi := by
    have hd1 : d ≤ 1 / 10 ^ 5 := by linarith
    have : d ^ 3 ≤ (1 / 10 ^ 5) ^ 2 * hi := by
      have a : d ^ 2 ≤ (1 / 10 ^ 5) ^ 2 := pow_le_pow_left₀ hd.le hd1 2
      calc d ^ 3 = d ^ 2 * d := by ring
        _ ≤ (1 / 10 ^ 5) ^ 2 * hi :=
          mul_le_mul a h2.le hd.le (by positivity)
    have hhi : 0 < hi := by linarith
    have e : ((1 : ℝ) / 10 ^ 5) ^ 2 * hi = 1 / 10 ^ 10 * hi := by norm_num
    rw [e] at this
    linarith
  linarith

theorem cos_small_bounds (d : ℝ) (h : |d| ≤ 1 / 10 ^ 7) :
    1 - 1 / 10 ^ 14 ≤ Real.cos d ∧ Real.cos d ≤ 1 := by
  refine ⟨?_, Real.cos_le_one d⟩
  have h1 := Real.one_sub_sq_div_two_le_cos (x := d)
  have h2 : d ^ 2 ≤ (1 / 10 ^ 7) ^ 2 := by
    rw [← sq_abs]
    exact pow_le_pow_left₀ (abs_nonneg d) h 2
  have h3 : ((1 : ℝ) / 10 ^ 7) ^ 2 = 1 / 10 ^ 14 := by norm_num
  linarith

/-- The real cosine at `rad = (float)(π/2)` is about `-4.37e-8`, not `0`. -/
theorem cos_rad90_bounds :
    -(4372 : ℝ) / 10 ^ 11 < Real.cos (((13176795 / 8388608 : ℚ)) : ℝ) ∧
      Real.cos (((13176795 / 8388608 : ℚ)) : ℝ) < -(4371 : ℝ) / 10 ^ 11 := by
  obtain ⟨b1, b2⟩ := rad90_sub_bounds
  have hx : (((13176795 / 8388608 : ℚ)) : ℝ) =
      ((13176795 : ℝ) / 8388608 - Real.pi / 2) + Real.pi / 2 := by
    push_cast; ring
  rw [hx, Real.cos_add_pi_div_two]
  obtain ⟨s1, s2⟩ := sin_small_bounds _ _ _ (by norm_num) b1 b2 (by norm_num)
  constructor <;> norm_num at s1 s2 ⊢ <;> linarith

/-- The real sine at `rad = (float)(π/2)` is within `10^(-14)` of `1`. -/
theorem sin_rad90_bounds :
    1 - 1 / 10 ^ 14 ≤ Real.sin (((13176795 / 8388608 : ℚ)) : ℝ) ∧
      Real.sin (((13176795 / 8388608 : ℚ)) : ℝ) ≤ 1 := by
  obtain ⟨b1, b2⟩ := rad90_sub_bounds
  have hx : (((13176795 / 8388608 : ℚ)) : ℝ) =
      ((13176795 : ℝ) / 8388608 - Real.pi / 2) + Real.pi / 2 := by
    push_cast; ring
  rw [hx, Real.sin_add_pi_div_two]
  apply cos_small_bounds
  rw [abs_le]
  constructor <;> norm_num at b1 b2 ⊢ <;> linarith

/-- The `float` nearest to `π` exceeds `π` by about `8.74e-8`. -/
theorem rad180_sub_bounds :
    (8742278 : ℝ) / 10 ^ 14 < 13176795 / 4194304 - Real.pi ∧
      (13176795 : ℝ) / 4194304 - Real.pi < 8742279 / 10 ^ 14 := by
  have h1 := Real.pi_gt_d20
  have h2 := Real.pi_lt_d20
  constructor <;> norm_num at h1 h2 ⊢ <;> linarith

/-- The real sine at `rad = (float)π` is about `-8.74e-8`, not `0`. -/
theorem sin_rad180_bounds :
    -(8743 : ℝ) / 10 ^ 11 < Real.sin (((13176795 / 4194304 : ℚ)) : ℝ) ∧
      Real.sin (((13176795 / 4194304 : ℚ)) : ℝ) < -(8742 : ℝ) / 10 ^ 11 := by
  obtain ⟨b1, b2⟩ := rad180_sub_bounds
  have hx : (((13176795 / 4194304 : ℚ)) : ℝ) =
      ((13176795 : ℝ) / 4194304 - Real.pi) + Real.pi := by
    push_cast; ring
  rw [hx, Real.sin_add_pi]
  obtain ⟨s1, s2⟩ := sin_small_bounds _ _ _ (by norm_num) b1 b2 (by norm_num)
  constructor <;> norm_num at s1 s2 ⊢ <;> linarith

/-- The real cosine at `rad = (float)π` is within `10^(-14)` of `-1`. -/
theorem cos_rad180_bounds :
    -1 ≤ Real.cos (((13176795 / 4194304 : ℚ)) : ℝ) ∧
      Real.cos (((13176795 / 4194304 : ℚ)) : ℝ) ≤ -1 + 1 / 10 ^ 14 := by
  obtain ⟨b1, b2⟩ := rad180_sub_bounds
  have hx : (((13176795 / 4194304 : ℚ)) : ℝ) =
      ((13176795 : ℝ) / 4194304 - Real.pi) + Real.pi := by
    push_cast; ring
  rw [hx, Real.cos_add_pi]
  have hc := cos_small_bounds ((13176795 : ℝ) / 4194304 - Real.pi) (by
    rw [abs_le]
    constructor <;> norm_num at b1 b2 ⊢ <;> linarith)
  constructor <;> linarith [hc.1, hc.2]

/-! ## The 2D transforms -/

theorem f64_between (a b q : ℚ) (ha : f64 a = a) (hb : f64 b = b) (h1 : a ≤ q)
    (h2 : q ≤ b) : a ≤ f64 q ∧ f64 q ≤ b :=
  ⟨ha ▸ f64_mono a q h1, hb ▸ f64_mono q b h2⟩

theorem f32_between (a b q : ℚ) (ha : f32 a = a) (hb : f32 b = b) (h1 : a ≤ q)
    (h2 : q ≤ b) : a ≤ f32 q ∧ f32 q ≤ b :=
  ⟨ha ▸ f32_mono a q h1, hb ▸ f32_mono q b h2⟩

/-- A value between two values that round to `v` rounds to `v`. -/
theorem f32_squeeze (a b v q : ℚ) (ha : f32 a = v) (hb : f32 b = v) (h1 : a ≤ q)
    (h2 : q ≤ b) : f32 q = v :=
  le_antisymm (hb ▸ f32_mono q b h2) (ha ▸ f32_mono a q h1)

/-- The angle `0` is converted to `rad = 0`. -/
theorem rad_zero (cosLib sinLib : ℚ → ℚ) :
    f32 ((libm cosLib sinLib).fd (0 * (libm cosLib sinLib).degRad)) = 0 := by
  show f32 (f64 (0 * _)) = 0
  rw [zero_mul, f64_zero, f32_zero]

/-- With `cos(0) = 1` and `sin(0) = 0`, the compiled rotation by `0` degrees
returns a `float` point unchanged. -/
theorem rotate2D_zero_angle (cosLib sinLib : ℚ → ℚ) (hc : cosLib 0 = 1) (hs : sinLib 0 = 0)
    (p : Vec2 ℚ) (hx : f32 p.x = p.x) (hy : f32 p.y = p.y) :
    rotate2D f32 (libm cosLib sinLib) p 0 = p := by
  have hr := rad_zero cosLib sinLib
  unfold rotate2D
  simp only [hr]
  show (⟨f32 (f64 (f64 (p.x * cosLib 0) - f64 (p.y * sinLib 0))),
    f32 (f64 (f64 (p.x * sinLib 0) + f64 (p.y * cosLib 0)))⟩ : Vec2 ℚ) = p
  rw [hc, hs, mul_one, mul_zero, mul_one, mul_zero, f64_zero, sub_zero, zero_add,
    f64_of_f32 _ hx, f64_of_f32 _ hy, f64_of_f32 _ hx, f64_of_f32 _ hy, hx, hy]

/-- The compiled `applyAllTransforms` with unit scale, angle `0`, no shear and
no translation only applies the selected reflections to a `float` point. -/
theorem applyAllTransforms_reflections (cosLib sinLib : ℚ → ℚ) (hc : cosLib 0 = 1)
    (hs : sinLib 0 = 0) (p : Vec2 ℚ) (hx : f32 p.x = p.x) (hy : f32 p.y = p.y)
    (rx ry : Bool) :
    applyAllTransforms f32 (libm cosLib sinLib) p 1 1 0 rx ry 0 0 0 0 =
      ⟨if ry then -p.x else p.x, if rx then -p.y else p.y⟩ := by
  have hsc : scale2D f32 p 1 1 = p := by
    unfold scale2D
    rw [mul_one, mul_one, hx, hy]
  unfold applyAllTransforms
  simp only [hsc, rotate2D_zero_angle cosLib sinLib hc hs p hx hy]
  have hnx : f32 (-p.x) = -p.x := by rw [f32_neg, hx]
  have hny : f32 (-p.y) = -p.y := by rw [f32_neg, hy]
  cases rx <;> cases ry <;>
    simp [reflectX, reflectY, shear2D, translate2D, f32_zero, hx, hy, hnx, hny]

/-- In exact arithmetic `applyAllTransforms` with unit scale, angle `0`, no
shear and no translation only applies the selected reflections. -/
theorem applyAllTransforms_reflections_exact (x y : ℝ) (rx ry : Bool) :
    applyAllTransforms id ⟨Real.pi / 180, id, Real.cos, Real.sin⟩ ⟨x, y⟩ 1 1 0 rx ry 0 0 0 0 =
      ⟨if ry then -x else x, if rx then -y else y⟩ := by
  cases rx <;> cases ry <;>
    simp [applyAllTransforms, scale2D, rotate2D, reflectX, reflectY, shear2D, translate2D]

/-- The angle `90` is converted to `rad = 13176795 / 2^23`, the `float` nearest
to `π/2`. -/
theorem rad90_val : f32 (f64 (90 * f64 (M_PI / 180))) = 13176795 / 8388608 := by
  decide!

/-- The angle `180` is converted to `rad = 13176795 / 2^22`, the `float`
nearest to `π`. -/
theorem rad180_val : f32 (f64 (180 * f64 (M_PI / 180))) = 13176795 / 4194304 := by
  decide!

/-- A rational within `2^(-30)` of a real in `(lo, hi)` lies in
`[lo - 10^(-9), hi + 10^(-9)]`. -/
theorem rat_near_real (c : ℚ) (v : ℝ) (lo hi : ℚ) (h : |(c : ℝ) - v| ≤ 1 / 2 ^ 30)
    (h1 : (lo : ℝ) ≤ v) (h2 : v ≤ (hi : ℝ)) :
    lo - 1 / 10 ^ 9 ≤ c ∧ c ≤ hi + 1 / 10 ^ 9 := by
  rw [abs_le] at h
  have e : (1 : ℝ) / 2 ^ 30 ≤ 1 / 10 ^ 9 := by norm_num
  have a1 : (((lo - 1 / 10 ^ 9 : ℚ)) : ℝ) ≤ (c : ℝ) := by push_cast; linarith
  have a2 : (c : ℝ) ≤ (((hi + 1 / 10 ^ 9 : ℚ)) : ℝ) := by push_cast; linarith
  exact ⟨by exact_mod_cast a1, by exact_mod_cast a2⟩

/-- With a library accurate at `rad = (float)(π/2)`, the compiled rotation of
`(2,0)` by `90` degrees has `y = 2` exactly and a small negative `x`. -/
theorem rotate2D_90_compiled (cosLib sinLib : ℚ → ℚ)
    (h : LibmAccurateAt (libm cosLib sinLib) (13176795 / 8388608)) :
    (rotate2D f32 (libm cosLib sinLib) ⟨2, 0⟩ 90).y = 2 ∧
      -(1 / 8388608) ≤ (rotate2D f32 (libm cosLib sinLib) ⟨2, 0⟩ 90).x ∧
      (rotate2D f32 (libm cosLib sinLib) ⟨2, 0⟩ 90).x ≤ -(1 / 16777216) := by
  obtain ⟨hc, hs⟩ := h
  change |((cosLib (13176795 / 8388608) : ℚ) : ℝ) - _| ≤ _ at hc
  change |((sinLib (13176795 / 8388608) : ℚ) : ℝ) - _| ≤ _ at hs
  obtain ⟨c1, c2⟩ := rat_near_real _ _ (-(4372 : ℚ) / 10 ^ 11) (-(4371 : ℚ) / 10 ^ 11) hc
    (by have hb := cos_rad90_bounds.1.le; push_cast at hb ⊢; exact hb)
    (by have hb := cos_rad90_bounds.2.le; push_cast at hb ⊢; exact hb)
  obtain ⟨s1, s2⟩ := rat_near_real _ _ (1 - 1 / 10 ^ 14 : ℚ) 1 hs
    (by have hb := sin_rad90_bounds.1; push_cast at hb ⊢; exact hb)
    (by have hb := sin_rad90_bounds.2; push_cast at hb ⊢; exact hb)
  have hx : (rotate2D f32 (libm cosLib sinLib) ⟨2, 0⟩ 90).x =
      f32 (f64 (f64 (2 * cosLib (13176795 / 8388608)) -
        f64 (0 * sinLib (13176795 / 8388608)))) := by
    show f32 (f64 (f64 (2 * cosLib (f32 (f64 (90 * f64 (M_PI / 180))))) -
      f64 (0 * sinLib (f32 (f64 (90 * f64 (M_PI / 180))))))) = _
    rw [rad90_val]
  have hy : (rotate2D f32 (libm cosLib sinLib) ⟨2, 0⟩ 90).y =
      f32 (f64 (f64 (2 * sinLib (13176795 / 8388608)) +
        f64 (0 * cosLib (13176795 / 8388608)))) := by
    show f32 (f64 (f64 (2 * sinLib (f32 (f64 (90 * f64 (M_PI / 180))))) +
      f64 (0 * cosLib (f32 (f64 (90 * f64 (M_PI / 180))))))) = _
    rw [rad90_val]
  rw [hx, hy, zero_mul, zero_mul, f64_zero, sub_zero, add_zero]
  have r1 : f64 (-(1 / 8388608)) = -(1 / 8388608) := by decide!
  have r2 : f64 (-(1 / 16777216)) = -(1 / 16777216) := by decide!
  have q1 : f32 (-(1 / 8388608)) = -(1 / 8388608) := by decide!
  have q2 : f32 (-(1 / 16777216)) = -(1 / 16777216) := by decide!
  have t1 : f64 (2 - 1 / 268435456) = 2 - 1 / 268435456 := by decide!
  have t2 : f64 (2 + 1 / 268435456) = 2 + 1 / 268435456 := by decide!
  have u1 : f32 (2 - 1 / 268435456) = 2 := by decide!
  have u2 : f32 (2 + 1 / 268435456) = 2 := by decide!
  obtain ⟨a1, a2⟩ := f64_between _ _ (2 * cosLib (13176795 / 8388608)) r1 r2
    (by norm_num at c1 ⊢; linarith) (by norm_num at c2 ⊢; linarith)
  obtain ⟨b1, b2⟩ := f64_between _ _ _ r1 r2 a1 a2
  obtain ⟨d1, d2⟩ := f32_between _ _ _ q1 q2 b1 b2
  obtain ⟨e1, e2⟩ := f64_between _ _ (2 * sinLib (13176795 / 8388608)) t1 t2
    (by norm_num at s1 ⊢; linarith) (by norm_num at s2 ⊢; linarith)
  obtain ⟨g1, g2⟩ := f64_between _ _ _ t1 t2 e1 e2
  exact ⟨f32_squeeze _ _ 2 _ u1 u2 g1 g2, d1, d2⟩

/-- With a library accurate at `rad = (float)π`, the compiled rotation of
`(1,0)` by `180` degrees has `x = -1` exactly and a small negative `y`. -/
theorem rotate2D_180_compiled (cosLib sinLib : ℚ → ℚ)
    (h : LibmAccurateAt (libm cosLib sinLib) (13176795 / 4194304)) :
    (rotate2D f32 (libm cosLib sinLib) ⟨1, 0⟩ 180).x = -1 ∧
      -(1 / 8388608) ≤ (rotate2D f32 (libm cosLib sinLib) ⟨1, 0⟩ 180).y ∧
      (rotate2D f32 (libm cosLib sinLib) ⟨1, 0⟩ 180).y ≤ -(1 / 16777216) := by
  obtain ⟨hc, hs⟩ := h
  change |((cosLib (13176795 / 4194304) : ℚ) : ℝ) - _| ≤ _ at hc
  change |((sinLib (13176795 / 4194304) : ℚ) : ℝ) - _| ≤ _ at hs
  obtain ⟨c1, c2⟩ := rat_near_real _ _ (-1 : ℚ) (-1 + 1 / 10 ^ 14 : ℚ) hc
    (by have hb := cos_rad180_bounds.1; push_cast at hb ⊢; exact hb)
    (by have hb := cos_rad180_bounds.2; push_cast at hb ⊢; exact hb)
  obtain ⟨s1, s2⟩ := rat_near_real _ _ (-(8743 : ℚ) / 10 ^ 11) (-(8742 : ℚ) / 10 ^ 11) hs
    (by have hb := sin_rad180_bounds.1.le; push_cast at hb ⊢; exact hb)
    (by have hb := sin_rad180_bounds.2.le; push_cast at hb ⊢; exact hb)
  have hx : (rotate2D f32 (libm cosLib sinLib) ⟨1, 0⟩ 180).x =
      f32 (f64 (f64 (1 * cosLib (13176795 / 4194304)) -
        f64 (0 * sinLib (13176795 / 4194304)))) := by
    show f32 (f64 (f64 (1 * cosLib (f32 (f64 (180 * f64 (M_PI / 180))))) -
      f64 (0 * sinLib (f32 (f64 (180 * f64 (M_PI / 180))))))) = _
    rw [rad180_val]
  have hy : (rotate2D f32 (libm cosLib sinLib) ⟨1, 0⟩ 180).y =
      f32 (f64 (f64 (1 * sinLib (13176795 / 4194304)) +
        f64 (0 * cosLib (13176795 / 4194304)))) := by
    show f32 (f64 (f64 (1 * sinLib (f32 (f64 (180 * f64 (M_PI / 180))))) +
      f64 (0 * cosLib (f32 (f64 (180 * f64 (M_PI / 180))))))) = _
    rw [rad180_val]
  rw [hx, hy, zero_mul, zero_mul, f64_zero, sub_zero, add_zero, one_mul, one_mul]
  have r1 : f64 (-(1 / 8388608)) = -(1 / 8388608) := by decide!
  have r2 : f64 (-(1 / 16777216)) = -(1 / 16777216) := by decide!
  have q1 : f32 (-(1 / 8388608)) = -(1 / 8388608) := by decide!
  have q2 : f32 (-(1 / 16777216)) = -(1 / 16777216) := by decide!
  have t1 : f64 (-1 - 1 / 268435456) = -1 - 1 / 268435456 := by decide!
  have t2 : f64 (-1 + 1 / 268435456) = -1 + 1 / 268435456 := by decide!
  have u1 : f32 (-1 - 1 / 268435456) = -1 := by decide!
  have u2 : f32 (-1 + 1 / 268435456) = -1 := by decide!
  obtain ⟨a1, a2⟩ := f64_between _ _ (sinLib (13176795 / 4194304)) r1 r2
    (by norm_num at s1 ⊢; linarith) (by norm_num at s2 ⊢; linarith)
  obtain ⟨b1, b2⟩ := f64_between _ _ _ r1 r2 a1 a2
  obtain ⟨d1, d2⟩ := f32_between _ _ _ q1 q2 b1 b2
  obtain ⟨e1, e2⟩ := f64_between _ _ (cosLib (13176795 / 4194304)) t1 t2
    (by norm_num at c1 ⊢; linarith) (by norm_num at c2 ⊢; linarith)
  obtain ⟨g1, g2⟩ := f64_between _ _ _ t1 t2 e1 e2
  exact ⟨f32_squeeze _ _ (-1) _ u1 u2 g1 g2, d1, d2⟩

/-- With a library accurate at `rad = (float)(π/2)`, the compiled
`applyAllTransforms` takes `(1,0)` under scale `2`, rotation `90` and
translation `(10,0)` to exactly `(10,2)`: the translation absorbs the small
negative `x` left by the rotation. -/
theorem applyAllTransforms_scale_rotate_translate (cosLib sinLib : ℚ → ℚ)
    (h : LibmAccurateAt (libm cosLib sinLib) (13176795 / 8388608)) :
    applyAllTransforms f32 (libm cosLib sinLib) ⟨1, 0⟩ 2 2 90 false false 0 0 10 0 =
      ⟨10, 2⟩ := by
  obtain ⟨hy, hx1, hx2⟩ := rotate2D_90_compiled cosLib sinLib h
  have hsc : scale2D f32 (⟨1, 0⟩ : Vec2 ℚ) 2 2 = ⟨2, 0⟩ := by
    simp only [scale2D, Vec2.mk.injEq]
    decide!
  have q1 : f32 (-(1 / 8388608)) = -(1 / 8388608) := by decide!
  have q2 : f32 (-(1 / 16777216)) = -(1 / 16777216) := by decide!
  have u1 : f32 (-(1 / 8388608) + 10) = 10 := by decide!
  have u2 : f32 (-(1 / 16777216) + 10) = 10 := by decide!
  have v2 : f32 2 = 2 := by decide!
  obtain ⟨d1, d2⟩ := f32_between _ _ _ q1 q2 hx1 hx2
  have hX := f32_squeeze _ _ 10 (f32 (rotate2D f32 (libm cosLib sinLib) ⟨2, 0⟩ 90).x + 10)
    u1 u2 (by linarith) (by linarith)
  unfold applyAllTransforms
  simp only [hsc, Bool.false_eq_true, if_false]
  unfold shear2D translate2D
  simp only [zero_mul, f32_zero, add_zero, hy, v2, hX]

theorem libm_table_accurate_90 :
    LibmAccurateAt (libm cosAt sinAt) (13176795 / 8388608) := by
  have hc : (libm cosAt sinAt).cos (13176795 / 8388608) = -(4371139 / 100000000000000) := by
    decide!
  have hs : (libm cosAt sinAt).sin (13176795 / 8388608) = 1 := by decide!
  obtain ⟨c1, c2⟩ := cos_rad90_bounds
  obtain ⟨s1, s2⟩ := sin_rad90_bounds
  unfold LibmAccurateAt
  rw [hc, hs]
  push_cast at c1 c2 s1 s2 ⊢
  constructor <;> rw [abs_le] <;> constructor <;> norm_num <;> linarith

theorem libm_table_accurate_180 :
    LibmAccurateAt (libm cosAt sinAt) (13176795 / 4194304) := by
  have hc : (libm cosAt sinAt).cos (13176795 / 4194304) = -1 := by decide!
  have hs : (libm cosAt sinAt).sin (13176795 / 4194304) = -(8742278 / 100000000000000) := by
    decide!
  obtain ⟨c1, c2⟩ := cos_rad180_bounds
  obtain ⟨s1, s2⟩ := sin_rad180_bounds
  unfold LibmAccurateAt
  rw [hc, hs]
  push_cast at c1 c2 s1 s2 ⊢
  constructor <;> rw [abs_le] <;> constructor <;> norm_num <;> linarith

/-- In exact arithmetic the rotation by `90` degrees takes `(x, y)` to `(-y, x)`. -/
theorem rotate2D_exact_90 (x y : ℝ) :
    rotate2D id ⟨Real.pi / 180, id, Real.cos, Real.sin⟩ ⟨x, y⟩ 90 = ⟨-y, x⟩ := by
  have h : (90 : ℝ) * (Real.pi / 180) = Real.pi / 2 := by ring
  simp [rotate2D, h]

/-- In exact arithmetic the rotation by `180` degrees takes `(x, y)` to `(-x, -y)`. -/
theorem rotate2D_exact_180 (x y : ℝ) :
    rotate2D id ⟨Real.pi / 180, id, Real.cos, Real.sin⟩ ⟨x, y⟩ 180 = ⟨-x, -y⟩ := by
  have h : (180 : ℝ) * (Real.pi / 180) = Real.pi := by ring
  simp [rotate2D, h]

/-! ## Claims on the 2D transforms -/

/-- Claim C11: `applyAllTransforms` is the composition
`translate2D(shear2D(reflect(rotate2D(scale2D(p)))))` for every rounding and
library; its result is `(X + shx·Y + tx, Y + shy·X + ty)` with
`X = ex·(sx·x·c − sy·y·s)`, `Y = ey·(sx·x·s + sy·y·c)`, `ex = −1` iff
`doReflectY`, `ey = −1` iff `doReflectX`, each operation carrying its rounding;
and in exact real arithmetic, `c` and `s` the cosine and sine of
`rotDeg·π/180`, it is literally this closed form. -/
theorem applyAllTransforms_order_and_closed_form :
    (∀ (fl : ℚ → ℚ) (T : Trig ℚ) (p : Vec2 ℚ) (sx sy rotDeg : ℚ) (rx ry : Bool)
        (shx shy tx ty : ℚ),
      applyAllTransforms fl T p sx sy rotDeg rx ry shx shy tx ty =
        translate2D fl
          (shear2D fl
            ((if ry then reflectY else id)
              ((if rx then reflectX else id) (rotate2D fl T (scale2D fl p sx sy) rotDeg)))
            shx shy)
          tx ty) ∧
    (∀ (fl : ℚ → ℚ) (T : Trig ℚ) (x y sx sy rotDeg : ℚ) (rx ry : Bool)
        (shx shy tx ty : ℚ),
      let c := T.cos (fl (T.fd (rotDeg * T.degRad)))
      let s := T.sin (fl (T.fd (rotDeg * T.degRad)))
      let X := (if ry then -1 else 1) *
        fl (T.fd (T.fd (fl (x * sx) * c) - T.fd (fl (y * sy) * s)))
      let Y := (if rx then -1 else 1) *
        fl (T.fd (T.fd (fl (x * sx) * s) + T.fd (fl (y * sy) * c)))
      applyAllTransforms fl T ⟨x, y⟩ sx sy rotDeg rx ry shx shy tx ty =
        ⟨fl (fl (X + fl (shx * Y)) + tx), fl (fl (Y + fl (shy * X)) + ty)⟩) ∧
    (∀ (x y sx sy rotDeg : ℝ) (rx ry : Bool) (shx shy tx ty : ℝ),
      let c := Real.cos (rotDeg * (Real.pi / 180))
      let s := Real.sin (rotDeg * (Real.pi / 180))
      let X := (if ry then -1 else 1) * (sx * x * c - sy * y * s)
      let Y := (if rx then -1 else 1) * (sx * x * s + sy * y * c)
      applyAllTransforms id ⟨Real.pi / 180, id, Real.cos, Real.sin⟩ ⟨x, y⟩ sx sy rotDeg rx ry
          shx shy tx ty =
        ⟨X + shx * Y + tx, Y + shy * X + ty⟩) := by
  refine ⟨?_, ?_, ?_⟩
  · intro fl T p sx sy rotDeg rx ry shx shy tx ty
    cases rx <;> cases ry <;> rfl
  · intro fl T x y sx sy rotDeg rx ry shx shy tx ty
    cases rx <;> cases ry <;>
      simp [applyAllTransforms, scale2D, rotate2D, reflectX, reflectY, shear2D, translate2D]
  · intro x y sx sy rotDeg rx ry shx shy tx ty
    cases rx <;> cases ry <;>
      simp [applyAllTransforms, scale2D, rotate2D, reflectX, reflectY, shear2D,
        translate2D] <;>
      constructor <;> ring

/-- Claim C12: with identity parameters (unit scale, angle `0`, no reflection,
zero shear and translation) `applyAllTransforms` returns `p`: as compiled, for
every point with `float` coordinates and a library with `cos(0) = 1`,
`sin(0) = 0`; and in exact real arithmetic for every point. -/
theorem applyAllTransforms_identity (cosLib sinLib : ℚ → ℚ) (p : Vec2 ℚ)
    (hc : cosLib 0 = 1) (hs : sinLib 0 = 0) (hx : f32 p.x = p.x) (hy : f32 p.y = p.y) :
    applyAllTransforms f32 (libm cosLib sinLib) p 1 1 0 false false 0 0 0 0 = p ∧
    (∀ x y : ℝ,
      applyAllTransforms id ⟨Real.pi / 180, id, Real.cos, Real.sin⟩ ⟨x, y⟩ 1 1 0 false false
        0 0 0 0 = ⟨x, y⟩) := by
  constructor
  · rw [applyAllTransforms_reflections cosLib sinLib hc hs p hx hy]
    simp
  · intro x y
    rw [applyAllTransforms_reflections_exact]
    simp

/-- Witness for C12: the point `(3, -5.5)` with the table library. -/
theorem applyAllTransforms_identity_witness :
    (cosAt 0 = 1 ∧ sinAt 0 = 0 ∧ f32 (3 : ℚ) = 3 ∧ f32 (-(11 / 2) : ℚ) = -(11 / 2)) ∧
    applyAllTransforms f32 (libm cosAt sinAt) ⟨3, -(11 / 2)⟩ 1 1 0 false false 0 0 0 0 =
      ⟨3, -(11 / 2)⟩ :=
  ⟨⟨by decide!, by decide!, by decide!, by decide!⟩,
    (applyAllTransforms_identity cosAt sinAt ⟨3, -(11 / 2)⟩ (by decide!) (by decide!)
      (by decide!) (by decide!)).1⟩

/-- Claim C13, refuted as stated: as compiled, the angle `90` becomes
`rad = 13176795/2^23`, just above `π/2`, where the cosine is about `-4.37e-8`;
for no library accurate to `2^(-30)` there does the rotation of the scaled
point `(2,0)` give `(0,2)`. -/
theorem rotate2D_90_not_exact :
    f32 (f64 (90 * (libm cosAt sinAt).degRad)) = 13176795 / 8388608 ∧
    ¬ ∃ cosLib sinLib : ℚ → ℚ,
        LibmAccurateAt (libm cosLib sinLib) (13176795 / 8388608) ∧
        rotate2D f32 (libm cosLib sinLib) (scale2D f32 ⟨1, 0⟩ 2 2) 90 = ⟨0, 2⟩ := by
  refine ⟨rad90_val, ?_⟩
  rintro ⟨cosLib, sinLib, hacc, heq⟩
  have hsc : scale2D f32 (⟨1, 0⟩ : Vec2 ℚ) 2 2 = ⟨2, 0⟩ := by
    simp only [scale2D, Vec2.mk.injEq]
    decide!
  rw [hsc] at heq
  have hx := (rotate2D_90_compiled cosLib sinLib hacc).2.2
  rw [heq] at hx
  norm_num at hx

/-- Claim C13, amended: `applyAllTransforms` takes `(1,0)` with `sx = sy = 2`,
`rotDeg = 90`, no reflection, zero shear and translation `(10,0)` to `(10,2)`.
In exact real arithmetic scale gives `(2,0)`, rotation `(0,2)`, translation
`(10,2)`.  As compiled, with a library accurate to `2^(-30)` at `rad`, scale
gives `(2,0)`, rotation gives `(x,2)` with `-2^(-23) ≤ x ≤ -2^(-24)`, and the
translation returns exactly `(10,2)`. -/
theorem applyAllTransforms_1_0_scale_rotate_translate (cosLib sinLib : ℚ → ℚ)
    (hacc : LibmAccurateAt (libm cosLib sinLib) (13176795 / 8388608)) :
    (scale2D id (⟨1, 0⟩ : Vec2 ℝ) 2 2 = ⟨2, 0⟩ ∧
      rotate2D id ⟨Real.pi / 180, id, Real.cos, Real.sin⟩ ⟨2, 0⟩ 90 = ⟨0, 2⟩ ∧
      translate2D id (⟨0, 2⟩ : Vec2 ℝ) 10 0 = ⟨10, 2⟩ ∧
      applyAllTransforms id ⟨Real.pi / 180, id, Real.cos, Real.sin⟩ ⟨1, 0⟩ 2 2 90 false false
        0 0 10 0 = ⟨10, 2⟩) ∧
    (scale2D f32 (⟨1, 0⟩ : Vec2 ℚ) 2 2 = ⟨2, 0⟩ ∧
      (rotate2D f32 (libm cosLib sinLib) ⟨2, 0⟩ 90).y = 2 ∧
      -(1 / 8388608) ≤ (rotate2D f32 (libm cosLib sinLib) ⟨2, 0⟩ 90).x ∧
      (rotate2D f32 (libm cosLib sinLib) ⟨2, 0⟩ 90).x ≤ -(1 / 16777216) ∧
      applyAllTransforms f32 (libm cosLib sinLib) ⟨1, 0⟩ 2 2 90 false false 0 0 10 0 =
        ⟨10, 2⟩) := by
  have hR := rotate2D_exact_90 2 0
  rw [neg_zero] at hR
  have hS : scale2D id (⟨1, 0⟩ : Vec2 ℝ) 2 2 = ⟨2, 0⟩ := by simp [scale2D]
  have hT : translate2D id (⟨0, 2⟩ : Vec2 ℝ) 10 0 = ⟨10, 2⟩ := by simp [translate2D]
  refine ⟨⟨hS, hR, hT, ?_⟩, ?_, ?_⟩
  · unfold applyAllTransforms
    simp only [hS, hR, Bool.false_eq_true, if_false]
    simp [shear2D, translate2D]
  · simp only [scale2D, Vec2.mk.injEq]
    decide!
  · obtain ⟨a, b, c⟩ := rotate2D_90_compiled cosLib sinLib hacc
    exact ⟨a, b, c, applyAllTransforms_scale_rotate_translate cosLib sinLib hacc⟩

/-- Witness for C13: the table library, whose entries at `rad` are within
`2^(-30)` of the real cosine and sine. -/
theorem applyAllTransforms_1_0_scale_rotate_translate_witness :
    LibmAccurateAt (libm cosAt sinAt) (13176795 / 8388608) ∧
    applyAllTransforms f32 (libm cosAt sinAt) ⟨1, 0⟩ 2 2 90 false false 0 0 10 0 =
      ⟨10, 2⟩ :=
  ⟨libm_table_accurate_90,
    (applyAllTransforms_1_0_scale_rotate_translate cosAt sinAt
      libm_table_accurate_90).2.2.2.2.2⟩

/-- Claim C14: `shear2D((x,y), shx, shy)` is `(x + shx·y, y + shy·x)` with both
components computed from the coordinates on entry, for every rounding and in
exact arithmetic; `shear2D((1,1),1,0) = (2,1)`, and `shear2D((1,1),1,1)` is
`(2,2)`, not the `(2,3)` that the sheared `x` would give. -/
theorem shear2D_uses_pre_shear_coordinates (fl : ℚ → ℚ) (x y shx shy : ℚ) :
    shear2D fl ⟨x, y⟩ shx shy = ⟨fl (x + fl (shx * y)), fl (y + fl (shy * x))⟩ ∧
    shear2D id ⟨x, y⟩ shx shy = ⟨x + shx * y, y + shy * x⟩ ∧
    shear2D f32 (⟨1, 1⟩ : Vec2 ℚ) 1 0 = ⟨2, 1⟩ ∧
    shear2D f32 (⟨1, 1⟩ : Vec2 ℚ) 1 1 = ⟨2, 2⟩ := by
  refine ⟨rfl, rfl, ?_, ?_⟩ <;>
  · simp only [shear2D, Vec2.mk.injEq]
    decide!

/-- Claim C15: applying `applyAllTransforms` with `doReflectX = true` and all
other parameters identity twice returns `p` (the first application gives
`(x, -y)`): as compiled, for every point with `float` coordinates and a
library with `cos(0) = 1`, `sin(0) = 0`; and in exact real arithmetic. -/
theorem reflectX_twice_is_identity (cosLib sinLib : ℚ → ℚ) (p : Vec2 ℚ)
    (hc : cosLib 0 = 1) (hs : sinLib 0 = 0) (hx : f32 p.x = p.x) (hy : f32 p.y = p.y) :
    applyAllTransforms f32 (libm cosLib sinLib) p 1 1 0 true false 0 0 0 0 = ⟨p.x, -p.y⟩ ∧
    applyAllTransforms f32 (libm cosLib sinLib)
      (applyAllTransforms f32 (libm cosLib sinLib) p 1 1 0 true false 0 0 0 0)
      1 1 0 true false 0 0 0 0 = p ∧
    (∀ x y : ℝ,
      applyAllTransforms id ⟨Real.pi / 180, id, Real.cos, Real.sin⟩
        (applyAllTransforms id ⟨Real.pi / 180, id, Real.cos, Real.sin⟩ ⟨x, y⟩ 1 1 0 true false
          0 0 0 0)
        1 1 0 true false 0 0 0 0 = ⟨x, y⟩) := by
  have h1 := applyAllTransforms_reflections cosLib sinLib hc hs p hx hy true false
  simp only [Bool.false_eq_true, if_false, if_true] at h1
  refine ⟨h1, ?_, ?_⟩
  · rw [h1, applyAllTransforms_reflections cosLib sinLib hc hs ⟨p.x, -p.y⟩ hx
      (by show f32 (-p.y) = -p.y; rw [f32_neg, hy])]
    simp
  · intro x y
    rw [applyAllTransforms_reflections_exact, applyAllTransforms_reflections_exact]
    simp

/-- Witness for C15: the point `(3, -5.5)` with the table library. -/
theorem reflectX_twice_is_identity_witness :
    (cosAt 0 = 1 ∧ sinAt 0 = 0 ∧ f32 (3 : ℚ) = 3 ∧ f32 (-(11 / 2) : ℚ) = -(11 / 2)) ∧
    applyAllTransforms f32 (libm cosAt sinAt)
      (applyAllTransforms f32 (libm cosAt sinAt) ⟨3, -(11 / 2)⟩ 1 1 0 true false 0 0 0 0)
      1 1 0 true false 0 0 0 0 = ⟨3, -(11 / 2)⟩ :=
  ⟨⟨by decide!, by decide!, by decide!, by decide!⟩,
    (reflectX_twice_is_identity cosAt sinAt ⟨3, -(11 / 2)⟩ (by decide!) (by decide!)
      (by decide!) (by decide!)).2.1⟩

/-- Claim C20, refuted as stated: as compiled, the angle `180` becomes
`rad = 13176795/2^22`, just above `π`, where the sine is about `-8.74e-8`; for
no library accurate to `2^(-30)` there is `rotate2D((1,0),180)` the negated
point `(-1,-0)`. -/
theorem rotate2D_180_not_negation :
    f32 (f64 (180 * (libm cosAt sinAt).degRad)) = 13176795 / 4194304 ∧
    ¬ ∃ cosLib sinLib : ℚ → ℚ,
        LibmAccurateAt (libm cosLib sinLib) (13176795 / 4194304) ∧
        rotate2D f32 (libm cosLib sinLib) ⟨1, 0⟩ 180 = ⟨-1, -0⟩ := by
  refine ⟨rad180_val, ?_⟩
  rintro ⟨cosLib, sinLib, hacc, heq⟩
  have hy := (rotate2D_180_compiled cosLib sinLib hacc).2.2
  rw [heq] at hy
  norm_num at hy

/-- Claim C20, amended: with both reflect flags set and all other parameters
identity `applyAllTransforms` returns `(-x,-y)`, as compiled (for `float`
coordinates and a library with `cos(0) = 1`, `sin(0) = 0`) and in exact real
arithmetic.  In exact real arithmetic this equals `rotate2D((x,y),180)`.  As
compiled, with a library accurate to `2^(-30)` at `rad`, `rotate2D(p,180)`
only approximates it: `rotate2D((1,0),180) = (-1, y)` with
`-2^(-23) ≤ y ≤ -2^(-24)`. -/
theorem reflect_both_is_negation (cosLib sinLib : ℚ → ℚ) (p : Vec2 ℚ)
    (hc : cosLib 0 = 1) (hs : sinLib 0 = 0) (hx : f32 p.x = p.x) (hy : f32 p.y = p.y)
    (hacc : LibmAccurateAt (libm cosLib sinLib) (13176795 / 4194304)) :
    applyAllTransforms f32 (libm cosLib sinLib) p 1 1 0 true true 0 0 0 0 = ⟨-p.x, -p.y⟩ ∧
    (∀ x y : ℝ,
      applyAllTransforms id ⟨Real.pi / 180, id, Real.cos, Real.sin⟩ ⟨x, y⟩ 1 1 0 true true
        0 0 0 0 = ⟨-x, -y⟩ ∧
      rotate2D id ⟨Real.pi / 180, id, Real.cos, Real.sin⟩ ⟨x, y⟩ 180 = ⟨-x, -y⟩) ∧
    ((rotate2D f32 (libm cosLib sinLib) ⟨1, 0⟩ 180).x = -1 ∧
      -(1 / 8388608) ≤ (rotate2D f32 (libm cosLib sinLib) ⟨1, 0⟩ 180).y ∧
      (rotate2D f32 (libm cosLib sinLib) ⟨1, 0⟩ 180).y ≤ -(1 / 16777216)) := by
  refine ⟨?_, ?_, rotate2D_180_compiled cosLib sinLib hacc⟩
  · rw [applyAllTransforms_reflections cosLib sinLib hc hs p hx hy]
    simp
  · intro x y
    refine ⟨?_, rotate2D_exact_180 x y⟩
    rw [applyAllTransforms_reflections_exact]
    simp

/-- Witness for C20: the point `(3, -5.5)` with the table library. -/
theorem reflect_both_is_negation_witness :
    (cosAt 0 = 1 ∧ sinAt 0 = 0 ∧ f32 (3 : ℚ) = 3 ∧ f32 (-(11 / 2) : ℚ) = -(11 / 2) ∧
      LibmAccurateAt (libm cosAt sinAt) (13176795 / 4194304)) ∧
    applyAllTransforms f32 (libm cosAt sinAt) ⟨3, -(11 / 2)⟩ 1 1 0 true true 0 0 0 0 =
      ⟨-3, -(-(11 / 2))⟩ :=
  ⟨⟨by decide!, by decide!, by decide!, by decide!, libm_table_accurate_180⟩,
    (reflect_both_is_negation cosAt sinAt ⟨3, -(11 / 2)⟩ (by decide!) (by decide!)
      (by decide!) (by decide!) libm_table_accurate_180).1⟩

/-! ## Closed form and end pixels of `drawLineDDA` in exact arithmetic -/

/-- With exact arithmetic and distinct endpoints, the `i`-th pixel of
`drawLineDDA` is the rounded sample `(x1 + i·Δx/N, y1 + i·Δy/N)` for
`i = 0..N`, `N = max(|Δx|,|Δy|)`. -/
theorem drawLineDDAWith_id_closed (x1 y1 x2 y2 : ℤ) (h : x1 ≠ x2 ∨ y1 ≠ y2) :
    drawLineDDAWith id x1 y1 x2 y2 =
      (List.range ((max |x2 - x1| |y2 - y1|).toNat + 1)).map (fun i : ℕ =>
        (cround ((x1 : ℚ) + (i : ℚ) *
            (((x2 - x1 : ℤ) : ℚ) / ((max |x2 - x1| |y2 - y1| : ℤ) : ℚ))),
          cround ((y1 : ℚ) + (i : ℚ) *
            (((y2 - y1 : ℤ) : ℚ) / ((max |x2 - x1| |y2 - y1| : ℤ) : ℚ))))) := by
  have hpos : 0 < max |x2 - x1| |y2 - y1| := by
    rcases h with h | h
    · exact lt_max_of_lt_left (abs_pos.mpr (by omega))
    · exact lt_max_of_lt_right (abs_pos.mpr (by omega))
  unfold drawLineDDAWith
  simp only [ddaSteps_id]
  rw [if_neg (ne_of_gt hpos), ddaLoop_id]
  have hn : (max |x2 - x1| |y2 - y1| + 1).toNat = (max |x2 - x1| |y2 - y1|).toNat + 1 := by
    omega
  rw [hn]
  simp only [id, Int.cast_sub]

theorem map_range_succ_head {α : Type} (f : ℕ → α) (n : ℕ) :
    ((List.range (n + 1)).map f).head? = some (f 0) := by
  rw [List.range_succ_eq_map]
  rfl

theorem map_range_succ_getLast {α : Type} (f : ℕ → α) (n : ℕ) :
    ((List.range (n + 1)).map f).getLast? = some (f n) := by
  rw [List.range_succ, List.map_append, List.map_singleton, List.getLast?_append]
  rfl

/-- With exact arithmetic the first pixel is `(x1,y1)` and the last is
`(x2,y2)`. -/
theorem drawLineDDAWith_id_ends (x1 y1 x2 y2 : ℤ) (hne : x1 ≠ x2 ∨ y1 ≠ y2) :
    (drawLineDDAWith id x1 y1 x2 y2).head? = some (x1, y1) ∧
      (drawLineDDAWith id x1 y1 x2 y2).getLast? = some (x2, y2) := by
  have hpos : 0 < max |x2 - x1| |y2 - y1| := by
    rcases hne with h | h
    · exact lt_max_of_lt_left (abs_pos.mpr (by omega))
    · exact lt_max_of_lt_right (abs_pos.mpr (by omega))
  have hq : ((max |x2 - x1| |y2 - y1| : ℤ) : ℚ) ≠ 0 := by exact_mod_cast (ne_of_gt hpos)
  have hN : (((max |x2 - x1| |y2 - y1|).toNat : ℕ) : ℚ) =
      ((max |x2 - x1| |y2 - y1| : ℤ) : ℚ) := by
    have : (((max |x2 - x1| |y2 - y1|).toNat : ℕ) : ℤ) = max |x2 - x1| |y2 - y1| :=
      Int.toNat_of_nonneg hpos.le
    exact_mod_cast this
  rw [drawLineDDAWith_id_closed x1 y1 x2 y2 hne, map_range_succ_head, map_range_succ_getLast]
  constructor
  · simp [cround_intCast]
  · rw [hN, mul_div_cancel₀ _ hq, mul_div_cancel₀ _ hq]
    have ex : (x1 : ℚ) + ((x2 - x1 : ℤ) : ℚ) = ((x2 : ℤ) : ℚ) := by push_cast; ring
    have ey : (y1 : ℚ) + ((y2 - y1 : ℤ) : ℚ) = ((y2 : ℤ) : ℚ) := by push_cast; ring
    rw [ex, ey, cround_intCast, cround_intCast]

/-! ## No division by zero in the line rasterizers -/

theorem divChecked_of_ne (fl : ℚ → ℚ) (a b : ℚ) (hb : b ≠ 0) :
    divChecked fl a b = some (fl (a / b)) := by
  unfold divChecked
  rw [if_neg hb]

/-- A non-zero `int` converts to a non-zero `float`. -/
theorem f32_intCast_ne_zero (n : ℤ) (hn : n ≠ 0) : f32 (n : ℚ) ≠ 0 := by
  have hpow : (2 : ℚ) ^ (-126 : ℤ) ≤ 1 := by
    rw [zpow_neg]
    exact inv_le_one_of_one_le₀ (one_le_zpow₀ (by norm_num) (by norm_num))
  rcases lt_or_gt_of_ne hn with h | h
  · have h1 : (1 : ℚ) ≤ -(n : ℚ) := by
      have : (1 : ℤ) ≤ -n := by omega
      exact_mod_cast this
    have := f32_pos (-(n : ℚ)) (le_trans hpow h1)
    rw [f32_neg] at this
    linarith
  · have h1 : (1 : ℚ) ≤ (n : ℚ) := by exact_mod_cast h
    exact ne_of_gt (f32_pos (n : ℚ) (le_trans hpow h1))

/-- The first component of the normalised endpoints differs from the third
when the inputs have `x1 ≠ x2`: the swaps exchange both endpoints whole. -/
theorem bresNormalize_x_ne (m : ℚ) (x1 y1 x2 y2 : ℤ) (hx : x1 ≠ x2) :
    (bresNormalize m x1 y1 x2 y2).1 ≠ (bresNormalize m x1 y1 x2 y2).2.2.1 := by
  unfold bresNormalize
  simp only
  split_ifs <;> simp <;> omega

theorem bresRegimesChecked_of_ne (fl : ℚ → ℚ) (x1 y1 x2 y2 : ℤ)
    (h : fl ((x2 - x1 : ℤ) : ℚ) ≠ 0) :
    bresRegimesChecked fl x1 y1 x2 y2 = some (bresRegimes fl x1 y1 x2 y2) := by
  unfold bresRegimesChecked bresRegimes bresSlope
  rw [divChecked_of_ne fl _ _ h]
  rfl

/-- For a rounding that keeps non-zero integers non-zero, the checked
rasterizers never meet a zero divisor and return what the unchecked ones plot. -/
theorem checked_eq_some (fl : ℚ → ℚ) (hfl : ∀ n : ℤ, n ≠ 0 → fl (n : ℚ) ≠ 0)
    (x1 y1 x2 y2 : ℤ) :
    drawLineDDAChecked fl x1 y1 x2 y2 = some (drawLineDDAWith fl x1 y1 x2 y2) ∧
      drawLineBresenhamChecked fl x1 y1 x2 y2 =
        some (drawLineBresenhamWith fl x1 y1 x2 y2) := by
  constructor
  · unfold drawLineDDAChecked drawLineDDAWith
    simp only
    by_cases h0 : ddaSteps fl x1 y1 x2 y2 = 0
    · rw [if_pos h0, if_pos h0]
    · rw [if_neg h0, if_neg h0, divChecked_of_ne fl _ _ (hfl _ h0),
        divChecked_of_ne fl _ _ (hfl _ h0)]
      rfl
  · unfold drawLineBresenhamChecked drawLineBresenhamWith
    by_cases hx : x1 = x2
    · rw [if_pos hx, if_pos hx]
    · rw [if_neg hx, if_neg hx, divChecked_of_ne fl _ _ (hfl _ (by omega))]
      simp only [Option.some_bind]
      apply bresRegimesChecked_of_ne
      apply hfl
      have := bresNormalize_x_ne
        (fl (fl ((y2 - y1 : ℤ) : ℚ) / fl ((x2 - x1 : ℤ) : ℚ))) x1 y1 x2 y2 hx
      omega

/-- Claim C29: no division by zero is reachable in the line rasterizers.  With
every division checked (a zero divisor gives `none`, as `divChecked 1 0`
shows), `drawLineDDA` and `drawLineBresenham` return a pixel list for all
integer inputs, the list of the unchecked functions, both as compiled
(binary32) and in exact arithmetic: `xdif / steps` and `ydif / steps` run only
for `steps ≠ 0`, and both slopes divide by `x2 - x1 ≠ 0`, before and after
the swaps. -/
theorem line_rasterizers_no_division_by_zero (x1 y1 x2 y2 : ℤ) :
    drawLineDDAChecked f32 x1 y1 x2 y2 = some (drawLineDDA x1 y1 x2 y2) ∧
      drawLineBresenhamChecked f32 x1 y1 x2 y2 = some (drawLineBresenham x1 y1 x2 y2) ∧
      drawLineDDAChecked id x1 y1 x2 y2 = some (drawLineDDAWith id x1 y1 x2 y2) ∧
      drawLineBresenhamChecked id x1 y1 x2 y2 =
        some (drawLineBresenhamWith id x1 y1 x2 y2) ∧
      divChecked f32 1 0 = none := by
  have h32 := checked_eq_some f32 f32_intCast_ne_zero x1 y1 x2 y2
  have hid := checked_eq_some id (fun n hn => by simpa using hn) x1 y1 x2 y2
  exact ⟨h32.1, h32.2, hid.1, hid.2, rfl⟩

/-! ## The reset key -/

theorem keyboard_e (s : SceneState) :
    keyboard 'e' s = some (keyboardReset s) ∧ keyboard 'E' s = some (keyboardReset s) := by
  constructor <;> rfl

/-- Claim C30, refuted as stated: pressed in the initial state, `'e'` leaves
the four transform toggles `true` (initialised `false`) and `fishPosition` at
`0` (initialised `-300`); pressed at night (`isDay = false`) it sets
`dayNightBlend` to `0` (initialised `1`). -/
theorem reset_key_differs_from_initial_values :
    (keyboard 'e' initialState).map (fun s => (s.useScaleT, s.useRotateT, s.useReflectT,
        s.useShearT, s.fishPosition)) = some (true, true, true, true, 0) ∧
      (initialState.useScaleT, initialState.useRotateT, initialState.useReflectT,
        initialState.useShearT, initialState.fishPosition) =
          (false, false, false, false, -300) ∧
      (keyboard 'e' { initialState with isDay := false }).map (fun s => s.dayNightBlend) =
        some 0 ∧
      initialState.dayNightBlend = 1 := by
  refine ⟨rfl, rfl, rfl, rfl⟩

/-- Claim C30, amended: from every state, `keyboard('e')` (and `'E'`) returns
and leaves `sunAngle`, `cloudOffset`, `boatPosition`, `birdOffset`,
`windmillAngle`, `carPosition`, `busPosition`, `swingAngle`, `swingForward`,
`planePosition`, `rainOffset`, `speedFactor`, `trainPosition`,
`personPosition`, `riverWave`, `smokeOffset`, `windIntensity`,
`balloonPosition`, `trafficTimer`, `trafficState`, `kitePosition`, the five
`show…` flags and `festivalMode` at their initial values; `dayNightBlend` is
`1` by day and `0` by night; `isDay`, `animationPaused`, `isRaining`,
`sunGlow`, `windUser` and `trainBogieCount` keep their values. -/
theorem reset_key_restores_animation_state (s : SceneState) :
    ∃ t : SceneState, keyboard 'e' s = some t ∧ keyboard 'E' s = some t ∧
      (t.sunAngle = initialState.sunAngle ∧ t.cloudOffset = initialState.cloudOffset ∧
        t.boatPosition = initialState.boatPosition ∧
        t.birdOffset = initialState.birdOffset ∧
        t.windmillAngle = initialState.windmillAngle ∧
        t.carPosition = initialState.carPosition ∧
        t.busPosition = initialState.busPosition ∧
        t.swingAngle = initialState.swingAngle ∧
        t.swingForward = initialState.swingForward ∧
        t.planePosition = initialState.planePosition ∧
        t.rainOffset = initialState.rainOffset ∧
        t.speedFactor = initialState.speedFactor ∧
        t.trainPosition = initialState.trainPosition ∧
        t.personPosition = initialState.personPosition ∧
        t.riverWave = initialState.riverWave ∧
        t.smokeOffset = initialState.smokeOffset ∧
        t.windIntensity = initialState.windIntensity ∧
        t.balloonPosition = initialState.balloonPosition ∧
        t.trafficTimer = initialState.trafficTimer ∧
        t.trafficState = initialState.trafficState ∧
        t.kitePosition = initialState.kitePosition) ∧
      (t.showBirds = initialState.showBirds ∧ t.showPlane = initialState.showPlane ∧
        t.showTrain = initialState.showTrain ∧ t.showLights = initialState.showLights ∧
        t.showPerson = initialState.showPerson ∧
        t.festivalMode = initialState.festivalMode) ∧
      t.dayNightBlend = (if s.isDay then 1 else 0) ∧
      (t.isDay = s.isDay ∧ t.animationPaused = s.animationPaused ∧
        t.isRaining = s.isRaining ∧ t.sunGlow = s.sunGlow ∧ t.windUser = s.windUser ∧
        t.trainBogieCount = s.trainBogieCount) := by
  refine ⟨keyboardReset s, (keyboard_e s).1, (keyboard_e s).2, ?_, ?_, rfl, ?_⟩
  · refine ⟨rfl, rfl, rfl, rfl, rfl, rfl, rfl, rfl, rfl, rfl, rfl, rfl, rfl, rfl, rfl, rfl, rfl,
      rfl, rfl, rfl, rfl⟩
  · exact ⟨rfl, rfl, rfl, rfl, rfl, rfl⟩
  · exact ⟨rfl, rfl, rfl, rfl, rfl, rfl⟩

/-- Claim C22: the order of the pipeline matters.  For the point `(1,0)` with
scale `2`, angle `0`, no reflection, no shear and translation `(10,0)`,
`applyAllTransforms` returns `(12,0)`, while the same steps with `translate2D`
before `scale2D` return `(22,0)`: as compiled, for every library with
`cos(0) = 1` and `sin(0) = 0`, and in exact real arithmetic. -/
theorem transform_order_matters (cosLib sinLib : ℚ → ℚ) (hc : cosLib 0 = 1)
    (hs : sinLib 0 = 0) :
    (applyAllTransforms f32 (libm cosLib sinLib) ⟨1, 0⟩ 2 2 0 false false 0 0 10 0 =
        ⟨12, 0⟩ ∧
      shear2D f32
        (rotate2D f32 (libm cosLib sinLib) (scale2D f32 (translate2D f32 ⟨1, 0⟩ 10 0) 2 2) 0)
        0 0 = ⟨22, 0⟩ ∧
      shear2D f32
        (rotate2D f32 (libm cosLib sinLib) (scale2D f32 (translate2D f32 ⟨1, 0⟩ 10 0) 2 2) 0)
        0 0 ≠
        applyAllTransforms f32 (libm cosLib sinLib) ⟨1, 0⟩ 2 2 0 false false 0 0 10 0) ∧
    (applyAllTransforms id ⟨Real.pi / 180, id, Real.cos, Real.sin⟩ ⟨1, 0⟩ 2 2 0 false false
        0 0 10 0 = ⟨12, 0⟩ ∧
      shear2D id
        (rotate2D id ⟨Real.pi / 180, id, Real.cos, Real.sin⟩
          (scale2D id (translate2D id ⟨1, 0⟩ 10 0) 2 2) 0)
        0 0 = ⟨22, 0⟩) := by
  have hS : scale2D f32 (⟨1, 0⟩ : Vec2 ℚ) 2 2 = ⟨2, 0⟩ := by
    simp only [scale2D, Vec2.mk.injEq]
    decide!
  have hTS : scale2D f32 (translate2D f32 (⟨1, 0⟩ : Vec2 ℚ) 10 0) 2 2 = ⟨22, 0⟩ := by
    simp only [scale2D, translate2D, Vec2.mk.injEq]
    decide!
  have hR2 := rotate2D_zero_angle cosLib sinLib hc hs ⟨2, 0⟩ (by decide!) (by decide!)
  have hR22 := rotate2D_zero_angle cosLib sinLib hc hs ⟨22, 0⟩ (by decide!) (by decide!)
  have hA : applyAllTransforms f32 (libm cosLib sinLib) ⟨1, 0⟩ 2 2 0 false false 0 0 10 0 =
      ⟨12, 0⟩ := by
    unfold applyAllTransforms
    simp only [hS, hR2, Bool.false_eq_true, if_false]
    simp only [shear2D, translate2D, Vec2.mk.injEq]
    decide!
  have hB : shear2D f32
      (rotate2D f32 (libm cosLib sinLib) (scale2D f32 (translate2D f32 ⟨1, 0⟩ 10 0) 2 2) 0)
      0 0 = ⟨22, 0⟩ := by
    rw [hTS, hR22]
    simp only [shear2D, Vec2.mk.injEq]
    decide!
  refine ⟨⟨hA, hB, ?_⟩, ?_, ?_⟩
  · rw [hA, hB]
    intro h
    have := congrArg Vec2.x h
    norm_num at this
  · simp [applyAllTransforms, scale2D, rotate2D, shear2D, translate2D]
    norm_num
  · simp [scale2D, rotate2D, shear2D, translate2D]
    norm_num

/-- Witness for C22: the table library. -/
theorem transform_order_matters_witness :
    (cosAt 0 = 1 ∧ sinAt 0 = 0) ∧
      shear2D f32
        (rotate2D f32 (libm cosAt sinAt) (scale2D f32 (translate2D f32 ⟨1, 0⟩ 10 0) 2 2) 0)
        0 0 ≠
        applyAllTransforms f32 (libm cosAt sinAt) ⟨1, 0⟩ 2 2 0 false false 0 0 10 0 :=
  ⟨⟨by decide!, by decide!⟩,
    (transform_order_matters cosAt sinAt (by decide!) (by decide!)).1.2.2⟩

/-! ## Iterations and decision parameter of `drawCircleMidpoint` -/

theorem circleStates_succ (fuel : ℕ) (x y p : ℤ) :
    circleStates (fuel + 1) x y p =
      if x < y then
        (x, y, p) ::
          (if p < 0 then circleStates fuel (x + 1) y (p + 2 * (x + 1) + 3)
           else circleStates fuel (x + 1) (y - 1) (p + 2 * (x + 1) - 2 * (y - 1) + 5))
      else [] := by
  rw [circleStates]

/-- The pixels plotted are the `plot8` octets of the loop states, in order. -/
theorem circleLoop_eq_flatMap (cx cy : ℤ) :
    ∀ (fuel : ℕ) (x y p : ℤ), circleLoop cx cy fuel x y p =
      (circleStates fuel x y p).flatMap (fun s => plot8 cx cy s.1 s.2.1) := by
  intro fuel
  induction fuel with
  | zero => intro x y p; rfl
  | succ n ih =>
      intro x y p
      rw [circleLoop_succ, circleStates]
      by_cases hxy : x < y
      · rw [if_pos hxy, if_pos hxy, List.flatMap_cons]
        by_cases hp : p < 0
        · rw [if_pos hp, if_pos hp, ih]
        · rw [if_neg hp, if_neg hp, ih]
      · rw [if_neg hxy, if_neg hxy]
        rfl

/-- Every iteration lowers `y - x` by at least one, so the loop runs at most
`y - x` times, whatever the fuel. -/
theorem circleStates_length_le :
    ∀ (fuel : ℕ) (x y p : ℤ), (circleStates fuel x y p).length ≤ (y - x).toNat := by
  intro fuel
  induction fuel with
  | zero => intro x y p; simp [circleStates]
  | succ n ih =>
      intro x y p
      rw [circleStates]
      by_cases hxy : x < y
      · rw [if_pos hxy, List.length_cons]
        by_cases hp : p < 0
        · rw [if_pos hp]
          have := ih (x + 1) y (p + 2 * (x + 1) + 3)
          omega
        · rw [if_neg hp]
          have := ih (x + 1) (y - 1) (p + 2 * (x + 1) - 2 * (y - 1) + 5)
          omega
      · rw [if_neg hxy]
        simp

/-- Fuel beyond `y - x` adds no iteration: the loop has stopped on `x < y`. -/
theorem circleStates_fuel_succ :
    ∀ (fuel : ℕ) (x y p : ℤ), (y - x).toNat ≤ fuel →
      circleStates (fuel + 1) x y p = circleStates fuel x y p := by
  intro fuel
  induction fuel with
  | zero =>
      intro x y p h
      have hxy : ¬ x < y := by omega
      simp [circleStates, hxy]
  | succ n ih =>
      intro x y p h
      rw [circleStates_succ (n + 1) x y p, circleStates_succ n x y p]
      by_cases hxy : x < y
      · rw [if_pos hxy, if_pos hxy, ih (x + 1) y _ (by omega),
          ih (x + 1) (y - 1) _ (by omega)]
      · rw [if_neg hxy, if_neg hxy]

theorem circleStates_fuel (k fuel : ℕ) (x y p : ℤ) (h : (y - x).toNat ≤ fuel) :
    circleStates (fuel + k) x y p = circleStates fuel x y p := by
  induction k with
  | zero => rfl
  | succ k ih =>
      rw [← Nat.add_assoc, circleStates_fuel_succ (fuel + k) x y p (by omega), ih]

theorem plot8_flatMap_length (cx cy : ℤ) (l : List (ℤ × ℤ × ℤ)) :
    (l.flatMap (fun s => plot8 cx cy s.1 s.2.1)).length = 8 * l.length := by
  induction l with
  | nil => rfl
  | cons a t ih =>
      rw [List.flatMap_cons, List.length_append, ih, List.length_cons]
      simp only [plot8, List.length_cons, List.length_nil]
      omega

/-- The decision parameter kept by the code: the classical midpoint value plus
`2x + 2(r - y)`, because `p` is updated with the already incremented `x` and
the constants `3` and `5` of the update that uses the old `x`. -/
theorem circleStates_decision (r : ℤ) :
    ∀ (fuel : ℕ) (x y p : ℤ), p = midpointDecision r x y + 2 * x + 2 * (r - y) →
      ∀ s ∈ circleStates fuel x y p,
        s.2.2 = midpointDecision r s.1 s.2.1 + 2 * s.1 + 2 * (r - s.2.1) := by
  intro fuel
  induction fuel with
  | zero => intro x y p _ s hs; simp [circleStates] at hs
  | succ n ih =>
      intro x y p hp s hs
      rw [circleStates] at hs
      by_cases hxy : x < y
      · rw [if_pos hxy] at hs
        rcases List.mem_cons.mp hs with h | h
        · rw [h]; exact hp
        · by_cases hneg : p < 0
          · rw [if_pos hneg] at h
            refine ih (x + 1) y _ ?_ s h
            rw [hp]; unfold midpointDecision; ring
          · rw [if_neg hneg] at h
            refine ih (x + 1) (y - 1) _ ?_ s h
            rw [hp]; unfold midpointDecision; ring
      · rw [if_neg hxy] at hs
        simp at hs

/-! ## Closed form of the Bresenham decision loop -/

theorem bresMinor_bounds (a b : ℤ) (ha : 0 < a) (i : ℕ) :
    2 * a * bresMinor a b i ≤ 2 * (i : ℤ) * b + a ∧
      2 * (i : ℤ) * b + a < 2 * a * bresMinor a b i + 2 * a := by
  unfold bresMinor
  have h2a : 0 < 2 * a := by omega
  have h1 := Int.emod_add_ediv (2 * (i : ℤ) * b + a) (2 * a)
  have h2 := Int.emod_nonneg (2 * (i : ℤ) * b + a) (ne_of_gt h2a)
  have h3 := Int.emod_lt_of_pos (2 * (i : ℤ) * b + a) h2a
  constructor <;> linarith

theorem bresMinor_unique (a b : ℤ) (ha : 0 < a) (i : ℕ) (q : ℤ)
    (h1 : 2 * a * q ≤ 2 * (i : ℤ) * b + a) (h2 : 2 * (i : ℤ) * b + a < 2 * a * q + 2 * a) :
    bresMinor a b i = q := by
  unfold bresMinor
  have h2a : 0 < 2 * a := by omega
  exact ((Int.ediv_emod_unique h2a).mpr
    ⟨by show 2 * (i : ℤ) * b + a - 2 * a * q + 2 * a * q = _; ring, by linarith, by linarith⟩).1

theorem bresMinor_zero (a b : ℤ) (ha : 0 < a) : bresMinor a b 0 = 0 :=
  bresMinor_unique a b ha 0 0 (by push_cast; linarith) (by push_cast; linarith)

/-- After `a` major steps exactly `b` minor steps have been taken. -/
theorem bresMinor_last (a b : ℤ) (ha : 0 < a) : bresMinor a b a.toNat = b := by
  apply bresMinor_unique a b ha
  · rw [Int.toNat_of_nonneg ha.le]; linarith
  · rw [Int.toNat_of_nonneg ha.le]; linarith

/-- The minor coordinate advances exactly when the decision value
`2·b·(i+1) - 2·a·k - a` kept in `pk` is not negative. -/
theorem bresMinor_succ (a b : ℤ) (ha : 0 < a) (hb : 0 ≤ b) (hba : b ≤ a) (i : ℕ) :
    bresMinor a b (i + 1) =
      if 2 * b * ((i : ℤ) + 1) - 2 * a * bresMinor a b i - a < 0 then bresMinor a b i
      else bresMinor a b i + 1 := by
  obtain ⟨h1, h2⟩ := bresMinor_bounds a b ha i
  split_ifs with h
  · apply bresMinor_unique a b ha
    · push_cast; linarith
    · push_cast; linarith
  · apply bresMinor_unique a b ha
    · push_cast; linarith
    · push_cast; linarith

/-- The `i`-th pixel of a decision loop entered at `(x0, y0)`: `i` steps, of
which `bresMinor a b i` moved by `(ux, uy)` and the others by `(ax, ay)`. -/
theorem bresLoop_closed (ax ay ux uy a b : ℤ) (ha : 0 < a) (hb : 0 ≤ b) (hba : b ≤ a)
    (x0 y0 : ℤ) :
    ∀ (n i : ℕ),
      bresLoop ax ay ux uy (2 * b) (2 * b - 2 * a) n
          (x0 + ((i : ℤ) - bresMinor a b i) * ax + bresMinor a b i * ux)
          (y0 + ((i : ℤ) - bresMinor a b i) * ay + bresMinor a b i * uy)
          (2 * b * ((i : ℤ) + 1) - 2 * a * bresMinor a b i - a) =
        (List.range n).map (fun j : ℕ =>
          (x0 + (((i + j : ℕ) : ℤ) - bresMinor a b (i + j)) * ax + bresMinor a b (i + j) * ux,
            y0 + (((i + j : ℕ) : ℤ) - bresMinor a b (i + j)) * ay +
              bresMinor a b (i + j) * uy)) := by
  intro n
  induction n with
  | zero => intro i; rfl
  | succ n ih =>
      intro i
      rw [bresLoop, List.range_succ_eq_map, List.map_cons, List.map_map]
      have hs := bresMinor_succ a b ha hb hba i
      congr 1
      by_cases h : 2 * b * ((i : ℤ) + 1) - 2 * a * bresMinor a b i - a < 0
      · rw [if_pos h]
        rw [if_pos h] at hs
        have e := ih (i + 1)
        rw [hs] at e
        have harg : ∀ j : ℕ, i + 1 + j = i + (j + 1) := fun j => by omega
        simp only [harg] at e
        refine Eq.trans ?_ e
        congr 1
        · push_cast; ring
        · push_cast; ring
        · push_cast; ring
      · rw [if_neg h]
        rw [if_neg h] at hs
        have e := ih (i + 1)
        rw [hs] at e
        have harg : ∀ j : ℕ, i + 1 + j = i + (j + 1) := fun j => by omega
        simp only [harg] at e
        refine Eq.trans ?_ e
        congr 1
        · push_cast; ring
        · push_cast; ring
        · push_cast; ring

/-! ## `drawLineBresenham` with exact slope tests -/

/-- The decision loop entered with `pk = 2·b - a`. -/
theorem bresLoop_closed_start (ax ay ux uy a b : ℤ) (ha : 0 < a) (hb : 0 ≤ b) (hba : b ≤ a)
    (x0 y0 : ℤ) (n : ℕ) :
    bresLoop ax ay ux uy (2 * b) (2 * b - 2 * a) n x0 y0 (2 * b - a) =
      (List.range n).map (fun j : ℕ =>
        (x0 + ((j : ℤ) - bresMinor a b j) * ax + bresMinor a b j * ux,
          y0 + ((j : ℤ) - bresMinor a b j) * ay + bresMinor a b j * uy)) := by
  have h := bresLoop_closed ax ay ux uy a b ha hb hba x0 y0 n 0
  rw [bresMinor_zero a b ha] at h
  simp only [Nat.cast_zero, sub_zero, zero_mul, add_zero, zero_add, mul_zero, mul_one] at h
  exact h

theorem bresSlope_id (x1 y1 x2 y2 : ℤ) :
    bresSlope id x1 y1 x2 y2 = ((y2 - y1 : ℤ) : ℚ) / ((x2 - x1 : ℤ) : ℚ) := rfl

/-- The sign tests on an exact quotient with positive denominator. -/
theorem quotient_tests (a b : ℤ) (hb : 0 < b) :
    ((0 : ℚ) ≤ (a : ℚ) / (b : ℚ) ↔ 0 ≤ a) ∧ ((a : ℚ) / (b : ℚ) ≤ 1 ↔ a ≤ b) ∧
      ((-1 : ℚ) ≤ (a : ℚ) / (b : ℚ) ↔ -b ≤ a) := by
  have hq : (0 : ℚ) < (b : ℚ) := by exact_mod_cast hb
  refine ⟨?_, ?_, ?_⟩
  · rw [le_div_iff₀ hq, zero_mul]; exact_mod_cast Iff.rfl
  · rw [div_le_iff₀ hq, one_mul]; exact_mod_cast Iff.rfl
  · rw [le_div_iff₀ hq]
    constructor
    · intro h
      have : ((-b : ℤ) : ℚ) ≤ (a : ℚ) := by push_cast; linarith
      exact_mod_cast this
    · intro h
      have : ((-b : ℤ) : ℚ) ≤ (a : ℚ) := by exact_mod_cast h
      push_cast at this; linarith

/-- With exact slope tests, a line given left to right with `|Δy| ≤ Δx` is
driven on `x`: the `i`-th pixel is `(x1 + i, y1 ± k)`, `k = bresMinor Δx |Δy| i`. -/
theorem bresRegimes_id_shallow (x1 y1 x2 y2 : ℤ) (hdx : x1 < x2)
    (h : |y2 - y1| ≤ x2 - x1) :
    bresRegimes id x1 y1 x2 y2 =
      (List.range ((x2 - x1).toNat + 1)).map (fun j : ℕ =>
        (x1 + (j : ℤ), y1 + Int.sign (y2 - y1) * bresMinor (x2 - x1) |y2 - y1| j)) := by
  obtain ⟨t0, t1, t2⟩ := quotient_tests (y2 - y1) (x2 - x1) (by omega)
  have hcnt : (x2 - x1 + 1).toNat = (x2 - x1).toNat + 1 := by omega
  have habs := abs_le.mp h
  unfold bresRegimes
  simp only [bresSlope_id, t0, t1]
  by_cases hy : 0 ≤ y2 - y1
  · rw [if_pos ⟨hy, by omega⟩, hcnt]
    have e := bresLoop_closed_start 1 0 1 1 (x2 - x1) (y2 - y1) (by omega) hy (by omega)
      x1 y1 ((x2 - x1).toNat + 1)
    rw [e, abs_of_nonneg hy]
    apply List.map_congr_left
    intro j _
    rcases hy.eq_or_lt with h0 | hpos
    · have hk : bresMinor (x2 - x1) (y2 - y1) j = 0 := by
        apply bresMinor_unique _ _ (by omega)
        · rw [← h0]; omega
        · rw [← h0]; omega
      rw [hk, ← h0]
      simp
    · rw [Int.sign_eq_one_of_pos hpos]
      congr 1 <;> ring
  · have hneg : y2 - y1 < 0 := by omega
    have hm1 : ¬ ((y2 - y1 : ℤ) : ℚ) / ((x2 - x1 : ℤ) : ℚ) > 1 := by
      rw [gt_iff_lt, not_lt, t1]; omega
    have hm0 : ((y2 - y1 : ℤ) : ℚ) / ((x2 - x1 : ℤ) : ℚ) < 0 := by
      rw [← not_le, t0]; omega
    have hm2 : ((y2 - y1 : ℤ) : ℚ) / ((x2 - x1 : ℤ) : ℚ) ≥ -1 := by
      rw [ge_iff_le, t2]; omega
    rw [if_neg (fun hc => hy hc.1), if_neg hm1, if_pos ⟨hm0, hm2⟩, hcnt]
    have e := bresLoop_closed_start 1 0 1 (-1) (x2 - x1) (y1 - y2) (by omega) (by omega)
      (by omega) x1 y1 ((x2 - x1).toNat + 1)
    rw [e, abs_of_neg hneg, Int.sign_eq_neg_one_of_neg hneg]
    have hsub : -(y2 - y1) = y1 - y2 := by ring
    rw [hsub]
    apply List.map_congr_left
    intro j _
    congr 1 <;> ring

/-- With exact slope tests, a line given left to right with `|Δy| > Δx` is
driven on `y`: the `i`-th pixel is `(x1 + k, y1 ± i)`, `k = bresMinor |Δy| Δx i`. -/
theorem bresRegimes_id_steep (x1 y1 x2 y2 : ℤ) (hdx : x1 < x2)
    (h : x2 - x1 < |y2 - y1|) :
    bresRegimes id x1 y1 x2 y2 =
      (List.range (|y2 - y1|.toNat + 1)).map (fun j : ℕ =>
        (x1 + bresMinor |y2 - y1| (x2 - x1) j, y1 + Int.sign (y2 - y1) * (j : ℤ))) := by
  obtain ⟨t0, t1, t2⟩ := quotient_tests (y2 - y1) (x2 - x1) (by omega)
  unfold bresRegimes
  simp only [bresSlope_id, t0, t1]
  rcases lt_or_le (y2 - y1) 0 with hneg | hpos
  · rw [abs_of_neg hneg] at h
    have hm1 : ¬ ((y2 - y1 : ℤ) : ℚ) / ((x2 - x1 : ℤ) : ℚ) > 1 := by
      rw [gt_iff_lt, not_lt, t1]; omega
    have hm2 : ¬ ((y2 - y1 : ℤ) : ℚ) / ((x2 - x1 : ℤ) : ℚ) ≥ -1 := by
      rw [ge_iff_le, t2]; omega
    rw [if_neg (fun hc => by omega), if_neg hm1, if_neg (fun hc => hm2 hc.2)]
    have hcnt : (y1 - y2 + 1).toNat = (-(y2 - y1)).toNat + 1 := by omega
    have e := bresLoop_closed_start 0 (-1) 1 (-1) (y1 - y2) (x2 - x1) (by omega) (by omega)
      (by omega) x1 y1 ((-(y2 - y1)).toNat + 1)
    rw [hcnt, e, abs_of_neg hneg, Int.sign_eq_neg_one_of_neg hneg]
    have hsub : -(y2 - y1) = y1 - y2 := by ring
    rw [hsub]
    apply List.map_congr_left
    intro j _
    congr 1 <;> ring
  · rw [abs_of_nonneg hpos] at h
    have hm1 : ((y2 - y1 : ℤ) : ℚ) / ((x2 - x1 : ℤ) : ℚ) > 1 := by
      rw [gt_iff_lt, ← not_le, t1]; omega
    rw [if_neg (fun hc => by omega), if_pos hm1]
    have hcnt : (y2 - y1 + 1).toNat = (y2 - y1).toNat + 1 := by omega
    have e := bresLoop_closed_start 0 1 1 1 (y2 - y1) (x2 - x1) (by omega) (by omega)
      (by omega) x1 y1 ((y2 - y1).toNat + 1)
    rw [hcnt, e, abs_of_nonneg hpos, Int.sign_eq_one_of_pos (by omega)]
    apply List.map_congr_left
    intro j _
    congr 1 <;> ring

/-- With exact slope tests the three conditional swaps order the endpoints
by `x`; a line given left to right is not swapped. -/
theorem drawLineBresenhamWith_id_of_lt (x1 y1 x2 y2 : ℤ) (hdx : x1 < x2) :
    drawLineBresenhamWith id x1 y1 x2 y2 = bresRegimes id x1 y1 x2 y2 := by
  obtain ⟨t0, t1, t2⟩ := quotient_tests (y2 - y1) (x2 - x1) (by omega)
  unfold drawLineBresenhamWith
  rw [if_neg (by omega)]
  have hn : bresNormalize (bresSlope id x1 y1 x2 y2) x1 y1 x2 y2 = (x1, y1, x2, y2) := by
    rw [bresSlope_id]
    by_cases hm : |((y2 - y1 : ℤ) : ℚ) / ((x2 - x1 : ℤ) : ℚ)| ≤ 1
    · rw [bresNormalize_shallow _ hm, if_neg (by omega)]
    · rw [abs_le, not_and_or, t2, t1] at hm
      rcases hm with hm | hm
      · have hlt : ((y2 - y1 : ℤ) : ℚ) / ((x2 - x1 : ℤ) : ℚ) < -1 := by
          rw [← not_le, t2]; exact hm
        rw [bresNormalize_steep_neg _ hlt, if_neg (by omega)]
      · have hgt : 1 < ((y2 - y1 : ℤ) : ℚ) / ((x2 - x1 : ℤ) : ℚ) := by
          rw [← not_le, t1]; exact hm
        rw [bresNormalize_steep_pos _ hgt, if_neg (by omega)]
  rw [hn]

/-! ## End pixels and distance to the ideal line, exact slope tests -/

/-- A line given left to right starts at `(x1,y1)` and ends at `(x2,y2)`. -/
theorem bresRegimes_id_ends (x1 y1 x2 y2 : ℤ) (hdx : x1 < x2) :
    (bresRegimes id x1 y1 x2 y2).head? = some (x1, y1) ∧
      (bresRegimes id x1 y1 x2 y2).getLast? = some (x2, y2) := by
  have hs : Int.sign (y2 - y1) * |y2 - y1| = y2 - y1 := Int.sign_mul_abs _
  by_cases h : |y2 - y1| ≤ x2 - x1
  · rw [bresRegimes_id_shallow x1 y1 x2 y2 hdx h, map_range_succ_head,
      map_range_succ_getLast, bresMinor_zero _ _ (by omega),
      bresMinor_last _ _ (by omega), hs, Int.toNat_of_nonneg (by omega)]
    simp
  · have hpos : 0 < |y2 - y1| := by omega
    rw [bresRegimes_id_steep x1 y1 x2 y2 hdx (by omega), map_range_succ_head,
      map_range_succ_getLast, bresMinor_zero _ _ hpos, bresMinor_last _ _ hpos,
      Int.toNat_of_nonneg hpos.le, hs]
    simp

/-- The pixels of a line given left to right lie within half a pixel of the
ideal line, measured along the minor axis. -/
theorem bresRegimes_id_error (x1 y1 x2 y2 : ℤ) (hdx : x1 < x2) (q : Pixel)
    (hq : q ∈ bresRegimes id x1 y1 x2 y2) :
    (|y2 - y1| ≤ x2 - x1 →
        |2 * (x2 - x1) * (q.2 - y1) - 2 * (y2 - y1) * (q.1 - x1)| ≤ x2 - x1) ∧
      (x2 - x1 < |y2 - y1| →
        |2 * (y2 - y1) * (q.1 - x1) - 2 * (x2 - x1) * (q.2 - y1)| ≤ |y2 - y1|) := by
  constructor
  · intro h
    rw [bresRegimes_id_shallow x1 y1 x2 y2 hdx h] at hq
    obtain ⟨j, _, rfl⟩ := List.mem_map.mp hq
    obtain ⟨b1, b2⟩ := bresMinor_bounds (x2 - x1) |y2 - y1| (by omega) j
    simp only
    generalize bresMinor (x2 - x1) |y2 - y1| j = k at b1 b2 ⊢
    rcases lt_trichotomy (y2 - y1) 0 with hneg | hz | hpos
    · rw [abs_of_neg hneg] at b1 b2
      rw [Int.sign_eq_neg_one_of_neg hneg, abs_le]
      constructor <;> nlinarith
    · rw [hz]; simp; omega
    · rw [abs_of_pos hpos] at b1 b2
      rw [Int.sign_eq_one_of_pos hpos, abs_le]
      constructor <;> nlinarith
  · intro h
    have hpos : 0 < |y2 - y1| := by omega
    rw [bresRegimes_id_steep x1 y1 x2 y2 hdx h] at hq
    obtain ⟨j, _, rfl⟩ := List.mem_map.mp hq
    obtain ⟨b1, b2⟩ := bresMinor_bounds |y2 - y1| (x2 - x1) hpos j
    simp only
    generalize bresMinor |y2 - y1| (x2 - x1) j = k at b1 b2 ⊢
    rcases lt_or_gt_of_ne (show y2 - y1 ≠ 0 from fun hz => by rw [hz] at hpos; simp at hpos)
      with hneg | hp
    · rw [abs_of_neg hneg] at b1 b2 ⊢
      rw [Int.sign_eq_neg_one_of_neg hneg, abs_le]
      constructor <;> nlinarith
    · rw [abs_of_pos hp] at b1 b2 ⊢
      rw [Int.sign_eq_one_of_pos hp, abs_le]
      constructor <;> nlinarith

/-! ## The binary32 slope tests within `2^24` -/

theorem bresNormalize_cases (m : ℚ) (x1 y1 x2 y2 : ℤ) :
    bresNormalize m x1 y1 x2 y2 = (x1, y1, x2, y2) ∨
      bresNormalize m x1 y1 x2 y2 = (x2, y2, x1, y1) := by
  unfold bresNormalize
  simp only
  split_ifs <;> simp

/-- For integer differences of magnitude up to `2^24` the binary32 quotient
compares with `0`, `1` and `-1` as the exact quotient does. -/
theorem f32_quotient_tests (a b : ℤ) (hb : b ≠ 0) (ha24 : |a| ≤ 16777216)
    (hb24 : |b| ≤ 16777216) :
    ((0 : ℚ) ≤ f32 ((a : ℚ) / (b : ℚ)) ↔ (0 : ℚ) ≤ (a : ℚ) / (b : ℚ)) ∧
      (f32 ((a : ℚ) / (b : ℚ)) ≤ 1 ↔ (a : ℚ) / (b : ℚ) ≤ 1) ∧
      ((-1 : ℚ) ≤ f32 ((a : ℚ) / (b : ℚ)) ↔ (-1 : ℚ) ≤ (a : ℚ) / (b : ℚ)) := by
  have hbq : (b : ℚ) ≠ 0 := by exact_mod_cast hb
  have hbpos : (0 : ℚ) < |(b : ℚ)| := abs_pos.mpr hbq
  have h1 : f32 1 = 1 := by decide!
  have habs := abs_f32_div_le_one_iff a b hb ha24 hb24
  have hq : |(a : ℚ) / (b : ℚ)| ≤ 1 ↔ |a| ≤ |b| := by
    rw [abs_div, div_le_one hbpos, ← Int.cast_abs, ← Int.cast_abs]
    exact_mod_cast Iff.rfl
  have key : ∀ q : ℚ, (|f32 q| ≤ 1 ↔ |q| ≤ 1) → (f32 q ≤ 1 ↔ q ≤ 1) := by
    intro q hiff
    constructor
    · intro h
      by_contra hc
      push_neg at hc
      have h0 : 0 ≤ f32 q := f32_nonneg q (by linarith)
      have : |q| ≤ 1 := hiff.mp (by rw [abs_of_nonneg h0]; exact h)
      rw [abs_of_pos (by linarith)] at this
      linarith
    · intro h
      have := f32_mono q 1 h
      rwa [h1] at this
  refine ⟨?_, key _ (habs.trans hq.symm), ?_⟩
  · constructor
    · intro h
      by_contra hc
      push_neg at hc
      have ha0 : a ≠ 0 := by
        intro h0; rw [h0] at hc; simp at hc
      have hlow : (2 : ℚ) ^ (-126 : ℤ) ≤ -((a : ℚ) / (b : ℚ)) := by
        have e : -((a : ℚ) / (b : ℚ)) = |(a : ℚ)| / |(b : ℚ)| := by
          rw [← abs_div, abs_of_neg hc]
        rw [e, le_div_iff₀ hbpos]
        have ha1 : (1 : ℚ) ≤ |(a : ℚ)| := by
          rw [← Int.cast_abs]; exact_mod_cast Int.one_le_abs ha0
        have hb2 : |(b : ℚ)| ≤ 16777216 := by
          rw [← Int.cast_abs]; exact_mod_cast hb24
        have hp : (2 : ℚ) ^ (-126 : ℤ) ≤ 1 / 16777216 := by
          rw [zpow_neg, ← one_div]
          apply one_div_le_one_div_of_le (by norm_num)
          norm_num
        calc (2 : ℚ) ^ (-126 : ℤ) * |(b : ℚ)| ≤ 1 / 16777216 * 16777216 :=
              mul_le_mul hp hb2 (abs_nonneg _) (by norm_num)
          _ = 1 := by norm_num
          _ ≤ |(a : ℚ)| := ha1
      have := f32_pos _ hlow
      rw [f32_neg] at this
      linarith
    · exact f32_nonneg _
  · have habs' := abs_f32_div_le_one_iff (-a) b hb (by rw [abs_neg]; exact ha24) hb24
    have hq' : |((-a : ℤ) : ℚ) / (b : ℚ)| ≤ 1 ↔ |(-a)| ≤ |b| := by
      rw [abs_div, div_le_one hbpos, ← Int.cast_abs, ← Int.cast_abs]
      exact_mod_cast Iff.rfl
    have k := key _ (habs'.trans hq'.symm)
    have e : ((-a : ℤ) : ℚ) / (b : ℚ) = -((a : ℚ) / (b : ℚ)) := by push_cast; ring
    rw [e, f32_neg] at k
    constructor
    · intro h; have := k.mp (by linarith); linarith
    · intro h; have := k.mpr (by linarith); linarith

/-- The swaps depend on the slope only through its tests against `1` and `-1`. -/
theorem bresNormalize_congr (m m' : ℚ) (h1 : m ≤ 1 ↔ m' ≤ 1) (h2 : -1 ≤ m ↔ -1 ≤ m')
    (x1 y1 x2 y2 : ℤ) : bresNormalize m x1 y1 x2 y2 = bresNormalize m' x1 y1 x2 y2 := by
  have e1 : |m| ≤ 1 ↔ |m'| ≤ 1 := by rw [abs_le, abs_le, h1, h2]
  have e2 : m > 1 ↔ m' > 1 := by rw [gt_iff_lt, gt_iff_lt, ← not_le, ← not_le, h1]
  have e3 : m < -1 ↔ m' < -1 := by rw [← not_le, ← not_le, h2]
  unfold bresNormalize
  simp only [e1, e2, e3]

/-- The regime chosen depends on the slope only through its tests against
`0`, `1` and `-1`. -/
theorem bresRegimes_congr (fl fl' : ℚ → ℚ) (x1 y1 x2 y2 : ℤ)
    (h0 : 0 ≤ bresSlope fl x1 y1 x2 y2 ↔ 0 ≤ bresSlope fl' x1 y1 x2 y2)
    (h1 : bresSlope fl x1 y1 x2 y2 ≤ 1 ↔ bresSlope fl' x1 y1 x2 y2 ≤ 1)
    (h2 : -1 ≤ bresSlope fl x1 y1 x2 y2 ↔ -1 ≤ bresSlope fl' x1 y1 x2 y2) :
    bresRegimes fl x1 y1 x2 y2 = bresRegimes fl' x1 y1 x2 y2 := by
  have e2 : bresSlope fl x1 y1 x2 y2 > 1 ↔ bresSlope fl' x1 y1 x2 y2 > 1 := by
    rw [gt_iff_lt, gt_iff_lt, ← not_le, ← not_le, h1]
  have e3 : bresSlope fl x1 y1 x2 y2 < 0 ↔ bresSlope fl' x1 y1 x2 y2 < 0 := by
    rw [← not_le, ← not_le, h0]
  have e4 : bresSlope fl x1 y1 x2 y2 ≥ -1 ↔ bresSlope fl' x1 y1 x2 y2 ≥ -1 := h2
  unfold bresRegimes
  simp only [h0, h1, e2, e3, e4]

theorem bresSlope_tests_f32 (x1 y1 x2 y2 : ℤ) (hx : x1 ≠ x2) (hdx : |x2 - x1| ≤ 16777216)
    (hdy : |y2 - y1| ≤ 16777216) :
    (0 ≤ bresSlope f32 x1 y1 x2 y2 ↔ 0 ≤ bresSlope id x1 y1 x2 y2) ∧
      (bresSlope f32 x1 y1 x2 y2 ≤ 1 ↔ bresSlope id x1 y1 x2 y2 ≤ 1) ∧
      (-1 ≤ bresSlope f32 x1 y1 x2 y2 ↔ -1 ≤ bresSlope id x1 y1 x2 y2) := by
  rw [bresSlope_f32 x1 y1 x2 y2 hdx hdy, bresSlope_id]
  exact f32_quotient_tests (y2 - y1) (x2 - x1) (by omega) hdy hdx

/-- For coordinate differences of magnitude up to `2^24` the compiled
`drawLineBresenham` plots what it plots with exact slope tests. -/
theorem drawLineBresenham_eq_exact (x1 y1 x2 y2 : ℤ) (hdx : |x2 - x1| ≤ 16777216)
    (hdy : |y2 - y1| ≤ 16777216) :
    drawLineBresenham x1 y1 x2 y2 = drawLineBresenhamWith id x1 y1 x2 y2 := by
  unfold drawLineBresenham drawLineBresenhamWith
  by_cases hx : x1 = x2
  · rw [if_pos hx, if_pos hx]
  · rw [if_neg hx, if_neg hx]
    obtain ⟨_, t1, t2⟩ := bresSlope_tests_f32 x1 y1 x2 y2 hx hdx hdy
    rw [bresNormalize_congr _ _ t1 t2]
    simp only
    rcases bresNormalize_cases (bresSlope id x1 y1 x2 y2) x1 y1 x2 y2 with hn | hn
    · rw [hn]
      obtain ⟨s0, s1, s2⟩ := bresSlope_tests_f32 x1 y1 x2 y2 hx hdx hdy
      exact bresRegimes_congr f32 id x1 y1 x2 y2 s0 s1 s2
    · rw [hn]
      obtain ⟨s0, s1, s2⟩ := bresSlope_tests_f32 x2 y2 x1 y1 (fun h => hx h.symm)
        (by rw [abs_sub_comm]; exact hdx) (by rw [abs_sub_comm]; exact hdy)
      exact bresRegimes_congr f32 id x2 y2 x1 y1 s0 s1 s2

/-! ## Order of the pixels of `drawLineBresenham` -/

theorem id_odd : ∀ q : ℚ, id (-q) = -id q := fun _ => rfl

/-- With exact slope tests the first and the last pixel are the two
endpoints: the left one first or, on a vertical line, the lower one. -/
theorem drawLineBresenhamWith_id_ends (x1 y1 x2 y2 : ℤ) :
    ((drawLineBresenhamWith id x1 y1 x2 y2).head? = some (x1, y1) ∧
        (drawLineBresenhamWith id x1 y1 x2 y2).getLast? = some (x2, y2)) ∨
      ((drawLineBresenhamWith id x1 y1 x2 y2).head? = some (x2, y2) ∧
        (drawLineBresenhamWith id x1 y1 x2 y2).getLast? = some (x1, y1)) := by
  rcases lt_trichotomy x1 x2 with h | h | h
  · left
    rw [drawLineBresenhamWith_id_of_lt x1 y1 x2 y2 h]
    exact bresRegimes_id_ends x1 y1 x2 y2 h
  · subst h
    rw [drawLineBresenhamWith_vertical, map_range_succ_head, map_range_succ_getLast,
      Int.toNat_of_nonneg (by have := min_le_max (a := y1) (b := y2); omega)]
    rcases le_total y1 y2 with hy | hy
    · left
      rw [max_eq_right hy, min_eq_left hy]
      simp
    · right
      rw [max_eq_left hy, min_eq_right hy]
      simp
  · right
    rw [← drawLineBresenhamWith_swap id id_odd x1 y1 x2 y2,
      drawLineBresenhamWith_id_of_lt x2 y2 x1 y1 h]
    exact bresRegimes_id_ends x2 y2 x1 y1 h

/-- With exact slope tests every pixel lies within half a pixel of the ideal
line through the endpoints, measured along the minor axis. -/
theorem drawLineBresenhamWith_id_error (x1 y1 x2 y2 : ℤ) (q : Pixel)
    (hq : q ∈ drawLineBresenhamWith id x1 y1 x2 y2) :
    (x1 ≠ x2 → |y2 - y1| ≤ |x2 - x1| →
        |2 * (x2 - x1) * (q.2 - y1) - 2 * (y2 - y1) * (q.1 - x1)| ≤ |x2 - x1|) ∧
      (|x2 - x1| < |y2 - y1| →
        |2 * (y2 - y1) * (q.1 - x1) - 2 * (x2 - x1) * (q.2 - y1)| ≤ |y2 - y1|) := by
  rcases lt_trichotomy x1 x2 with h | h | h
  · rw [drawLineBresenhamWith_id_of_lt x1 y1 x2 y2 h] at hq
    obtain ⟨e1, e2⟩ := bresRegimes_id_error x1 y1 x2 y2 h q hq
    rw [abs_of_pos (show 0 < x2 - x1 by omega)]
    exact ⟨fun _ hle => e1 hle, e2⟩
  · subst h
    rw [drawLineBresenhamWith_vertical] at hq
    obtain ⟨j, _, rfl⟩ := List.mem_map.mp hq
    refine ⟨fun hne => absurd rfl hne, fun _ => ?_⟩
    simp
  · rw [← drawLineBresenhamWith_swap id id_odd x1 y1 x2 y2,
      drawLineBresenhamWith_id_of_lt x2 y2 x1 y1 h] at hq
    obtain ⟨e1, e2⟩ := bresRegimes_id_error x2 y2 x1 y1 h q hq
    have hx : |x2 - x1| = x1 - x2 := by rw [abs_of_neg (by omega)]; ring
    have hy : |y2 - y1| = |y1 - y2| := abs_sub_comm _ _
    have f1 : 2 * (x2 - x1) * (q.2 - y1) - 2 * (y2 - y1) * (q.1 - x1) =
        -(2 * (x1 - x2) * (q.2 - y2) - 2 * (y1 - y2) * (q.1 - x2)) := by ring
    have f2 : 2 * (y2 - y1) * (q.1 - x1) - 2 * (x2 - x1) * (q.2 - y1) =
        -(2 * (y1 - y2) * (q.1 - x2) - 2 * (x1 - x2) * (q.2 - y2)) := by ring
    rw [hx, hy, f1, f2, abs_neg, abs_neg]
    exact ⟨fun _ hle => e1 hle, e2⟩

/-- In `bresLoop 1 0 1 1` the row never advances without the column. -/
theorem bresLoop_below_diagonal (inc1 inc2 : ℤ) :
    ∀ (n : ℕ) (x y pk : ℤ), ∀ q ∈ bresLoop 1 0 1 1 inc1 inc2 n x y pk,
      q.2 - q.1 ≤ y - x := by
  intro n
  induction n with
  | zero => intro x y pk q hq; simp [bresLoop] at hq
  | succ n ih =>
      intro x y pk q hq
      rw [bresLoop] at hq
      rcases List.mem_cons.mp hq with h | h
      · rw [h]
      · split_ifs at h
        · have := ih _ _ _ q h; omega
        · have := ih _ _ _ q h; omega

/-- With exact slope tests the number of pixels is `max(|Δx|,|Δy|) + 1`. -/
theorem drawLineBresenhamWith_id_length (x1 y1 x2 y2 : ℤ) :
    ((drawLineBresenhamWith id x1 y1 x2 y2).length : ℤ) = max |x2 - x1| |y2 - y1| + 1 := by
  by_cases hx : x1 = x2
  · subst hx
    rw [drawLineBresenhamWith_vertical]
    simp only [List.length_map, List.length_range, sub_self, abs_zero]
    rw [max_eq_right (abs_nonneg (y2 - y1))]
    push_cast
    rcases le_total y1 y2 with h | h
    · rw [max_eq_right h, min_eq_left h, abs_of_nonneg (by omega)]; omega
    · rw [max_eq_left h, min_eq_right h, abs_of_nonpos (by omega)]; omega
  · have hbq : (0 : ℚ) < |((x2 - x1 : ℤ) : ℚ)| :=
      abs_pos.mpr (by exact_mod_cast (show x2 - x1 ≠ 0 by omega))
    have hiff : |bresSlope id x1 y1 x2 y2| ≤ 1 ↔ |y2 - y1| ≤ |x2 - x1| := by
      rw [bresSlope_id, abs_div, div_le_one hbq, ← Int.cast_abs, ← Int.cast_abs]
      exact_mod_cast Iff.rfl
    by_cases hle : |y2 - y1| ≤ |x2 - x1|
    · rw [drawLineBresenhamWith_length_shallow id id_odd x1 y1 x2 y2 hx (hiff.mpr hle),
        max_eq_left hle]
    · have hm : 1 < |bresSlope id x1 y1 x2 y2| := by
        by_contra hc
        exact hle (hiff.mp (not_lt.mp hc))
      rw [drawLineBresenhamWith_length_steep id id_odd x1 y1 x2 y2 hx hm,
        max_eq_right (not_le.mp hle).le]

/-! ## `drawLineDDA` and `drawLineBresenham` on ascending first-quadrant lines -/

theorem bresMinor_flat (a : ℤ) (ha : 0 < a) (i : ℕ) : bresMinor a 0 i = 0 :=
  bresMinor_unique a 0 ha i 0 (by linarith) (by linarith)

/-- Claim C23, the code at `r = 5`: the loop states `(x, y, p)` are
`(0,5,-4)`, `(1,5,1)`, `(2,4,2)`.  At `(1,5)` the classical decision value is
`-1` (the midpoint `(2, 4.5)` is strictly inside the circle:
`4·2² + 9² < 4·5²`) but the code holds `p = 1`, decrements `y`, and plots
`(2,4)` where the classical algorithm plots `(2,5)`. -/
theorem circle_decision_parameter_r5 :
    circleStates (5 : ℤ).toNat 0 5 (1 - 5) = [(0, 5, -4), (1, 5, 1), (2, 4, 2)] ∧
      midpointDecision 5 1 5 = -1 ∧
      4 * ((1 : ℤ) + 1) ^ 2 + (2 * 5 - 1) ^ 2 < 4 * 5 ^ 2 ∧
      drawCircleMidpoint 0 0 5 = plot8 0 0 0 5 ++ plot8 0 0 1 5 ++ plot8 0 0 2 4 ∧
      ((2, 4) : Pixel) ∈ drawCircleMidpoint 0 0 5 ∧
      ((2, 5) : Pixel) ∉ drawCircleMidpoint 0 0 5 := by
  decide

theorem vertLoopInt_succ (x ye : ℤ) (fuel : ℕ) (y : ℤ) :
    vertLoopInt x ye (fuel + 1) y =
      if y ≤ ye then
        ((x, y) :: (vertLoopInt x ye fuel (intSucc y)).1, (vertLoopInt x ye fuel (intSucc y)).2)
      else ([], true) := by
  rw [vertLoopInt]

/-- Below `INT_MAX` the loop is left after `ye - y + 1` iterations, having
plotted what the counted loop `vertLoop` plots. -/
theorem vertLoopInt_returns (x ye : ℤ) (hye : ye < INT_MAX) :
    ∀ (fuel : ℕ) (y : ℤ), (ye - y + 1).toNat < fuel →
      vertLoopInt x ye fuel y = (vertLoop x (ye - y + 1).toNat y, true) := by
  intro fuel
  induction fuel with
  | zero => intro y h; omega
  | succ n ih =>
      intro y h
      rw [vertLoopInt_succ]
      by_cases hy : y ≤ ye
      · have hs : intSucc y = y + 1 := by
          unfold intSucc
          rw [if_neg (by omega)]
        have hc : (ye - y + 1).toNat = (ye - (y + 1) + 1).toNat + 1 := by omega
        rw [if_pos hy, hs, ih (y + 1) (by omega), hc, vertLoop]
      · have hc : (ye - y + 1).toNat = 0 := by omega
        rw [if_neg hy, hc, vertLoop]

/-- For `ye = INT_MAX` the condition `y <= ye` holds for every `int`: the loop
is never left and plots one pixel per iteration, whatever the fuel. -/
theorem vertLoopInt_runs (x : ℤ) :
    ∀ (fuel : ℕ) (y : ℤ), y ≤ INT_MAX →
      (vertLoopInt x INT_MAX fuel y).2 = false ∧
        (vertLoopInt x INT_MAX fuel y).1.length = fuel := by
  intro fuel
  induction fuel with
  | zero => intro y _; exact ⟨rfl, rfl⟩
  | succ n ih =>
      intro y hy
      have hs : intSucc y ≤ INT_MAX := by
        unfold intSucc INT_MAX at *
        split_ifs <;> omega
      rw [vertLoopInt_succ, if_pos hy]
      obtain ⟨h1, h2⟩ := ih (intSucc y) hs
      exact ⟨h1, by simp [h2]⟩

/-- With the vertical case below `INT_MAX`, `drawLineBresenham` returns, and
has plotted what `drawLineBresenhamWith` lists, as soon as the fuel exceeds
`|y2 - y1| + 1`. -/
theorem drawLineBresenhamRun_returns (fl : ℚ → ℚ) (x1 y1 x2 y2 : ℤ)
    (hv : x1 = x2 → max y1 y2 < INT_MAX) (fuel : ℕ) (hf : |y2 - y1| + 1 < fuel) :
    drawLineBresenhamRun fl fuel x1 y1 x2 y2 = (drawLineBresenhamWith fl x1 y1 x2 y2, true) := by
  unfold drawLineBresenhamRun drawLineBresenhamWith
  by_cases hx : x1 = x2
  · have hm := hv hx
    rw [if_pos hx, if_pos hx]
    simp only
    by_cases h : y1 < y2
    · rw [if_pos h, if_pos h]
      rw [max_eq_right h.le] at hm
      rw [abs_of_pos (by omega)] at hf
      exact vertLoopInt_returns x1 y2 hm fuel y1 (by omega)
    · rw [if_neg h, if_neg h]
      rw [max_eq_left (not_lt.mp h)] at hm
      rw [abs_of_nonpos (by omega)] at hf
      exact vertLoopInt_returns x1 y1 hm fuel y2 (by omega)
  · rw [if_neg hx, if_neg hx]

/-- A vertical line whose upper end is at `INT_MAX` never returns. -/
theorem drawLineBresenhamRun_vertical_runs (fl : ℚ → ℚ) (fuel : ℕ) (x y1 y2 : ℤ)
    (h1 : y1 ≤ INT_MAX) (h2 : y2 ≤ INT_MAX) (hm : max y1 y2 = INT_MAX) :
    (drawLineBresenhamRun fl fuel x y1 x y2).2 = false ∧
      (drawLineBresenhamRun fl fuel x y1 x y2).1.length = fuel := by
  unfold drawLineBresenhamRun
  rw [if_pos rfl]
  simp only
  by_cases h : y1 < y2
  · rw [if_pos h, if_pos h]
    rw [max_eq_right h.le] at hm
    rw [hm]
    exact vertLoopInt_runs x fuel y1 h1
  · rw [if_neg h, if_neg h]
    rw [max_eq_left (not_lt.mp h)] at hm
    rw [hm]
    exact vertLoopInt_runs x fuel y2 h2

/-- Within the range where the `float` slope tests are exact,
`drawLineBresenhamWith f32` lists `max(|x2-x1|,|y2-y1|) + 1` pixels. -/
theorem drawLineBresenham_length_of_small (x1 y1 x2 y2 : ℤ)
    (hdx : |x2 - x1| ≤ 16777216) (hdy : |y2 - y1| ≤ 16777216) :
    ((drawLineBresenham x1 y1 x2 y2).length : ℤ) = max |x2 - x1| |y2 - y1| + 1 := by
  unfold drawLineBresenham
  by_cases hx : x1 = x2
  · subst hx
    rw [drawLineBresenhamWith_vertical]
    simp only [List.length_map, List.length_range, sub_self, abs_zero]
    rw [max_eq_right (abs_nonneg (y2 - y1))]
    push_cast
    rcases le_total y1 y2 with h | h
    · rw [max_eq_right h, min_eq_left h, abs_of_nonneg (by omega)]; omega
    · rw [max_eq_left h, min_eq_right h, abs_of_nonpos (by omega)]; omega
  · have hb : x2 - x1 ≠ 0 := by omega
    have hiff := abs_f32_div_le_one_iff (y2 - y1) (x2 - x1) hb hdy hdx
    rw [← bresSlope_f32 x1 y1 x2 y2 hdx hdy] at hiff
    by_cases hle : |y2 - y1| ≤ |x2 - x1|
    · rw [drawLineBresenhamWith_length_shallow f32 f32_neg x1 y1 x2 y2 hx (hiff.mpr hle),
        max_eq_left hle]
    · have hm : 1 < |bresSlope f32 x1 y1 x2 y2| := by
        by_contra hc
        exact hle (hiff.mp (not_lt.mp hc))
      rw [drawLineBresenhamWith_length_steep f32 f32_neg x1 y1 x2 y2 hx hm,
        max_eq_right (not_le.mp hle).le]

/-- A vertical line with its upper end at `INT_MAX` is never reported as
returned. -/
theorem drawLineBresenhamRun_vertical_never (fl : ℚ → ℚ) (x y1 y2 : ℤ)
    (h1 : y1 ≤ INT_MAX) (h2 : y2 ≤ INT_MAX) (hm : max y1 y2 = INT_MAX) :
    ¬ ∃ fuel : ℕ, (drawLineBresenhamRun fl fuel x y1 x y2).2 = true := by
  rintro ⟨fuel, h⟩
  rw [(drawLineBresenhamRun_vertical_runs fl fuel x y1 y2 h1 h2 hm).1] at h
  exact Bool.false_ne_true h

/-- The pixels of a vertical line as `drawLineBresenhamWith` lists them. -/
theorem drawLineBresenhamWith_vertical_mem (fl : ℚ → ℚ) (x y1 y2 : ℤ) (p : Pixel) :
    p ∈ drawLineBresenhamWith fl x y1 x y2 ↔
      p.1 = x ∧ min y1 y2 ≤ p.2 ∧ p.2 ≤ max y1 y2 := by
  have hmm : min y1 y2 ≤ max y1 y2 := min_le_max
  rw [drawLineBresenhamWith_vertical]
  simp only [List.mem_map, List.mem_range]
  constructor
  · rintro ⟨i, hi, rfl⟩
    refine ⟨rfl, by simp, ?_⟩
    simp only
    omega
  · rintro ⟨h1, h2, h3⟩
    refine ⟨(p.2 - min y1 y2).toNat, by omega, ?_⟩
    rw [Int.toNat_of_nonneg (by omega)]
    ext
    · simp [h1]
    · simp

/-- The pixels of a vertical line are listed in ascending `y`. -/
theorem drawLineBresenhamWith_vertical_sorted (fl : ℚ → ℚ) (x y1 y2 : ℤ) :
    (drawLineBresenhamWith fl x y1 x y2).Pairwise (fun p q => p.2 < q.2) := by
  rw [drawLineBresenhamWith_vertical, List.pairwise_map]
  exact List.Pairwise.imp (fun h => by simpa using h) (List.pairwise_lt_range _)

/-! ## Claims on the lines of `drawLineBresenham` as the compiled function returns them -/

/-- Claim C8, refuted as stated: for the point `(0, 2147483647)` the loop
`for (int y = ys; y <= ye; y++)` of `drawLineBresenham` is never left, because
`y <= INT_MAX` holds for every `int`: the function never returns, and its
second iteration plots `(0, -2147483648)`. -/
theorem zero_length_line_at_int_max_never_returns :
    (¬ ∃ fuel : ℕ, (drawLineBresenhamRun f32 fuel 0 2147483647 0 2147483647).2 = true) ∧
      drawLineBresenhamRun f32 2 0 2147483647 0 2147483647 =
        ([(0, 2147483647), (0, -2147483648)], false) :=
  ⟨drawLineBresenhamRun_vertical_never f32 0 2147483647 2147483647 (by decide) (by decide)
    (by decide), by decide⟩

/-- Claim C8, amended: a zero-length line from `(x, y)` to itself is rasterized
to the single pixel `(x, y)` by `drawLineDDA`, for every integer point, and by
`drawLineBresenham` for every point with `y < INT_MAX = 2147483647`, where its
loop is left after one iteration and the function returns. -/
theorem zero_length_line_single_pixel (x y : ℤ) :
    drawLineDDA x y x y = [(x, y)] ∧
      (y < INT_MAX → ∀ fuel : ℕ, 1 < fuel →
        drawLineBresenhamRun f32 fuel x y x y = ([(x, y)], true)) := by
  constructor
  · have hs : ddaSteps f32 x y x y = 0 := by
      simp [ddaSteps, f32_zero]
    unfold drawLineDDA drawLineDDAWith
    simp only [hs, if_true]
  · intro hy fuel hf
    rw [drawLineBresenhamRun_returns f32 x y x y (fun _ => by rw [max_self]; exact hy) fuel
      (by rw [sub_self, abs_zero]; exact_mod_cast hf), drawLineBresenhamWith_vertical]
    simp [List.range_succ]

/-- Witness for C8: the point `(3, 7)`, with three loop tests allowed. -/
theorem zero_length_line_single_pixel_witness :
    ((7 : ℤ) < INT_MAX ∧ 1 < 3) ∧
      drawLineBresenhamRun f32 3 3 7 3 7 = ([(3, 7)], true) :=
  ⟨⟨by decide, by decide⟩,
    (zero_length_line_single_pixel 3 7).2 (by decide) 3 (by decide)⟩

/-- Claim C9, refuted as stated: from `(0,0)` to `(16777216,16777217)` the
binary32 slope is exactly `1`, the line is driven on `x`, and
`drawLineBresenham` plots `16777217` pixels and not
`max(|Δx|,|Δy|) + 1 = 16777218`; and from `(0,2147483646)` to `(0,2147483647)`
the vertical loop is never left, so the count `2` is exceeded: three tests
have plotted three pixels and the function has not returned. -/
theorem bresenham_count_off_beyond_float_precision :
    ((drawLineBresenham 0 0 16777216 16777217).length : ℤ) ≠
        max |(16777216 : ℤ) - 0| |(16777217 : ℤ) - 0| + 1 ∧
      (¬ ∃ fuel : ℕ, (drawLineBresenhamRun f32 fuel 0 2147483646 0 2147483647).2 = true) ∧
      (drawLineBresenhamRun f32 3 0 2147483646 0 2147483647).1.length = 3 := by
  refine ⟨?_, drawLineBresenhamRun_vertical_never f32 0 2147483646 2147483647 (by decide)
    (by decide) (by decide), by decide⟩
  have hm : |bresSlope f32 0 0 16777216 16777217| ≤ 1 := by decide!
  unfold drawLineBresenham
  rw [drawLineBresenhamWith_length_shallow f32 f32_neg 0 0 16777216 16777217 (by decide) hm]
  norm_num

/-- Claim C9, amended: for endpoints whose coordinate differences have
magnitude at most `2^24 = 16777216` (where the `float` slope tests are exact)
and, in the vertical case, whose larger `y` is below `INT_MAX`,
`drawLineBresenham` returns after plotting exactly
`max(|x2-x1|,|y2-y1|) + 1` pixels, in the vertical case and in each slope
regime. -/
theorem bresenham_pixel_count (x1 y1 x2 y2 : ℤ)
    (hdx : |x2 - x1| ≤ 16777216) (hdy : |y2 - y1| ≤ 16777216)
    (hv : x1 = x2 → max y1 y2 < INT_MAX) (fuel : ℕ) (hf : |y2 - y1| + 1 < fuel) :
    (drawLineBresenhamRun f32 fuel x1 y1 x2 y2).2 = true ∧
      (((drawLineBresenhamRun f32 fuel x1 y1 x2 y2).1.length : ℕ) : ℤ) =
        max |x2 - x1| |y2 - y1| + 1 := by
  rw [drawLineBresenhamRun_returns f32 x1 y1 x2 y2 hv fuel hf]
  exact ⟨rfl, drawLineBresenham_length_of_small x1 y1 x2 y2 hdx hdy⟩

/-- Witness for C9: the segment from `(0,0)` to `(4,2)`. -/
theorem bresenham_pixel_count_witness :
    (|(4 : ℤ) - 0| ≤ 16777216 ∧ |(2 : ℤ) - 0| ≤ 16777216 ∧
      ((0 : ℤ) = 4 → max (0 : ℤ) 2 < INT_MAX) ∧ |(2 : ℤ) - 0| + 1 < ((4 : ℕ) : ℤ)) ∧
    (drawLineBresenhamRun f32 4 0 0 4 2).2 = true ∧
      (((drawLineBresenhamRun f32 4 0 0 4 2).1.length : ℕ) : ℤ) =
        max |(4 : ℤ) - 0| |(2 : ℤ) - 0| + 1 :=
  ⟨⟨by decide, by decide, by decide, by decide⟩,
    bresenham_pixel_count 0 0 4 2 (by decide) (by decide) (by decide) 4 (by decide)⟩

/-- Claim C10, refuted as stated: for `x = 0`, `y1 = 2147483646`,
`y2 = 2147483647` the loop condition `y <= ye` cannot fail; the function never
returns and its third iteration plots `(0, -2147483648)`, a pixel outside the
range `y1 ≤ y ≤ y2`. -/
theorem bresenham_vertical_line_at_int_max_runs_on :
    (¬ ∃ fuel : ℕ, (drawLineBresenhamRun f32 fuel 0 2147483646 0 2147483647).2 = true) ∧
      ((0, -2147483648) : Pixel) ∈ (drawLineBresenhamRun f32 3 0 2147483646 0 2147483647).1 :=
  ⟨drawLineBresenhamRun_vertical_never f32 0 2147483646 2147483647 (by decide) (by decide)
    (by decide), by decide⟩

/-- Claim C10, amended: for `x1 = x2 = x` and `max(y1,y2) < INT_MAX`
`drawLineBresenham` returns after plotting exactly the pixels `(x, y)` with
`min(y1,y2) ≤ y ≤ max(y1,y2)`, each once, in ascending `y`. -/
theorem bresenham_vertical_line (x y1 y2 : ℤ) (hm : max y1 y2 < INT_MAX) (fuel : ℕ)
    (hf : |y2 - y1| + 1 < fuel) :
    drawLineBresenhamRun f32 fuel x y1 x y2 =
        ((List.range ((max y1 y2 - min y1 y2).toNat + 1)).map
          (fun i : ℕ => (x, min y1 y2 + (i : ℤ))), true) ∧
    (∀ p : Pixel, p ∈ (drawLineBresenhamRun f32 fuel x y1 x y2).1 ↔
      p.1 = x ∧ min y1 y2 ≤ p.2 ∧ p.2 ≤ max y1 y2) ∧
    (drawLineBresenhamRun f32 fuel x y1 x y2).1.Pairwise (fun p q => p.2 < q.2) := by
  rw [drawLineBresenhamRun_returns f32 x y1 x y2 (fun _ => hm) fuel hf]
  exact ⟨by rw [drawLineBresenhamWith_vertical],
    fun p => drawLineBresenhamWith_vertical_mem f32 x y1 y2 p,
    drawLineBresenhamWith_vertical_sorted f32 x y1 y2⟩

/-- Witness for C10: the vertical segment from `(2,5)` down to `(2,3)`. -/
theorem bresenham_vertical_line_witness :
    (max (5 : ℤ) 3 < INT_MAX ∧ |(3 : ℤ) - 5| + 1 < ((4 : ℕ) : ℤ)) ∧
      drawLineBresenhamRun f32 4 2 5 2 3 = ([(2, 3), (2, 4), (2, 5)], true) :=
  ⟨⟨by decide, by decide⟩,
    by
      have h := (bresenham_vertical_line 2 5 3 (by decide) 4 (by decide)).1
      rw [h]
      decide⟩

/-! ## Horizontal, vertical and diagonal lines of `drawLineDDA` within `2^24` -/

/-- The samples `a + i·u`, `i ≤ N`, of a unit step `u` lie between the two
ends `a` and `a + N·u`. -/
theorem unit_samples_bound (a b u B : ℤ) (N i : ℕ) (hu : |u| ≤ 1) (hb : a + (N : ℤ) * u = b)
    (ha : |a| ≤ B) (hb2 : |b| ≤ B) (hi : i ≤ N) : |a + (i : ℤ) * u| ≤ B := by
  rw [abs_le] at hu ha hb2 ⊢
  have h3 : u = -1 ∨ u = 0 ∨ u = 1 := by omega
  rcases h3 with h | h | h <;> subst h <;> constructor <;> omega

/-- With both moves of the decision loop equal to `(ux, uy)` in effect, that
is with `pk ≥ 0` throughout, the loop plots `(x + i·ux, y + i·uy)`. -/
theorem bresLoop_upper (ax ay ux uy inc1 inc2 : ℤ) (hinc : 0 ≤ inc2) :
    ∀ (n : ℕ) (x y pk : ℤ), 0 ≤ pk →
      bresLoop ax ay ux uy inc1 inc2 n x y pk =
        (List.range n).map (fun i : ℕ => (x + (i : ℤ) * ux, y + (i : ℤ) * uy)) := by
  intro n
  induction n with
  | zero => intro x y pk _; rfl
  | succ n ih =>
      intro x y pk hpk
      rw [bresLoop, if_neg (not_lt.mpr hpk), ih _ _ _ (add_nonneg hpk hinc),
        List.range_succ_eq_map, List.map_cons, List.map_map]
      congr 1
      · simp
      · apply List.map_congr_left
        intro i _
        simp only [Function.comp, Nat.succ_eq_add_one]
        push_cast
        ext <;> simp <;> ring

/-- The pixels of `drawLineBresenham` from `(0,0)` to `(16777216,16777217)`:
the binary32 slope is `1` and the line is plotted as the diagonal. -/
theorem drawLineBresenham_rounded_slope :
    drawLineBresenham 0 0 16777216 16777217 =
      (List.range 16777217).map (fun i : ℕ => ((0 : ℤ) + (i : ℤ) * 1, (0 : ℤ) + (i : ℤ) * 1)) := by
  have hm : bresSlope f32 0 0 16777216 16777217 = 1 := by decide!
  have hn : bresNormalize 1 0 0 16777216 16777217 = (0, 0, 16777216, 16777217) := by
    rw [bresNormalize_shallow 1 (by norm_num)]
    rfl
  unfold drawLineBresenham drawLineBresenhamWith
  rw [if_neg (by decide)]
  simp only [hm, hn]
  unfold bresRegimes
  simp only [hm]
  rw [if_pos ⟨by norm_num, le_rfl⟩]
  exact bresLoop_upper 1 0 1 1 _ _ (by norm_num) _ 0 0 _ (by norm_num)

/-- First and last pixel of a list are among its elements. -/
theorem mem_of_ends (l : List Pixel) (a b : Pixel)
    (h : (l.head? = some a ∧ l.getLast? = some b) ∨ (l.head? = some b ∧ l.getLast? = some a)) :
    a ∈ l ∧ b ∈ l := by
  rcases h with ⟨h1, h2⟩ | ⟨h1, h2⟩
  · exact ⟨List.mem_of_mem_head? (by rw [h1]; rfl), List.mem_of_mem_getLast? (by rw [h2]; rfl)⟩
  · exact ⟨List.mem_of_mem_getLast? (by rw [h2]; rfl), List.mem_of_mem_head? (by rw [h1]; rfl)⟩

/-- Claim C27, refuted as stated: from `(0,0)` to `(16777216,16777217)` the
binary32 slope is exactly `1`, the line is driven on `x` with one row per
column at most, and the endpoint `(16777216,16777217)` is not plotted; and
from `(0,2147483646)` to `(0,2147483647)` the vertical loop is never left, so
that no pixel is the last one. -/
theorem bresenham_misses_endpoint_beyond_float_precision :
    ((16777216, 16777217) : Pixel) ∉ drawLineBresenham 0 0 16777216 16777217 ∧
      ¬ ∃ fuel : ℕ, (drawLineBresenhamRun f32 fuel 0 2147483646 0 2147483647).2 = true := by
  refine ⟨?_, drawLineBresenhamRun_vertical_never f32 0 2147483646 2147483647 (by decide)
    (by decide) (by decide)⟩
  rw [drawLineBresenham_rounded_slope]
  simp only [List.mem_map, List.mem_range, not_exists, not_and]
  intro i _ h
  have h1 := congrArg Prod.fst h
  have h2 := congrArg Prod.snd h
  simp only at h1 h2
  omega

/-- Claim C27, amended: for endpoints whose coordinate differences have
magnitude at most `2^24 = 16777216` and, in the vertical case, whose larger
`y` is below `INT_MAX`, `drawLineBresenham` returns, the first pixel plotted
is one endpoint, the last pixel is the other endpoint, and so both endpoints
are plotted. -/
theorem bresenham_endpoints_plotted (x1 y1 x2 y2 : ℤ)
    (hdx : |x2 - x1| ≤ 16777216) (hdy : |y2 - y1| ≤ 16777216)
    (hv : x1 = x2 → max y1 y2 < INT_MAX) (fuel : ℕ) (hf : |y2 - y1| + 1 < fuel) :
    (drawLineBresenhamRun f32 fuel x1 y1 x2 y2).2 = true ∧
      (((drawLineBresenhamRun f32 fuel x1 y1 x2 y2).1.head? = some (x1, y1) ∧
          (drawLineBresenhamRun f32 fuel x1 y1 x2 y2).1.getLast? = some (x2, y2)) ∨
        ((drawLineBresenhamRun f32 fuel x1 y1 x2 y2).1.head? = some (x2, y2) ∧
          (drawLineBresenhamRun f32 fuel x1 y1 x2 y2).1.getLast? = some (x1, y1))) ∧
      (x1, y1) ∈ (drawLineBresenhamRun f32 fuel x1 y1 x2 y2).1 ∧
      (x2, y2) ∈ (drawLineBresenhamRun f32 fuel x1 y1 x2 y2).1 := by
  have he := drawLineBresenhamWith_id_ends x1 y1 x2 y2
  have e := drawLineBresenham_eq_exact x1 y1 x2 y2 hdx hdy
  unfold drawLineBresenham at e
  rw [drawLineBresenhamRun_returns f32 x1 y1 x2 y2 hv fuel hf, e]
  exact ⟨rfl, he, mem_of_ends _ _ _ he⟩

/-- Witness for C27: the segment from `(4,2)` to `(0,0)`. -/
theorem bresenham_endpoints_plotted_witness :
    (|(0 : ℤ) - 4| ≤ 16777216 ∧ |(0 : ℤ) - 2| ≤ 16777216 ∧
      ((4 : ℤ) = 0 → max (2 : ℤ) 0 < INT_MAX) ∧ |(0 : ℤ) - 2| + 1 < ((4 : ℕ) : ℤ)) ∧
      (drawLineBresenhamRun f32 4 4 2 0 0).2 = true ∧
      ((4, 2) : Pixel) ∈ (drawLineBresenhamRun f32 4 4 2 0 0).1 ∧
      ((0, 0) : Pixel) ∈ (drawLineBresenhamRun f32 4 4 2 0 0).1 :=
  have h := bresenham_endpoints_plotted 4 2 0 0 (by decide) (by decide) (by decide) 4
    (by decide)
  ⟨⟨by decide, by decide, by decide, by decide⟩, h.1, h.2.2⟩

/-- Claim C21, refuted as stated: from `(0,0)` to `(0,16777217)` the binary32
difference is `16777216`, so the loop of `drawLineDDA` runs `16777217` times
and not `max(|Δx|,|Δy|) + 1 = 16777218` times; and from `(0,2147483646)` to
`(0,2147483647)` the vertical loop of `drawLineBresenham` is never left. -/
theorem dda_loop_count_off_beyond_float_precision :
    ((drawLineDDA 0 0 0 16777217).length : ℤ) ≠
        max |(0 : ℤ) - 0| |(16777217 : ℤ) - 0| + 1 ∧
      ¬ ∃ fuel : ℕ, (drawLineBresenhamRun f32 fuel 0 2147483646 0 2147483647).2 = true := by
  refine ⟨?_, drawLineBresenhamRun_vertical_never f32 0 2147483646 2147483647 (by decide)
    (by decide) (by decide)⟩
  have hs : ddaSteps f32 0 0 0 16777217 = 16777216 := by decide!
  unfold drawLineDDA
  rw [drawLineDDAWith_length, hs]
  norm_num

/-- Claim C21, amended: for endpoints whose coordinates and coordinate
differences have magnitude at most `2^24` the loop of `drawLineDDA` runs
`max(|Δx|,|Δy|) + 1` times (for equal endpoints the one pixel is plotted
before the loop); for coordinate differences of magnitude at most `2^24` and,
in the vertical case, the larger `y` below `INT_MAX`, `drawLineBresenham`
returns after `max(|Δx|,|Δy|) + 1` iterations; and for every `r` the loop of
`drawCircleMidpoint` runs at most `max(r,0)` times, is left with `y ≤ x`, is
not changed by spare iterations, and plots `8` pixels per iteration, at most
`8·max(r,0)` pixels. -/
theorem rasterizers_terminate (x1 y1 x2 y2 cx cy r : ℤ) (k : ℕ) :
    (|x1| ≤ 16777216 → |y1| ≤ 16777216 → |x2| ≤ 16777216 → |y2| ≤ 16777216 →
      |x2 - x1| ≤ 16777216 → |y2 - y1| ≤ 16777216 →
        ((drawLineDDA x1 y1 x2 y2).length : ℤ) = max |x2 - x1| |y2 - y1| + 1) ∧
    (|x2 - x1| ≤ 16777216 → |y2 - y1| ≤ 16777216 → (x1 = x2 → max y1 y2 < INT_MAX) →
      ∀ fuel : ℕ, |y2 - y1| + 1 < fuel →
        (drawLineBresenhamRun f32 fuel x1 y1 x2 y2).2 = true ∧
        (((drawLineBresenhamRun f32 fuel x1 y1 x2 y2).1.length : ℕ) : ℤ) =
          max |x2 - x1| |y2 - y1| + 1) ∧
    (circleStates (r.toNat + k) 0 r (1 - r) = circleStates r.toNat 0 r (1 - r) ∧
      (circleStates r.toNat 0 r (1 - r)).length ≤ r.toNat ∧
      (circleExit r.toNat 0 r (1 - r)).2 ≤ (circleExit r.toNat 0 r (1 - r)).1 ∧
      circleLoop cx cy (r.toNat + k) 0 r (1 - r) = drawCircleMidpoint cx cy r ∧
      (drawCircleMidpoint cx cy r).length = 8 * (circleStates r.toNat 0 r (1 - r)).length ∧
      (drawCircleMidpoint cx cy r).length ≤ 8 * r.toNat) := by
  have hlen : (circleStates r.toNat 0 r (1 - r)).length ≤ r.toNat := by
    have := circleStates_length_le r.toNat 0 r (1 - r)
    simpa using this
  have h8 : (drawCircleMidpoint cx cy r).length =
      8 * (circleStates r.toNat 0 r (1 - r)).length := by
    unfold drawCircleMidpoint
    rw [circleLoop_eq_flatMap, plot8_flatMap_length]
  refine ⟨?_, ?_, circleStates_fuel k r.toNat 0 r (1 - r) (by simp), hlen,
    circleExit_stops r.toNat 0 r (1 - r) (by simp), drawCircleMidpoint_fuel cx cy r k, h8,
    by rw [h8]; omega⟩
  · intro hx1 hy1 hx2 hy2 hdx hdy
    unfold drawLineDDA
    rw [drawLineDDAWith_length, ddaSteps_f32 x1 y1 x2 y2 hx1 hy1 hx2 hy2 hdx hdy]
    have : 0 ≤ max |x2 - x1| |y2 - y1| := le_max_of_le_left (abs_nonneg _)
    push_cast
    rw [Int.toNat_of_nonneg this]
  · intro hdx hdy hv fuel hf
    rw [drawLineBresenhamRun_returns f32 x1 y1 x2 y2 hv fuel hf]
    exact ⟨rfl, drawLineBresenham_length_of_small x1 y1 x2 y2 hdx hdy⟩

/-- Witness for C21: the segment from `(0,0)` to `(4,2)` and the circle of
radius `5` about the origin. -/
theorem rasterizers_terminate_witness :
    (|(0 : ℤ)| ≤ 16777216 ∧ |(0 : ℤ)| ≤ 16777216 ∧ |(4 : ℤ)| ≤ 16777216 ∧
      |(2 : ℤ)| ≤ 16777216 ∧ |(4 : ℤ) - 0| ≤ 16777216 ∧ |(2 : ℤ) - 0| ≤ 16777216 ∧
      ((0 : ℤ) = 4 → max (0 : ℤ) 2 < INT_MAX) ∧ |(2 : ℤ) - 0| + 1 < ((4 : ℕ) : ℤ)) ∧
    ((drawLineDDA 0 0 4 2).length : ℤ) = max |(4 : ℤ) - 0| |(2 : ℤ) - 0| + 1 ∧
    (drawLineBresenhamRun f32 4 0 0 4 2).2 = true ∧
    (((drawLineBresenhamRun f32 4 0 0 4 2).1.length : ℕ) : ℤ) =
      max |(4 : ℤ) - 0| |(2 : ℤ) - 0| + 1 :=
  have h := rasterizers_terminate 0 0 4 2 0 0 5 3
  ⟨⟨by decide, by decide, by decide, by decide, by decide, by decide, by decide, by decide⟩,
    h.1 (by decide) (by decide) (by decide) (by decide) (by decide) (by decide),
    h.2.1 (by decide) (by decide) (by decide) 4 (by decide)⟩

/-- Claim C26, refuted as stated: from `(0,0)` to `(16777216,16777217)`, where
`|Δy| > |Δx|`, the compiled slope test reads the binary32 slope `1`, the line
is plotted as the diagonal, and its pixel `(16777216,16777216)` is
`2·16777216` units of `1/(2·|Δy|)` off the ideal line, more than `|Δy|`. -/
theorem bresenham_off_line_beyond_float_precision :
    |(16777216 : ℤ) - 0| < |(16777217 : ℤ) - 0| ∧
      ((16777216, 16777216) : Pixel) ∈ drawLineBresenham 0 0 16777216 16777217 ∧
      ¬ |2 * ((16777217 : ℤ) - 0) * (16777216 - 0) - 2 * (16777216 - 0) * (16777216 - 0)| ≤
        |(16777217 : ℤ) - 0| := by
  refine ⟨by decide, ?_, by decide⟩
  rw [drawLineBresenham_rounded_slope]
  simp only [List.mem_map, List.mem_range]
  exact ⟨16777216, by norm_num, by norm_num⟩

/-- Claim C26, amended: with the slope tests read as exact comparisons, for
all integer endpoints, and as compiled for coordinate differences of
magnitude at most `2^24`, every pixel `(x,y)` plotted by `drawLineBresenham`
is within half a pixel of the ideal line along the minor axis:
`|2·dx·(y-y1) - 2·dy·(x-x1)| ≤ |dx|` when `|dy| ≤ |dx|`, `dx ≠ 0`, and
`|2·dy·(x-x1) - 2·dx·(y-y1)| ≤ |dy|` when `|dy| > |dx|`; and for
`0 ≤ dy ≤ dx`, `x1 < x2` the `i`-th pixel is
`(x1 + i, y1 + ⌊(2·i·dy + dx) / (2·dx)⌋)`. -/
theorem bresenham_within_half_pixel (x1 y1 x2 y2 : ℤ) (q : Pixel) :
    (q ∈ drawLineBresenhamWith id x1 y1 x2 y2 →
      (x1 ≠ x2 → |y2 - y1| ≤ |x2 - x1| →
        |2 * (x2 - x1) * (q.2 - y1) - 2 * (y2 - y1) * (q.1 - x1)| ≤ |x2 - x1|) ∧
      (|x2 - x1| < |y2 - y1| →
        |2 * (y2 - y1) * (q.1 - x1) - 2 * (x2 - x1) * (q.2 - y1)| ≤ |y2 - y1|)) ∧
    (x1 < x2 → 0 ≤ y2 - y1 → y2 - y1 ≤ x2 - x1 →
      drawLineBresenhamWith id x1 y1 x2 y2 =
        (List.range ((x2 - x1).toNat + 1)).map (fun i : ℕ =>
          (x1 + (i : ℤ), y1 + (2 * (i : ℤ) * (y2 - y1) + (x2 - x1)) / (2 * (x2 - x1))))) ∧
    (|x2 - x1| ≤ 16777216 → |y2 - y1| ≤ 16777216 →
      (q ∈ drawLineBresenham x1 y1 x2 y2 →
        (x1 ≠ x2 → |y2 - y1| ≤ |x2 - x1| →
          |2 * (x2 - x1) * (q.2 - y1) - 2 * (y2 - y1) * (q.1 - x1)| ≤ |x2 - x1|) ∧
        (|x2 - x1| < |y2 - y1| →
          |2 * (y2 - y1) * (q.1 - x1) - 2 * (x2 - x1) * (q.2 - y1)| ≤ |y2 - y1|)) ∧
      (x1 < x2 → 0 ≤ y2 - y1 → y2 - y1 ≤ x2 - x1 →
        drawLineBresenham x1 y1 x2 y2 =
          (List.range ((x2 - x1).toNat + 1)).map (fun i : ℕ =>
            (x1 + (i : ℤ), y1 + (2 * (i : ℤ) * (y2 - y1) + (x2 - x1)) / (2 * (x2 - x1)))))) := by
  have hform : x1 < x2 → 0 ≤ y2 - y1 → y2 - y1 ≤ x2 - x1 →
      drawLineBresenhamWith id x1 y1 x2 y2 =
        (List.range ((x2 - x1).toNat + 1)).map (fun i : ℕ =>
          (x1 + (i : ℤ), y1 + (2 * (i : ℤ) * (y2 - y1) + (x2 - x1)) / (2 * (x2 - x1)))) := by
    intro hlt h0 hle
    rw [drawLineBresenhamWith_id_of_lt x1 y1 x2 y2 hlt,
      bresRegimes_id_shallow x1 y1 x2 y2 hlt (by rw [abs_of_nonneg h0]; exact hle),
      abs_of_nonneg h0]
    apply List.map_congr_left
    intro i _
    rcases h0.eq_or_lt with hz | hpos
    · rw [← hz, bresMinor_flat _ (by omega)]
      have : (2 * (i : ℤ) * 0 + (x2 - x1)) / (2 * (x2 - x1)) = 0 := by
        have := bresMinor_flat (x2 - x1) (by omega) i
        unfold bresMinor at this
        exact this
      rw [this]
      simp
    · rw [Int.sign_eq_one_of_pos hpos, one_mul]
      rfl
  refine ⟨fun hq => drawLineBresenhamWith_id_error x1 y1 x2 y2 q hq, hform, ?_⟩
  intro hdx hdy
  rw [drawLineBresenham_eq_exact x1 y1 x2 y2 hdx hdy]
  exact ⟨fun hq => drawLineBresenhamWith_id_error x1 y1 x2 y2 q hq, hform⟩

/-- Witness for C26: the pixel `(1,1)` of the segment from `(0,0)` to `(4,2)`. -/
theorem bresenham_within_half_pixel_witness :
    (|(4 : ℤ) - 0| ≤ 16777216 ∧ |(2 : ℤ) - 0| ≤ 16777216 ∧
      ((1, 1) : Pixel) ∈ drawLineBresenham 0 0 4 2 ∧ (0 : ℤ) ≠ 4 ∧
      |(2 : ℤ) - 0| ≤ |(4 : ℤ) - 0|) ∧
    |2 * ((4 : ℤ) - 0) * (1 - 0) - 2 * (2 - 0) * (1 - 0)| ≤ |(4 : ℤ) - 0| :=
  ⟨⟨by decide, by decide, by decide!, by decide, by decide⟩,
    (((bresenham_within_half_pixel 0 0 4 2 (1, 1)).2.2 (by decide) (by decide)).1
      (by decide!)).1 (by decide) (by decide)⟩

theorem cround_mono (a b : ℚ) (h : a ≤ b) : cround a ≤ cround b := by
  unfold cround
  split_ifs with ha hb hb
  · exact Int.floor_le_floor (by linarith)
  · exact absurd (le_trans ha h) hb
  · have h1 : 0 ≤ ⌊-a + 1 / 2⌋ := Int.floor_nonneg.mpr (by linarith)
    have h2 : 0 ≤ ⌊b + 1 / 2⌋ := Int.floor_nonneg.mpr (by linarith)
    omega
  · have := Int.floor_le_floor (show -b + 1 / 2 ≤ -a + 1 / 2 by linarith)
    omega

theorem cround_neg (z : ℚ) : cround (-z) = -cround z := by
  unfold cround
  rcases lt_trichotomy z 0 with h | h | h
  · rw [if_pos (by linarith), if_neg (by linarith)]
    simp
  · subst h
    norm_num
  · rw [if_neg (by linarith), if_pos h.le]
    simp

/-- A value below `c + 1/2` is rounded to `c` at most. -/
theorem cround_le_of_lt (z : ℚ) (c : ℤ) (h : z < c + 1 / 2) : cround z ≤ c := by
  unfold cround
  split_ifs with hz
  · have : ⌊z + 1 / 2⌋ < c + 1 := Int.floor_lt.mpr (by push_cast; linarith)
    omega
  · have : -c ≤ ⌊-z + 1 / 2⌋ := Int.le_floor.mpr (by push_cast; linarith)
    omega

/-- A non-negative value is strictly below its rounding plus one half. -/
theorem lt_cround_add_half (y : ℚ) (h : 0 ≤ y) : y < cround y + 1 / 2 := by
  unfold cround
  rw [if_pos h]
  have := Int.lt_floor_add_one (y + 1 / 2)
  linarith

theorem cround_add_one (y : ℚ) (h : 0 ≤ y ∨ y ≤ -1) : cround (y + 1) = cround y + 1 := by
  unfold cround
  rcases h with h | h
  · rw [if_pos h, if_pos (by linarith)]
    have : y + 1 + 1 / 2 = (y + 1 / 2) + ((1 : ℤ) : ℚ) := by push_cast; ring
    rw [this, Int.floor_add_int]
  · rcases h.eq_or_lt with he | hl
    · subst he
      norm_num
    · rw [if_neg (by linarith), if_neg (by linarith)]
      have : -y + 1 / 2 = (-(y + 1) + 1 / 2) + ((1 : ℤ) : ℚ) := by push_cast; ring
      rw [this, Int.floor_add_int]
      ring

/-- The exponent of the unit in the last place of a value below `2^(m+1)`. -/
theorem f32Exp_le_of_abs_lt (v : ℚ) (m : ℤ) (hv : v ≠ 0) (hm : -126 ≤ m)
    (h : |v| < 2 ^ (m + 1)) : f32Exp v ≤ m - 23 := by
  obtain ⟨s1, _⟩ := ilog2_spec v hv
  have : ilog2 v < m + 1 :=
    (zpow_lt_zpow_iff_right₀ (by norm_num : (1 : ℚ) < 2)).mp (lt_of_le_of_lt s1 h)
  unfold f32Exp
  have := max_le (show ilog2 v ≤ m by omega) hm
  omega

/-- The exponent of the unit in the last place grows with the magnitude. -/
theorem f32Exp_le_of_abs_le (v y : ℚ) (hv : v ≠ 0) (h : |v| ≤ |y|) : f32Exp v ≤ f32Exp y := by
  have hy : y ≠ 0 := by
    intro h0
    rw [h0, abs_zero] at h
    exact hv (abs_nonpos_iff.mp h)
  obtain ⟨s1, _⟩ := ilog2_spec v hv
  obtain ⟨_, t2⟩ := ilog2_spec y hy
  have : ilog2 v < ilog2 y + 1 :=
    (zpow_lt_zpow_iff_right₀ (by norm_num : (1 : ℚ) < 2)).mp
      (lt_of_le_of_lt s1 (lt_of_le_of_lt h t2))
  unfold f32Exp
  have := max_le_max (show ilog2 v ≤ ilog2 y by omega) (le_refl (-126 : ℤ))
  omega

/-- A binary32 value is a multiple of its unit in the last place. -/
theorem f32_fixed_grid (y : ℚ) (hy : f32 y = y) : ∃ K : ℤ, y = K * 2 ^ f32Exp y :=
  ⟨roundEven (y / 2 ^ f32Exp y), by
    conv_lhs => rw [← hy]
    rfl⟩

/-- A multiple of `2^E` is a multiple of `2^g` for `g ≤ E`. -/
theorem grid_refine (K E g : ℤ) (h : g ≤ E) : ∃ T : ℤ, (K : ℚ) * 2 ^ E = T * 2 ^ g := by
  refine ⟨K * 2 ^ (E - g).toNat, ?_⟩
  have e := two_pow_grid (E - g).toNat g
  rw [Int.toNat_of_nonneg (by omega), sub_add_cancel] at e
  rw [← e]
  push_cast
  ring

theorem int_on_grid (n g : ℤ) (h : g ≤ 0) : ∃ T : ℤ, (n : ℚ) = T * 2 ^ g := by
  obtain ⟨T, hT⟩ := grid_refine n 0 g h
  exact ⟨T, by rw [← hT]; simp⟩

theorem half_on_grid (n g : ℤ) (h : g ≤ -1) : ∃ T : ℤ, (n : ℚ) + 1 / 2 = T * 2 ^ g := by
  obtain ⟨T, hT⟩ := grid_refine (2 * n + 1) (-1) g h
  refine ⟨T, ?_⟩
  rw [← hT]
  push_cast
  rw [zpow_neg, zpow_one]
  ring

/-- A value more than half a unit below the grid point `T·2^g` is rounded to
the grid point before it, or lower. -/
theorem f32_le_pred_grid (v : ℚ) (T : ℤ)
    (h : v < T * 2 ^ f32Exp v - 2 ^ f32Exp v / 2) : f32 v ≤ (T - 1) * 2 ^ f32Exp v := by
  have hp : (0 : ℚ) < 2 ^ f32Exp v := zpow_pos (by norm_num) _
  have hb := (roundEven_bounds (v / 2 ^ f32Exp v)).2
  have hd : v / 2 ^ f32Exp v < T - 1 / 2 := by
    rw [div_lt_iff₀ hp]
    linarith
  have h1 : (roundEven (v / 2 ^ f32Exp v) : ℚ) < (T : ℚ) := by linarith
  have h2 : roundEven (v / 2 ^ f32Exp v) ≤ T - 1 := by
    have : roundEven (v / 2 ^ f32Exp v) < T := by exact_mod_cast h1
    omega
  have h3 : (roundEven (v / 2 ^ f32Exp v) : ℚ) ≤ (T : ℚ) - 1 := by exact_mod_cast h2
  unfold f32
  exact mul_le_mul_of_nonneg_right h3 hp.le

/-- One addition of `q < 1` to a sample `y` lying on the grid of the sum. -/
theorem cround_f32_add_on_grid (y q : ℚ) (K : ℤ) (hK : y = K * 2 ^ f32Exp (y + q))
    (h1 : q < 1) (hc : 0 ≤ y ∨ y ≤ -1) :
    cround (f32 (y + q)) ≤ cround y + 1 := by
  have hp : (0 : ℚ) < 2 ^ f32Exp (y + q) := zpow_pos (by norm_num) _
  by_cases hg : f32Exp (y + q) ≤ 0
  · obtain ⟨T, hT⟩ := int_on_grid 1 (f32Exp (y + q)) hg
    have e : y + 1 = ((K + T : ℤ) : ℚ) * 2 ^ f32Exp (y + q) := by
      push_cast
      rw [add_mul, ← hK, ← hT]
      simp
    have := f32_le_of_le_grid (y + q) (K + T) (by rw [← e]; linarith)
    rw [← e] at this
    rw [← cround_add_one y hc]
    exact cround_mono _ _ this
  · have h2 : (2 : ℚ) ≤ 2 ^ f32Exp (y + q) := by
      have := zpow_le_zpow_right₀ (by norm_num : (1 : ℚ) ≤ 2) (show (1 : ℤ) ≤ f32Exp (y + q) by omega)
      simpa using this
    have := f32_le_pred_grid (y + q) (K + 1) (by push_cast; rw [add_mul, ← hK]; linarith)
    have e : ((K + 1 : ℤ) - 1 : ℚ) * 2 ^ f32Exp (y + q) = y := by
      push_cast
      rw [add_sub_cancel_right, ← hK]
    rw [e] at this
    have := cround_mono _ _ this
    omega

/-- A sum `v = y + q` below the threshold `n + 3/2` by more than half a unit
in the last place of `v` is rounded below the threshold, and to pixel `n + 1`
at most. -/
theorem cround_f32_le_of_lt_threshold (v : ℚ) (n : ℤ) (hg : f32Exp v ≤ -1)
    (h : v < (n : ℚ) + 3 / 2 - 2 ^ f32Exp v / 2) : cround (f32 v) ≤ n + 1 := by
  have hp : (0 : ℚ) < 2 ^ f32Exp v := zpow_pos (by norm_num) _
  obtain ⟨T, hT⟩ := half_on_grid (n + 1) (f32Exp v) hg
  push_cast at hT
  have key := f32_le_pred_grid v T (by rw [← hT]; linarith)
  rw [sub_mul, ← hT, one_mul] at key
  apply cround_le_of_lt
  push_cast
  linarith

/-- One binary32 addition of an increment `0 ≤ q ≤ 1 - 2^(-24)` to a binary32
sample `y` moves the pixel `round(y)` up by one at most. -/
theorem cround_f32_add_le (y q : ℚ) (hy : f32 y = y) (h0 : 0 ≤ q)
    (h1 : q ≤ 1 - 1 / 16777216) : cround (f32 (y + q)) ≤ cround y + 1 := by
  have hn := cround_bounds y
  have two : (1 : ℚ) ≤ 2 := by norm_num
  by_cases hv0 : y + q = 0
  · rw [hv0, f32_zero]
    have c0 : cround (0 : ℚ) = 0 := by simpa using cround_intCast 0
    rw [c0]
    have : (-2 : ℚ) < (cround y : ℚ) := by linarith [hn.1]
    have : -2 < cround y := by exact_mod_cast this
    omega
  have hp : (0 : ℚ) < 2 ^ f32Exp (y + q) := zpow_pos (by norm_num) _
  by_cases hsmall : |y + q| < 1
  · -- below one the unit in the last place is `2^(-24)` at most
    have hg24 : f32Exp (y + q) ≤ -24 := by
      have := f32Exp_le_of_abs_lt (y + q) (-1) hv0 (by norm_num) (by simpa using hsmall)
      omega
    have hpow : (2 : ℚ) ^ f32Exp (y + q) ≤ 1 / 16777216 := by
      refine le_trans (zpow_le_zpow_right₀ two hg24) ?_
      norm_num
    exact cround_f32_le_of_lt_threshold (y + q) (cround y) (by omega) (by linarith [hn.2])
  push_neg at hsmall
  -- when `y` lies on the grid of the sum
  have ongrid : f32Exp (y + q) ≤ f32Exp y → (0 ≤ y ∨ y ≤ -1) →
      cround (f32 (y + q)) ≤ cround y + 1 := by
    intro hgE hc
    obtain ⟨K, hK⟩ := f32_fixed_grid y hy
    obtain ⟨T, hT⟩ := grid_refine K (f32Exp y) (f32Exp (y + q)) hgE
    exact cround_f32_add_on_grid y q T (by rw [← hT]; exact hK) (by linarith) hc
  rcases lt_or_le y 0 with hyneg | hypos
  · -- a negative sample: the sum is nearer to zero
    have hv : y + q ≤ -1 := by
      rcases le_abs'.mp hsmall with h | h
      · exact h
      · linarith
    have hy1 : y ≤ -1 := by linarith
    refine ongrid (f32Exp_le_of_abs_le (y + q) y hv0 ?_) (Or.inr hy1)
    rw [abs_of_nonpos (by linarith), abs_of_nonpos (by linarith)]
    linarith
  · have hv : 1 ≤ y + q := by
      rcases le_abs'.mp hsmall with h | h
      · linarith
      · exact h
    have hstrict := lt_cround_add_half y hypos
    by_cases hgE : f32Exp (y + q) ≤ f32Exp y
    · exact ongrid hgE (Or.inl hypos)
    push_neg at hgE
    by_cases hv2 : y + q < 2
    · have hg23 : f32Exp (y + q) ≤ -23 := by
        have := f32Exp_le_of_abs_lt (y + q) 0 hv0 (by norm_num)
          (by rw [abs_of_pos (by linarith)]; simpa using hv2)
        omega
      have hpow : (2 : ℚ) ^ f32Exp (y + q) ≤ 1 / 8388608 := by
        refine le_trans (zpow_le_zpow_right₀ two hg23) ?_
        norm_num
      exact cround_f32_le_of_lt_threshold (y + q) (cround y) (by omega) (by linarith)
    push_neg at hv2
    have hy1 : 1 < y := by linarith
    have hyne : y ≠ 0 := by linarith
    obtain ⟨s1, s2⟩ := ilog2_spec y hyne
    rw [abs_of_pos (by linarith)] at s1 s2
    have he0 : 0 ≤ ilog2 y := by
      have : (2 : ℚ) ^ (0 : ℤ) < 2 ^ (ilog2 y + 1) := by
        rw [zpow_zero]; linarith
      have := (zpow_lt_zpow_iff_right₀ (by norm_num : (1 : ℚ) < 2)).mp this
      omega
    have hE : f32Exp y = ilog2 y - 23 := by
      unfold f32Exp
      rw [max_eq_left (by omega)]
    have hgle : f32Exp (y + q) ≤ f32Exp y + 1 := by
      have := f32Exp_le_of_abs_lt (y + q) (ilog2 y + 1) hv0 (by omega)
        (by
          rw [abs_of_pos (by linarith), zpow_add_one₀ (by norm_num : (2 : ℚ) ≠ 0)]
          linarith)
      omega
    have hgeq : f32Exp (y + q) = f32Exp y + 1 := by omega
    obtain ⟨K, hK⟩ := f32_fixed_grid y hy
    have hpE : (0 : ℚ) < 2 ^ f32Exp y := zpow_pos (by norm_num) _
    have h2E : (2 : ℚ) ^ f32Exp (y + q) = 2 ^ f32Exp y * 2 := by
      rw [hgeq, zpow_add_one₀ (by norm_num : (2 : ℚ) ≠ 0)]
    by_cases hg1 : f32Exp (y + q) ≤ -1
    · -- `y` is a grid point below the half-integer `n + 1/2`
      obtain ⟨M, hM⟩ := half_on_grid (cround y) (f32Exp y) (by omega)
      have hKM : K < M := by
        have : (K : ℚ) * 2 ^ f32Exp y < (M : ℚ) * 2 ^ f32Exp y := by
          rw [← hK, ← hM]; exact hstrict
        have := lt_of_mul_lt_mul_right this hpE.le
        exact_mod_cast this
      have hKM1 : (K : ℚ) + 1 ≤ (M : ℚ) := by exact_mod_cast hKM
      have hyE : y + 2 ^ f32Exp y ≤ (cround y : ℚ) + 1 / 2 := by
        have e : y + 2 ^ f32Exp y = ((K : ℚ) + 1) * 2 ^ f32Exp y := by
          rw [add_mul, one_mul, ← hK]
        rw [hM, e]
        exact mul_le_mul_of_nonneg_right hKM1 hpE.le
      exact cround_f32_le_of_lt_threshold (y + q) (cround y) hg1 (by rw [h2E]; linarith)
    · by_cases hE0 : 0 ≤ f32Exp y
      · -- samples of magnitude `2^23` and above are a unit apart or more
        exfalso
        have h1E : (1 : ℚ) ≤ 2 ^ f32Exp y := by
          have := zpow_le_zpow_right₀ two hE0
          simpa using this
        have hpow : (2 : ℚ) ^ (ilog2 y + 1) = 16777216 * 2 ^ f32Exp y := by
          have : ilog2 y + 1 = 24 + f32Exp y := by omega
          rw [this, zpow_add₀ (by norm_num : (2 : ℚ) ≠ 0)]
          norm_num
        have hK24 : K < 16777216 := by
          have : (K : ℚ) * 2 ^ f32Exp y < 16777216 * 2 ^ f32Exp y := by
            rw [← hK, ← hpow]; exact s2
          have := lt_of_mul_lt_mul_right this hpE.le
          exact_mod_cast this
        have hK1 : (K : ℚ) + 1 ≤ 16777216 := by exact_mod_cast hK24
        have hyP : y + 2 ^ f32Exp y ≤ 2 ^ (ilog2 y + 1) := by
          have e : y + 2 ^ f32Exp y = ((K : ℚ) + 1) * 2 ^ f32Exp y := by
            rw [add_mul, one_mul, ← hK]
          rw [hpow, e]
          exact mul_le_mul_of_nonneg_right hK1 hpE.le
        have := f32Exp_le_of_abs_lt (y + q) (ilog2 y) hv0 (by omega)
          (by rw [abs_of_pos (by linarith)]; linarith)
        omega
      · -- the sum is `2^23` or more and is rounded to an integer
        have hg0 : f32Exp (y + q) = 0 := by omega
        have hb := (roundEven_bounds ((y + q) / 2 ^ f32Exp (y + q))).2
        have ef : f32 (y + q) = (roundEven ((y + q) / 2 ^ f32Exp (y + q)) : ℚ) := by
          unfold f32
          rw [hg0]
          simp
        rw [hg0, zpow_zero, div_one] at hb
        rw [hg0, zpow_zero, div_one] at ef
        rw [ef, cround_intCast]
        have : (roundEven (y + q) : ℚ) < (cround y : ℚ) + 2 := by linarith
        have : roundEven (y + q) < cround y + 2 := by exact_mod_cast this
        omega

/-- One binary32 addition of an increment of magnitude at most `1 - 2^(-24)`
to a binary32 sample moves the plotted coordinate by one pixel at most. -/
theorem cround_f32_add_step (y q : ℚ) (hy : f32 y = y) (hq : |q| ≤ 1 - 1 / 16777216) :
    |cround (f32 (y + q)) - cround y| ≤ 1 := by
  rw [abs_le] at hq
  rw [abs_le]
  rcases le_total 0 q with h | h
  · have up := cround_f32_add_le y q hy h hq.2
    have lo := cround_mono y (f32 (y + q)) (by
      have := f32_mono y (y + q) (by linarith)
      rwa [hy] at this)
    constructor <;> omega
  · have hy2 : f32 (-y) = -y := by rw [f32_neg, hy]
    have up := cround_f32_add_le (-y) (-q) hy2 (by linarith) (by linarith)
    have e : -y + -q = -(y + q) := by ring
    rw [e, f32_neg, cround_neg, cround_neg] at up
    have lo := cround_mono (f32 (y + q)) y (by
      have := f32_mono (y + q) y (by linarith)
      rwa [hy] at this)
    constructor <;> omega

/-- Rounding a binary32 value again leaves it as it is. -/
theorem f32_idem (z : ℚ) : f32 (f32 z) = f32 z := by
  obtain ⟨g1, g2⟩ := f32_grid z
  have e : f32 z = (roundEven (z / 2 ^ f32Exp z) : ℤ) * 2 ^ f32Exp z := rfl
  rcases g1.lt_or_eq with hlt | heq
  · rw [e, f32_eq_fpRound]
    exact fpRound_repr 23 (-126) _ _ (by norm_num; exact hlt) (by omega)
  · have hk : ((roundEven (z / 2 ^ f32Exp z) : ℤ) : ℚ) = 16777216 ∨
        ((roundEven (z / 2 ^ f32Exp z) : ℤ) : ℚ) = -16777216 := by
      rcases abs_cases ((roundEven (z / 2 ^ f32Exp z) : ℤ) : ℚ) with ⟨h1, _⟩ | ⟨h1, _⟩
      · left; linarith
      · right; linarith
    have p24 : (16777216 : ℚ) * 2 ^ f32Exp z = ((1 : ℤ) : ℚ) * 2 ^ (f32Exp z + 24) := by
      rw [zpow_add₀ (by norm_num : (2 : ℚ) ≠ 0)]
      norm_num
      ring
    rcases hk with hk | hk
    · rw [e, hk, p24, f32_eq_fpRound]
      exact fpRound_repr 23 (-126) 1 _ (by norm_num) (by omega)
    · have n24 : (-16777216 : ℚ) * 2 ^ f32Exp z = ((-1 : ℤ) : ℚ) * 2 ^ (f32Exp z + 24) := by
        rw [zpow_add₀ (by norm_num : (2 : ℚ) ≠ 0)]
        norm_num
        ring
      rw [e, hk, n24, f32_eq_fpRound]
      exact fpRound_repr 23 (-126) (-1) _ (by norm_num) (by omega)

/-- A line driven on `x` whose coordinates and differences are exactly
representable: the loop of `drawLineDDA` is entered with `xinc = ±1` and
`yinc = float(Δy / |Δx|)`. -/
theorem drawLineDDA_driven_on_x (x1 y1 x2 y2 : ℤ) (hne : x1 ≠ x2)
    (hx1 : |x1| ≤ 16777216) (hy1 : |y1| ≤ 16777216)
    (hx2 : |x2| ≤ 16777216) (hy2 : |y2| ≤ 16777216)
    (hdx : |x2 - x1| ≤ 16777216) (hdy : |y2 - y1| ≤ 16777216)
    (h : |y2 - y1| ≤ |x2 - x1|) :
    ∃ u : ℤ, |u| = 1 ∧ x1 + (((|x2 - x1|).toNat : ℕ) : ℤ) * u = x2 ∧
      drawLineDDA x1 y1 x2 y2 =
        ddaLoop f32 (u : ℚ) (f32 (((y2 - y1 : ℤ) : ℚ) / ((|x2 - x1| : ℤ) : ℚ)))
          ((|x2 - x1|).toNat + 1) (x1 : ℚ) (y1 : ℚ) := by
  have hd : x2 - x1 ≠ 0 := by omega
  have hpos : 0 < |x2 - x1| := abs_pos.mpr hd
  have hs : ddaSteps f32 x1 y1 x2 y2 = |x2 - x1| := by
    rw [ddaSteps_f32 x1 y1 x2 y2 hx1 hy1 hx2 hy2 hdx hdy, max_eq_left h]
  obtain ⟨u, hu, hux⟩ := int_div_abs (x2 - x1) hd
  have hmul : (((|x2 - x1|).toNat : ℕ) : ℤ) * u = x2 - x1 := by
    rw [Int.toNat_of_nonneg hpos.le]
    have hq : ((|x2 - x1| : ℤ) : ℚ) ≠ 0 := by exact_mod_cast (ne_of_gt hpos)
    have := (div_eq_iff hq).mp hux
    have : ((x2 - x1 : ℤ) : ℚ) = ((u * |x2 - x1| : ℤ) : ℚ) := by
      push_cast; push_cast at this; exact this
    have : x2 - x1 = u * |x2 - x1| := by exact_mod_cast this
    rw [mul_comm]; exact this.symm
  have ex : f32 (f32 x2 - f32 x1) = ((x2 - x1 : ℤ) : ℚ) := by
    rw [f32_intCast x2 hx2, f32_intCast x1 hx1, ← Int.cast_sub, f32_intCast _ hdx]
  have ey : f32 (f32 y2 - f32 y1) = ((y2 - y1 : ℤ) : ℚ) := by
    rw [f32_intCast y2 hy2, f32_intCast y1 hy1, ← Int.cast_sub, f32_intCast _ hdy]
  refine ⟨u, hu, by omega, ?_⟩
  unfold drawLineDDA drawLineDDAWith
  simp only [hs, ex, ey]
  have hn1 : (|x2 - x1| + 1).toNat = (|x2 - x1|).toNat + 1 := by omega
  rw [if_neg (ne_of_gt hpos), f32_intCast (|x2 - x1|) (by rw [abs_abs]; exact hdx), hux,
    f32_intCast u (by omega), f32_intCast x1 hx1, f32_intCast y1 hy1, hn1]

/-- The columns of a binary32 run driven on `x` with `xinc = ±1`: as long as
the samples stay within `2^24` the `i`-th pixel is in column `a + i·u`. -/
theorem ddaLoop_f32_fst (u : ℤ) (q : ℚ) :
    ∀ (n : ℕ) (a : ℤ) (y : ℚ), (∀ i : ℕ, i < n → |a + (i : ℤ) * u| ≤ 16777216) →
      (ddaLoop f32 (u : ℚ) q n (a : ℚ) y).map Prod.fst =
        (List.range n).map (fun i : ℕ => a + (i : ℤ) * u) := by
  intro n
  induction n with
  | zero => intro a y _; rfl
  | succ n ih =>
      intro a y h
      rw [ddaLoop, List.map_cons, List.range_succ_eq_map, List.map_cons, List.map_map,
        cround_intCast]
      congr 1
      · simp
      · cases n with
        | zero => rfl
        | succ m =>
            have h1 := h 1 (by omega)
            simp only [Nat.cast_one, one_mul] at h1
            rw [← Int.cast_add, f32_intCast (a + u) h1, ih (a + u) _ (by
              intro i hi
              have h2 := h (i + 1) (by omega)
              push_cast at h2
              have ea : a + u + (i : ℤ) * u = a + ((i : ℤ) + 1) * u := by ring
              rw [ea]
              exact h2)]
            apply List.map_congr_left
            intro i _
            simp only [Function.comp, Nat.succ_eq_add_one]
            push_cast
            ring

/-- A binary32 run driven on `x` with `xinc = ±1` and `|yinc| ≤ 1 - 2^(-24)`
moves one column per pixel and at most one row, as long as the `x` samples
stay within `2^24`. -/
theorem ddaLoop_f32_chain_of_step (u : ℤ) (hu : |u| = 1) (q : ℚ)
    (hq : |q| ≤ 1 - 1 / 16777216) :
    ∀ (n : ℕ) (a : ℤ) (y : ℚ), f32 y = y →
      (∀ i : ℕ, i < n → |a + (i : ℤ) * u| ≤ 16777216) →
      List.Chain' stepAlongX (ddaLoop f32 (u : ℚ) q n (a : ℚ) y) := by
  intro n
  induction n with
  | zero => intro a y _ _; exact List.chain'_nil
  | succ n ih =>
      intro a y hy h
      rw [ddaLoop, List.chain'_cons']
      cases n with
      | zero => exact ⟨by intro p hp; simp [ddaLoop] at hp, List.chain'_nil⟩
      | succ m =>
          have h1 := h 1 (by omega)
          simp only [Nat.cast_one, one_mul] at h1
          have ex : f32 ((a : ℚ) + (u : ℚ)) = ((a + u : ℤ) : ℚ) := by
            rw [← Int.cast_add]; exact f32_intCast (a + u) h1
          constructor
          · intro p hp
            simp only [ddaLoop, List.head?_cons, Option.mem_def, Option.some.injEq] at hp
            subst hp
            simp only [stepAlongX]
            rw [ex, cround_intCast, cround_intCast]
            exact ⟨by rw [add_sub_cancel_left]; exact hu, cround_f32_add_step y q hy hq⟩
          · rw [ex]
            apply ih (a + u) (f32 (y + q)) (f32_idem _)
            intro i hi
            have h2 := h (i + 1) (by omega)
            push_cast at h2
            have ea : a + u + (i : ℤ) * u = a + ((i : ℤ) + 1) * u := by ring
            rw [ea]
            exact h2

/-- A quotient of integers `|d| < s ≤ 2^24` is rounded to a `float` of
magnitude at most `1 - 2^(-24)`. -/
theorem f32_quotient_lt_one (d s : ℤ) (hs : 0 < s) (hs24 : s ≤ 16777216) (hd : |d| < s) :
    |f32 ((d : ℚ) / (s : ℚ))| ≤ 1 - 1 / 16777216 := by
  have hsq : (0 : ℚ) < (s : ℚ) := by exact_mod_cast hs
  have hs24q : (s : ℚ) ≤ 16777216 := by exact_mod_cast hs24
  have hdq : |(d : ℚ)| ≤ (s : ℚ) - 1 := by
    have : |d| ≤ s - 1 := by omega
    rw [← Int.cast_abs]; exact_mod_cast this
  have hr : |(d : ℚ) / (s : ℚ)| ≤ 1 - 1 / 16777216 := by
    rw [abs_div, abs_of_pos hsq, div_le_iff₀ hsq]
    have : (1 : ℚ) / 16777216 * s ≤ 1 := by linarith
    nlinarith
  have hW : f32 (1 - 1 / 16777216) = 1 - 1 / 16777216 := by decide!
  rw [abs_le] at hr ⊢
  constructor
  · have := f32_mono (-(1 - 1 / 16777216)) ((d : ℚ) / (s : ℚ)) hr.1
    rwa [f32_neg, hW] at this
  · have := f32_mono ((d : ℚ) / (s : ℚ)) (1 - 1 / 16777216) hr.2
    rwa [hW] at this

/-- In binary32, a line driven on `x` whose coordinates and coordinate
differences have magnitude at most `2^24` moves one column per pixel and at
most one row. -/
theorem drawLineDDA_chain_x_float (x1 y1 x2 y2 : ℤ) (hne : x1 ≠ x2)
    (hx1 : |x1| ≤ 16777216) (hy1 : |y1| ≤ 16777216)
    (hx2 : |x2| ≤ 16777216) (hy2 : |y2| ≤ 16777216)
    (hdx : |x2 - x1| ≤ 16777216) (hdy : |y2 - y1| ≤ 16777216)
    (h : |y2 - y1| ≤ |x2 - x1|) :
    List.Chain' stepAlongX (drawLineDDA x1 y1 x2 y2) := by
  obtain ⟨u, hu, hend, hrun⟩ :=
    drawLineDDA_driven_on_x x1 y1 x2 y2 hne hx1 hy1 hx2 hy2 hdx hdy h
  have hpos : 0 < |x2 - x1| := abs_pos.mpr (by omega)
  have hsamples : ∀ i : ℕ, i < (|x2 - x1|).toNat + 1 → |x1 + (i : ℤ) * u| ≤ 16777216 :=
    fun i hi => unit_samples_bound x1 x2 u 16777216 _ i (by omega) hend hx1 hx2 (by omega)
  rw [hrun]
  rcases lt_or_eq_of_le h with hlt | heq
  · exact ddaLoop_f32_chain_of_step u hu _
      (f32_quotient_lt_one (y2 - y1) (|x2 - x1|) hpos hdx hlt) _ x1 y1
      (f32_intCast y1 hy1) hsamples
  · -- a diagonal: both increments are `±1` and no addition rounds
    have hdy0 : y2 - y1 ≠ 0 := by
      intro h0; rw [h0, abs_zero] at heq; omega
    obtain ⟨v, hv, hvy⟩ := int_div_abs (y2 - y1) hdy0
    rw [heq] at hvy
    have hvend : y1 + (((|x2 - x1|).toNat : ℕ) : ℤ) * v = y2 := by
      rw [Int.toNat_of_nonneg hpos.le, ← heq]
      have hq : ((|y2 - y1| : ℤ) : ℚ) ≠ 0 := by
        exact_mod_cast (ne_of_gt (abs_pos.mpr hdy0))
      rw [← heq] at hvy
      have := (div_eq_iff hq).mp hvy
      have : ((y2 - y1 : ℤ) : ℚ) = ((v * |y2 - y1| : ℤ) : ℚ) := by
        push_cast; push_cast at this; exact this
      have : y2 - y1 = v * |y2 - y1| := by exact_mod_cast this
      rw [mul_comm]; omega
    rw [hvy, f32_intCast v (by omega),
      ddaLoop_f32_int_samples u v _ x1 y1 (fun i hi =>
        ⟨hsamples i hi,
          unit_samples_bound y1 y2 v 16777216 _ i (by omega) hvend hy1 hy2 (by omega)⟩),
      ddaLoop_id, List.chain'_map, List.chain'_range_succ]
    intro m _
    simp only [stepAlongX]
    have ea : ∀ j : ℕ, (x1 : ℚ) + (j : ℚ) * (u : ℚ) = ((x1 + (j : ℤ) * u : ℤ) : ℚ) := by
      intro j; push_cast; ring
    have eb : ∀ j : ℕ, (y1 : ℚ) + (j : ℚ) * (v : ℚ) = ((y1 + (j : ℤ) * v : ℤ) : ℚ) := by
      intro j; push_cast; ring
    rw [ea, ea, eb, eb, cround_intCast, cround_intCast, cround_intCast, cround_intCast]
    have e1 : x1 + ((m + 1 : ℕ) : ℤ) * u - (x1 + (m : ℤ) * u) = u := by push_cast; ring
    have e2 : y1 + ((m + 1 : ℕ) : ℤ) * v - (y1 + (m : ℤ) * v) = v := by push_cast; ring
    rw [e1, e2, hu, hv]
    exact ⟨rfl, le_refl 1⟩

/-- In binary32, a line driven on `y` whose coordinates and coordinate
differences have magnitude at most `2^24` moves one row per pixel and at most
one column. -/
theorem drawLineDDA_chain_y_float (x1 y1 x2 y2 : ℤ) (hne : y1 ≠ y2)
    (hx1 : |x1| ≤ 16777216) (hy1 : |y1| ≤ 16777216)
    (hx2 : |x2| ≤ 16777216) (hy2 : |y2| ≤ 16777216)
    (hdx : |x2 - x1| ≤ 16777216) (hdy : |y2 - y1| ≤ 16777216)
    (h : |x2 - x1| ≤ |y2 - y1|) :
    List.Chain' stepAlongY (drawLineDDA x1 y1 x2 y2) := by
  apply chain_y_of_transpose
  unfold drawLineDDA
  rw [drawLineDDAWith_transpose]
  exact drawLineDDA_chain_x_float y1 x1 y2 x2 hne hy1 hx1 hy2 hx2 hdy hdx h

/-! ## First and last pixel of the binary32 run of `drawLineDDA` -/

theorem getLast?_cons_of_some {α : Type} (x : α) (l : List α) (p : α)
    (h : l.getLast? = some p) : (x :: l).getLast? = some p := by
  cases l with
  | nil => simp at h
  | cons b t => rw [List.getLast?_cons_cons]; exact h

/-- A value less than one half from an integer is rounded to it. -/
theorem cround_of_near (y : ℚ) (n : ℤ) (h : |y - n| < 1 / 2) : cround y = n := by
  obtain ⟨b1, b2⟩ := cround_bounds y
  rw [abs_lt] at h
  have h1 : (cround y : ℚ) < (n : ℚ) + 1 := by linarith
  have h2 : (n : ℚ) - 1 < (cround y : ℚ) := by linarith
  have h3 : cround y < n + 1 := by exact_mod_cast h1
  have h4 : n - 1 < cround y := by exact_mod_cast h2
  omega

/-- The first pixel of `drawLineDDA` is `(x1, y1)` whenever `x1` and `y1` are
exactly representable. -/
theorem drawLineDDA_head (x1 y1 x2 y2 : ℤ) (hx1 : |x1| ≤ 16777216) (hy1 : |y1| ≤ 16777216) :
    (drawLineDDA x1 y1 x2 y2).head? = some (x1, y1) := by
  have h0 := ddaSteps_nonneg f32 x1 y1 x2 y2
  unfold drawLineDDA drawLineDDAWith
  simp only
  split_ifs with hs
  · rfl
  · have hn : (ddaSteps f32 x1 y1 x2 y2 + 1).toNat = (ddaSteps f32 x1 y1 x2 y2).toNat + 1 := by
      omega
    rw [hn, ddaLoop, f32_intCast x1 hx1, f32_intCast y1 hy1, cround_intCast, cround_intCast]
    rfl

/-- The last pixel of a binary32 run driven on `x` with `xinc = ±1`: its
column is exact, and its `y` sample has drifted from the ideal line `c + k·r`
by `N·(2^(-13) + 2^(-24))` at most. -/
theorem ddaLoop_f32_last (u : ℤ) (q r c : ℚ) (N : ℕ) (hN : N ≤ 4094)
    (hq : |q - r| ≤ 1 / 16777216) (hr : |r| ≤ 1)
    (hline : ∀ k : ℕ, k ≤ N → |c + k * r| ≤ 2048) :
    ∀ (n k : ℕ) (a : ℤ) (y : ℚ), k + n = N →
      (∀ i : ℕ, i < n + 1 → |a + (i : ℤ) * u| ≤ 16777216) →
      |y - (c + k * r)| ≤ k * (1 / 8192 + 1 / 16777216) →
      ∃ yl : ℚ,
        (ddaLoop f32 (u : ℚ) q (n + 1) (a : ℚ) y).getLast? =
            some (a + (n : ℤ) * u, cround yl) ∧
          |yl - (c + N * r)| ≤ N * (1 / 8192 + 1 / 16777216) := by
  intro n
  induction n with
  | zero =>
      intro k a y hk _ hy
      refine ⟨y, ?_, ?_⟩
      · rw [ddaLoop, ddaLoop, cround_intCast]
        simp
      · have : k = N := by omega
        rw [← this]; exact hy
  | succ n ih =>
      intro k a y hk ha hy
      have hkN : k ≤ N := by omega
      have hkq : (k : ℚ) ≤ 4094 := by exact_mod_cast le_trans hkN hN
      have hl := hline k hkN
      have h1 := ha 1 (by omega)
      simp only [Nat.cast_one, one_mul] at h1
      have ex : f32 ((a : ℚ) + (u : ℚ)) = ((a + u : ℤ) : ℚ) := by
        rw [← Int.cast_add]; exact f32_intCast (a + u) h1
      rw [abs_le] at hy hl hq hr
      have hyq : |y + q| < 2 ^ ((11 : ℤ) + 1) := by
        rw [abs_lt]; norm_num
        constructor <;> nlinarith
      have herr := f32_error (y + q) 11 (by norm_num) hyq
      rw [abs_le] at herr
      norm_num at herr
      obtain ⟨yl, hlast, hdrift⟩ := ih (k + 1) (a + u) (f32 (y + q)) (by omega)
        (by
          intro i hi
          have h2 := ha (i + 1) (by omega)
          push_cast at h2
          have ea : a + u + (i : ℤ) * u = a + ((i : ℤ) + 1) * u := by ring
          rw [ea]
          exact h2)
        (by
          rw [abs_le]
          push_cast
          constructor <;> linarith)
      refine ⟨yl, ?_, hdrift⟩
      rw [ddaLoop, ex]
      rw [getLast?_cons_of_some _ _ _ hlast]
      congr 2
      push_cast
      ring

/-- In binary32, a line driven on `x` with coordinates of magnitude at most
`2047` ends on the pixel `(x2, y2)`. -/
theorem drawLineDDA_last_x (x1 y1 x2 y2 : ℤ) (hne : x1 ≠ x2)
    (hx1 : |x1| ≤ 2047) (hy1 : |y1| ≤ 2047) (hx2 : |x2| ≤ 2047) (hy2 : |y2| ≤ 2047)
    (h : |y2 - y1| ≤ |x2 - x1|) :
    (drawLineDDA x1 y1 x2 y2).getLast? = some (x2, y2) := by
  have bx := abs_sub x2 x1
  have by1 := abs_sub y2 y1
  obtain ⟨u, hu, hend, hrun⟩ := drawLineDDA_driven_on_x x1 y1 x2 y2 hne (by omega) (by omega)
    (by omega) (by omega) (by omega) (by omega) h
  have hpos : 0 < |x2 - x1| := abs_pos.mpr (by omega)
  obtain ⟨N, hN⟩ : ∃ N : ℕ, N = (|x2 - x1|).toNat := ⟨_, rfl⟩
  have hNz : (N : ℤ) = |x2 - x1| := by omega
  have hNpos : 0 < N := by omega
  have hN4 : N ≤ 4094 := by omega
  have hNq : ((|x2 - x1| : ℤ) : ℚ) = (N : ℚ) := by rw [← hNz]; simp
  have hNq0 : (0 : ℚ) < (N : ℚ) := by exact_mod_cast hNpos
  have hrabs : |((y2 - y1 : ℤ) : ℚ) / (N : ℚ)| ≤ 1 := by
    have hdyq : |((y2 - y1 : ℤ) : ℚ)| ≤ (N : ℚ) := by
      rw [← Int.cast_abs, ← hNq]; exact_mod_cast h
    rw [abs_div, abs_of_pos hNq0, div_le_iff₀ hNq0, one_mul]
    exact hdyq
  have hq := f32_error (((y2 - y1 : ℤ) : ℚ) / (N : ℚ)) 0 (by norm_num)
    (by rw [zero_add, zpow_one]; linarith [hrabs])
  have hq2 : |f32 (((y2 - y1 : ℤ) : ℚ) / (N : ℚ)) - ((y2 - y1 : ℤ) : ℚ) / (N : ℚ)|
      ≤ 1 / 16777216 := by
    refine le_trans hq ?_
    norm_num
  have hline : ∀ k : ℕ, k ≤ N →
      |(y1 : ℚ) + (k : ℚ) * (((y2 - y1 : ℤ) : ℚ) / (N : ℚ))| ≤ 2048 := by
    intro k hk
    have := line_sample_bound y1 y2 2048
      (by rw [← Int.cast_abs]; exact_mod_cast (show |y1| ≤ 2048 by omega))
      (by rw [← Int.cast_abs]; exact_mod_cast (show |y2| ≤ 2048 by omega)) N hNpos k hk
    simpa using this
  rw [hrun, hNq, ← hN]
  rw [← hN] at hend
  obtain ⟨yl, hlast, hdrift⟩ := ddaLoop_f32_last u _ (((y2 - y1 : ℤ) : ℚ) / (N : ℚ)) (y1 : ℚ) N hN4
    hq2 hrabs hline N 0 x1 (y1 : ℚ) (by omega)
    (fun i hi => unit_samples_bound x1 x2 u 16777216 N i (by omega) hend (by omega) (by omega)
      (by omega))
    (by simp)
  rw [hlast, hend]
  have hNq4 : (N : ℚ) ≤ 4094 := by exact_mod_cast hN4
  have hy2eq : (y1 : ℚ) + (N : ℚ) * (((y2 - y1 : ℤ) : ℚ) / (N : ℚ)) = ((y2 : ℤ) : ℚ) := by
    rw [mul_div_cancel₀ _ (ne_of_gt hNq0)]
    push_cast
    ring
  rw [hy2eq] at hdrift
  rw [cround_of_near yl y2 (lt_of_le_of_lt hdrift (by nlinarith))]

/-- In binary32, a line with coordinates of magnitude at most `2047` ends on
the pixel `(x2, y2)`. -/
theorem drawLineDDA_last (x1 y1 x2 y2 : ℤ) (hne : x1 ≠ x2 ∨ y1 ≠ y2)
    (hx1 : |x1| ≤ 2047) (hy1 : |y1| ≤ 2047) (hx2 : |x2| ≤ 2047) (hy2 : |y2| ≤ 2047) :
    (drawLineDDA x1 y1 x2 y2).getLast? = some (x2, y2) := by
  rcases le_total |y2 - y1| |x2 - x1| with h | h
  · have hx : x1 ≠ x2 := by
      intro e
      rcases hne with h1 | h1
      · exact h1 e
      · rw [e, sub_self, abs_zero] at h
        exact h1 (by have := abs_nonpos_iff.mp h; omega)
    exact drawLineDDA_last_x x1 y1 x2 y2 hx hx1 hy1 hx2 hy2 h
  · have hy : y1 ≠ y2 := by
      intro e
      rcases hne with h1 | h1
      · rw [e, sub_self, abs_zero] at h
        exact h1 (by have := abs_nonpos_iff.mp h; omega)
      · exact h1 e
    have ht := drawLineDDA_last_x y1 x1 y2 x2 hy hy1 hx1 hy2 hx2 h
    unfold drawLineDDA at ht ⊢
    rw [← drawLineDDAWith_transpose, List.getLast?_map] at ht
    cases hl : (drawLineDDAWith f32 x1 y1 x2 y2).getLast? with
    | none => rw [hl] at ht; simp at ht
    | some p =>
        rw [hl] at ht
        simp only [Option.map_some', Option.some.injEq] at ht
        have h1 := congrArg Prod.fst ht
        have h2 := congrArg Prod.snd ht
        simp only [Prod.fst_swap, Prod.snd_swap] at h1 h2
        rw [← h1, ← h2]

/-- In binary32, for coordinates and coordinate differences of magnitude at
most `2^24`, the last pixel of a line driven on `x` is in column `x2`. -/
theorem drawLineDDA_last_fst (x1 y1 x2 y2 : ℤ) (hne : x1 ≠ x2)
    (hx1 : |x1| ≤ 16777216) (hy1 : |y1| ≤ 16777216)
    (hx2 : |x2| ≤ 16777216) (hy2 : |y2| ≤ 16777216)
    (hdx : |x2 - x1| ≤ 16777216) (hdy : |y2 - y1| ≤ 16777216)
    (h : |y2 - y1| ≤ |x2 - x1|) :
    (drawLineDDA x1 y1 x2 y2).getLast?.map Prod.fst = some x2 := by
  obtain ⟨u, hu, hend, hrun⟩ :=
    drawLineDDA_driven_on_x x1 y1 x2 y2 hne hx1 hy1 hx2 hy2 hdx hdy h
  rw [hrun, ← List.getLast?_map, ddaLoop_f32_fst u _ _ x1 y1
    (fun i hi => unit_samples_bound x1 x2 u 16777216 _ i (by omega) hend hx1 hx2 (by omega)),
    map_range_succ_getLast, hend]

/-- In binary32, for coordinates and coordinate differences of magnitude at
most `2^24`, the last pixel of a line driven on `y` is in row `y2`. -/
theorem drawLineDDA_last_snd (x1 y1 x2 y2 : ℤ) (hne : y1 ≠ y2)
    (hx1 : |x1| ≤ 16777216) (hy1 : |y1| ≤ 16777216)
    (hx2 : |x2| ≤ 16777216) (hy2 : |y2| ≤ 16777216)
    (hdx : |x2 - x1| ≤ 16777216) (hdy : |y2 - y1| ≤ 16777216)
    (h : |x2 - x1| ≤ |y2 - y1|) :
    (drawLineDDA x1 y1 x2 y2).getLast?.map Prod.snd = some y2 := by
  have ht := drawLineDDA_last_fst y1 x1 y2 x2 hne hy1 hx1 hy2 hx2 hdy hdx h
  unfold drawLineDDA at ht ⊢
  rw [← drawLineDDAWith_transpose, List.getLast?_map, Option.map_map] at ht
  exact ht

/-! ## A line at screen scale whose binary32 run misses its endpoint -/

/-- A value less than one half from an integer is rounded to it. -/
theorem roundEven_of_near (z : ℚ) (n : ℤ) (h : |z - n| < 1 / 2) : roundEven z = n := by
  obtain ⟨b1, b2⟩ := roundEven_bounds z
  rw [abs_lt] at h
  have h1 : (roundEven z : ℚ) < (n : ℚ) + 1 := by linarith
  have h2 : (n : ℚ) - 1 < (roundEven z : ℚ) := by linarith
  have h3 : roundEven z < n + 1 := by exact_mod_cast h1
  have h4 : n - 1 < roundEven z := by exact_mod_cast h2
  omega

/-- The last pixel of a run whose accumulators follow the sequences `X`, `Y`. -/
theorem ddaLoop_last_of_samples (fl : ℚ → ℚ) (xinc yinc : ℚ) (X Y : ℕ → ℚ) :
    ∀ (n k : ℕ),
      (∀ i : ℕ, k ≤ i → i < k + n →
        fl (X i + xinc) = X (i + 1) ∧ fl (Y i + yinc) = Y (i + 1)) →
      (ddaLoop fl xinc yinc (n + 1) (X k) (Y k)).getLast? =
        some (cround (X (k + n)), cround (Y (k + n))) := by
  intro n
  induction n with
  | zero => intro k _; rw [ddaLoop, ddaLoop]; rfl
  | succ n ih =>
      intro k h
      obtain ⟨hx, hy⟩ := h k le_rfl (by omega)
      have := ih (k + 1) (fun i h1 h2 => h i (by omega) (by omega))
      rw [show k + 1 + n = k + (n + 1) by omega] at this
      rw [ddaLoop, hx, hy]
      exact getLast?_cons_of_some _ _ _ this

/-- Between `2048` and `4096` the unit in the last place is `2^(-12)`, and the
addition of `xinc = float(-139/4501)` to a multiple `-M/4096` moves it by
`126/4096`, less than the `126.49…/4096` that `xinc` is. -/
theorem f32_add_screen_xinc (M : ℤ) (h1 : 9105408 ≤ M) (h2 : M ≤ 9672408) :
    f32 (-(M : ℚ) / 4096 + -8289831 / 268435456) = -((M + 126 : ℤ) : ℚ) / 4096 := by
  have hM1 : (9105408 : ℚ) ≤ (M : ℚ) := by exact_mod_cast h1
  have hM2 : (M : ℚ) ≤ 9672408 := by exact_mod_cast h2
  have hneg : -(M : ℚ) / 4096 + -8289831 / 268435456 < 0 := by
    have : -(M : ℚ) / 4096 ≤ 0 := by
      apply div_nonpos_of_nonpos_of_nonneg <;> linarith
    linarith
  have hlog : ilog2 (-(M : ℚ) / 4096 + -8289831 / 268435456) = 11 := by
    apply ilog2_unique
    · rw [abs_of_neg hneg]
      norm_num
      linarith
    · rw [abs_of_neg hneg]
      norm_num
      linarith
  have hE : f32Exp (-(M : ℚ) / 4096 + -8289831 / 268435456) = -12 := by
    unfold f32Exp
    rw [hlog]
    rfl
  have hr : roundEven ((-(M : ℚ) / 4096 + -8289831 / 268435456) / 2 ^ (-12 : ℤ)) =
      -(M + 126) := by
    apply roundEven_of_near
    have e : (-(M : ℚ) / 4096 + -8289831 / 268435456) / 2 ^ (-12 : ℤ) - ((-(M + 126) : ℤ) : ℚ)
        = -32295 / 65536 := by
      push_cast
      norm_num
      ring
    rw [e]
    rw [abs_lt]
    constructor <;> norm_num
  unfold f32
  rw [hE, hr]
  push_cast
  norm_num
  ring

/-- The binary32 run of `drawLineDDA` from `(-2223,-2184)` to `(-2362,2317)`
ends on the pixel `(-2361, 2317)`. -/
theorem drawLineDDA_screen_line_last :
    (drawLineDDA (-2223) (-2184) (-2362) 2317).getLast? = some (-2361, 2317) := by
  have hs : ddaSteps f32 (-2223) (-2184) (-2362) 2317 = 4501 := by decide!
  have hxi : f32 (f32 (f32 ((-2362 : ℤ) : ℚ) - f32 ((-2223 : ℤ) : ℚ)) / f32 ((4501 : ℤ) : ℚ)) =
      -8289831 / 268435456 := by decide!
  have hyi : f32 (f32 (f32 ((2317 : ℤ) : ℚ) - f32 ((-2184 : ℤ) : ℚ)) / f32 ((4501 : ℤ) : ℚ)) =
      1 := by decide!
  have hx1 : f32 ((-2223 : ℤ) : ℚ) = -2223 := by
    rw [f32_intCast _ (by decide)]; norm_num
  have hy1 : f32 ((-2184 : ℤ) : ℚ) = -2184 := by
    rw [f32_intCast _ (by decide)]; norm_num
  have hn : ((4501 : ℤ) + 1).toNat = 4501 + 1 := by decide
  have key := ddaLoop_last_of_samples f32 (-8289831 / 268435456) 1
    (fun i : ℕ => -(((9105408 + 126 * (i : ℤ) : ℤ) : ℚ)) / 4096)
    (fun i : ℕ => (((-2184 + (i : ℤ) : ℤ)) : ℚ)) 4501 0
    (by
      intro i _ hi
      constructor
      · have := f32_add_screen_xinc (9105408 + 126 * (i : ℤ)) (by omega) (by omega)
        simp only at this ⊢
        rw [this]
        push_cast
        ring
      · simp only
        have e : (((-2184 + (i : ℤ) : ℤ)) : ℚ) + 1 = (((-2184 + ((i + 1 : ℕ) : ℤ) : ℤ)) : ℚ) := by
          push_cast; ring
        rw [e]
        exact f32_intCast _ (by rw [abs_le]; constructor <;> omega))
  unfold drawLineDDA drawLineDDAWith
  simp only [hs]
  rw [if_neg (by decide), hxi, hyi, hx1, hy1, hn]
  have e0 : (-2223 : ℚ) = -(((9105408 + 126 * ((0 : ℕ) : ℤ) : ℤ) : ℚ)) / 4096 := by norm_num
  have e1 : (-2184 : ℚ) = (((-2184 + ((0 : ℕ) : ℤ) : ℤ)) : ℚ) := by norm_num
  rw [e0, e1]
  simp only at key
  rw [key]
  have c1 : cround (-(((9105408 + 126 * (((0 + 4501 : ℕ)) : ℤ) : ℤ) : ℚ)) / 4096) = -2361 := by
    decide!
  have c2 : cround ((((-2184 + (((0 + 4501 : ℕ)) : ℤ) : ℤ)) : ℚ)) = 2317 := by
    rw [cround_intCast]; decide
  rw [c1, c2]

/-- The pixels of a run whose accumulators follow the sequences `X`, `Y`. -/
theorem ddaLoop_eq_map_of_samples (fl : ℚ → ℚ) (xinc yinc : ℚ) (X Y : ℕ → ℚ) :
    ∀ (n k : ℕ),
      (∀ i : ℕ, k ≤ i → i + 1 < k + n →
        fl (X i + xinc) = X (i + 1) ∧ fl (Y i + yinc) = Y (i + 1)) →
      ddaLoop fl xinc yinc n (X k) (Y k) =
        (List.range n).map (fun i : ℕ => (cround (X (k + i)), cround (Y (k + i)))) := by
  intro n
  induction n with
  | zero => intro k _; rfl
  | succ n ih =>
      intro k h
      rw [ddaLoop, List.range_succ_eq_map, List.map_cons, List.map_map]
      congr 1
      cases n with
      | zero => rfl
      | succ m =>
          obtain ⟨hx, hy⟩ := h k le_rfl (by omega)
          rw [hx, hy, ih (k + 1) (fun i h1 h2 => h i (by omega) (by omega))]
          apply List.map_congr_left
          intro i _
          simp only [Function.comp, Nat.succ_eq_add_one]
          rw [show k + 1 + i = k + (i + 1) by omega]

/-- The binary32 run of `drawLineDDA` from `(-16777215,0)` to `(16777216,0)`:
the difference `33554431` is rounded to `33554432`, the loop takes one step
more than there are columns, and the last addition `16777216 + 1` is rounded
back to `16777216`. -/
theorem drawLineDDA_wide_line :
    drawLineDDA (-16777215) 0 16777216 0 =
      (List.range (33554432 + 1)).map (fun i : ℕ =>
        (cround (((min (-16777215 + ((0 + i : ℕ) : ℤ)) 16777216 : ℤ) : ℚ)), cround (0 : ℚ))) := by
  have hs : ddaSteps f32 (-16777215) 0 16777216 0 = 33554432 := by decide!
  have hxi : f32 (f32 (f32 ((16777216 : ℤ) : ℚ) - f32 ((-16777215 : ℤ) : ℚ)) /
      f32 ((33554432 : ℤ) : ℚ)) = 1 := by decide!
  have hyi : f32 (f32 (f32 ((0 : ℤ) : ℚ) - f32 ((0 : ℤ) : ℚ)) / f32 ((33554432 : ℤ) : ℚ)) = 0 := by
    decide!
  have hx1 : f32 ((-16777215 : ℤ) : ℚ) =
      (((min (-16777215 + ((0 : ℕ) : ℤ)) 16777216 : ℤ) : ℚ)) := by
    rw [f32_intCast _ (by decide)]
    norm_num
  have hy1 : f32 ((0 : ℤ) : ℚ) = 0 := by simpa using f32_zero
  have hn : ((33554432 : ℤ) + 1).toNat = 33554432 + 1 := by decide
  have htop : f32 (16777217 : ℚ) = 16777216 := by decide!
  have key := ddaLoop_eq_map_of_samples f32 1 0
    (fun i : ℕ => (((min (-16777215 + (i : ℤ)) 16777216 : ℤ) : ℚ)))
    (fun _ : ℕ => (0 : ℚ)) (33554432 + 1) 0
    (by
      intro i _ hi
      refine ⟨?_, by simpa using f32_zero⟩
      simp only
      rcases Nat.lt_or_ge i 33554431 with hlt | hge
      · rw [min_eq_left (by omega), min_eq_left (by push_cast; omega)]
        have e : (((-16777215 + (i : ℤ) : ℤ)) : ℚ) + 1 =
            (((-16777215 + ((i + 1 : ℕ) : ℤ) : ℤ)) : ℚ) := by push_cast; ring
        rw [e]
        exact f32_intCast _ (by rw [abs_le]; constructor <;> omega)
      · have hi2 : i = 33554431 := by omega
        subst hi2
        norm_num
        exact htop)
  unfold drawLineDDA drawLineDDAWith
  simp only [hs]
  rw [if_neg (by decide), hxi, hyi, hx1, hy1, hn]
  exact key

/-! ## Claims on the pixels of `drawLineDDA` as compiled -/

/-- Claim C17, refuted as stated: from `(16777216,0)` to `(16777220,0)` the
endpoints differ and `x` is the dominant axis, but the binary32 accumulator
cannot leave `16777216`, so consecutive pixels do not differ by `1` in `x`.
And from `(-16777215,0)` to `(16777216,0)`, with coordinates within `2^24`,
the difference `33554431` is rounded to `33554432` steps, and the last two
pixels are both `(16777216,0)`. -/
theorem dda_step_zero_beyond_float_precision :
    (((16777216 : ℤ) ≠ 16777220 ∨ (0 : ℤ) ≠ 0) ∧
      |(0 : ℤ) - 0| ≤ |(16777220 : ℤ) - 16777216| ∧
      ¬ List.Chain' stepAlongX (drawLineDDA 16777216 0 16777220 0)) ∧
    (((-16777215 : ℤ) ≠ 16777216 ∨ (0 : ℤ) ≠ 0) ∧
      |(0 : ℤ) - 0| ≤ |(16777216 : ℤ) - (-16777215)| ∧
      ¬ List.Chain' stepAlongX (drawLineDDA (-16777215) 0 16777216 0)) := by
  have h : drawLineDDA 16777216 0 16777220 0 =
      [(16777216, 0), (16777216, 0), (16777216, 0), (16777216, 0), (16777216, 0)] := by
    decide!
  refine ⟨⟨by decide, by decide, ?_⟩, by decide, by decide, ?_⟩
  · rw [h, List.chain'_cons]
    intro hc
    have h1 := hc.1.1
    simp at h1
  · rw [drawLineDDA_wide_line, List.chain'_map, List.chain'_range_succ]
    intro hc
    have h1 := (hc 33554431 (by norm_num)).1
    simp only [cround_intCast] at h1
    norm_num at h1

/-- Claim C17, amended: for integer endpoints that differ, consecutive pixels
of `drawLineDDA` differ by exactly `1` along the dominant axis and by at most
`1` along the other axis (along `x` when `|Δy| ≤ |Δx|`, along `y` when
`|Δx| ≤ |Δy|`), both with the accumulator arithmetic taken as exact, for all
endpoints, and in binary32 for coordinates and coordinate differences of
magnitude at most `2^24 = 16777216`. -/
theorem dda_consecutive_pixels_step (x1 y1 x2 y2 : ℤ) (hne : x1 ≠ x2 ∨ y1 ≠ y2) :
    (|y2 - y1| ≤ |x2 - x1| →
        List.Chain' stepAlongX (drawLineDDAWith id x1 y1 x2 y2)) ∧
      (|x2 - x1| ≤ |y2 - y1| →
        List.Chain' stepAlongY (drawLineDDAWith id x1 y1 x2 y2)) ∧
      (|x1| ≤ 16777216 → |y1| ≤ 16777216 → |x2| ≤ 16777216 → |y2| ≤ 16777216 →
        |x2 - x1| ≤ 16777216 → |y2 - y1| ≤ 16777216 →
        (|y2 - y1| ≤ |x2 - x1| → List.Chain' stepAlongX (drawLineDDA x1 y1 x2 y2)) ∧
        (|x2 - x1| ≤ |y2 - y1| → List.Chain' stepAlongY (drawLineDDA x1 y1 x2 y2))) := by
  have hx : |y2 - y1| ≤ |x2 - x1| → x1 ≠ x2 := by
    intro h e
    rcases hne with h1 | h1
    · exact h1 e
    · rw [e, sub_self, abs_zero] at h
      exact h1 (by have := abs_nonpos_iff.mp h; omega)
  have hy : |x2 - x1| ≤ |y2 - y1| → y1 ≠ y2 := by
    intro h e
    rcases hne with h1 | h1
    · rw [e, sub_self, abs_zero] at h
      exact h1 (by have := abs_nonpos_iff.mp h; omega)
    · exact h1 e
  refine ⟨fun h => drawLineDDAWith_id_chain_x x1 y1 x2 y2 (hx h) h,
    fun h => drawLineDDAWith_id_chain_y x1 y1 x2 y2 (hy h) h, ?_⟩
  intro hx1 hy1 hx2 hy2 hdx hdy
  exact ⟨fun h => drawLineDDA_chain_x_float x1 y1 x2 y2 (hx h) hx1 hy1 hx2 hy2 hdx hdy h,
    fun h => drawLineDDA_chain_y_float x1 y1 x2 y2 (hy h) hx1 hy1 hx2 hy2 hdx hdy h⟩

/-- Witness for C17: the segment from `(0,0)` to `(6,1)`, driven on `x`. -/
theorem dda_consecutive_pixels_step_witness :
    (((0 : ℤ) ≠ 6 ∨ (0 : ℤ) ≠ 1) ∧ |(1 : ℤ) - 0| ≤ |(6 : ℤ) - 0| ∧
      |(0 : ℤ)| ≤ 16777216 ∧ |(0 : ℤ)| ≤ 16777216 ∧ |(6 : ℤ)| ≤ 16777216 ∧
      |(1 : ℤ)| ≤ 16777216 ∧ |(6 : ℤ) - 0| ≤ 16777216 ∧ |(1 : ℤ) - 0| ≤ 16777216) ∧
      List.Chain' stepAlongX (drawLineDDAWith id 0 0 6 1) ∧
      List.Chain' stepAlongX (drawLineDDA 0 0 6 1) :=
  have h := dda_consecutive_pixels_step 0 0 6 1 (by decide)
  ⟨⟨by decide, by decide, by decide, by decide, by decide, by decide, by decide, by decide⟩,
    h.1 (by decide),
    (h.2.2 (by decide) (by decide) (by decide) (by decide) (by decide) (by decide)).1
      (by decide)⟩

/-- Claim C24, refuted for the compiled function: from `(-2223,-2184)` to
`(-2362,2317)` the line is driven on `y` for `4501` steps; every binary32
addition of `xinc = float(-139/4501)` moves the accumulator `x` by `126/4096`
where `xinc` is `126.49…/4096`, the drift passes half a pixel, and the last
pixel plotted is `(-2361,2317)`, not `(-2362,2317)`. -/
theorem dda_misses_endpoint_in_float :
    ((-2223 : ℤ) ≠ -2362 ∨ (-2184 : ℤ) ≠ 2317) ∧
      (drawLineDDA (-2223) (-2184) (-2362) 2317).getLast? = some (-2361, 2317) ∧
      (drawLineDDA (-2223) (-2184) (-2362) 2317).getLast? ≠ some (-2362, 2317) := by
  refine ⟨by decide, drawLineDDA_screen_line_last, ?_⟩
  rw [drawLineDDA_screen_line_last]
  decide

/-- Claim C24, amended: for integer endpoints that differ, the first pixel
plotted by `drawLineDDA` is `(x1,y1)` and the last pixel plotted is `(x2,y2)`,
with the accumulator arithmetic taken as exact, for all endpoints, and in
binary32 for coordinates of magnitude at most `2047`; in binary32 for
coordinates and coordinate differences of magnitude at most `2^24` the first
pixel is `(x1,y1)` and the last pixel agrees with `(x2,y2)` in the coordinate
of the dominant axis. -/
theorem dda_first_and_last_pixel (x1 y1 x2 y2 : ℤ) (hne : x1 ≠ x2 ∨ y1 ≠ y2) :
    ((drawLineDDAWith id x1 y1 x2 y2).head? = some (x1, y1) ∧
      (drawLineDDAWith id x1 y1 x2 y2).getLast? = some (x2, y2)) ∧
    (|x1| ≤ 2047 → |y1| ≤ 2047 → |x2| ≤ 2047 → |y2| ≤ 2047 →
      (drawLineDDA x1 y1 x2 y2).head? = some (x1, y1) ∧
      (drawLineDDA x1 y1 x2 y2).getLast? = some (x2, y2)) ∧
    (|x1| ≤ 16777216 → |y1| ≤ 16777216 → |x2| ≤ 16777216 → |y2| ≤ 16777216 →
      |x2 - x1| ≤ 16777216 → |y2 - y1| ≤ 16777216 →
      (drawLineDDA x1 y1 x2 y2).head? = some (x1, y1) ∧
      (|y2 - y1| ≤ |x2 - x1| →
        (drawLineDDA x1 y1 x2 y2).getLast?.map Prod.fst = some x2) ∧
      (|x2 - x1| ≤ |y2 - y1| →
        (drawLineDDA x1 y1 x2 y2).getLast?.map Prod.snd = some y2)) := by
  have hx : |y2 - y1| ≤ |x2 - x1| → x1 ≠ x2 := by
    intro h e
    rcases hne with h1 | h1
    · exact h1 e
    · rw [e, sub_self, abs_zero] at h
      exact h1 (by have := abs_nonpos_iff.mp h; omega)
  have hy : |x2 - x1| ≤ |y2 - y1| → y1 ≠ y2 := by
    intro h e
    rcases hne with h1 | h1
    · rw [e, sub_self, abs_zero] at h
      exact h1 (by have := abs_nonpos_iff.mp h; omega)
    · exact h1 e
  refine ⟨drawLineDDAWith_id_ends x1 y1 x2 y2 hne, ?_, ?_⟩
  · intro hx1 hy1 hx2 hy2
    exact ⟨drawLineDDA_head x1 y1 x2 y2 (by omega) (by omega),
      drawLineDDA_last x1 y1 x2 y2 hne hx1 hy1 hx2 hy2⟩
  · intro hx1 hy1 hx2 hy2 hdx hdy
    exact ⟨drawLineDDA_head x1 y1 x2 y2 hx1 hy1,
      fun h => drawLineDDA_last_fst x1 y1 x2 y2 (hx h) hx1 hy1 hx2 hy2 hdx hdy h,
      fun h => drawLineDDA_last_snd x1 y1 x2 y2 (hy h) hx1 hy1 hx2 hy2 hdx hdy h⟩

/-- Witness for C24: the segment from `(0,0)` to `(6,1)`. -/
theorem dda_first_and_last_pixel_witness :
    (((0 : ℤ) ≠ 6 ∨ (0 : ℤ) ≠ 1) ∧ |(0 : ℤ)| ≤ 2047 ∧ |(0 : ℤ)| ≤ 2047 ∧
      |(6 : ℤ)| ≤ 2047 ∧ |(1 : ℤ)| ≤ 2047 ∧ |(6 : ℤ) - 0| ≤ 16777216 ∧
      |(1 : ℤ) - 0| ≤ 16777216 ∧ |(1 : ℤ) - 0| ≤ |(6 : ℤ) - 0|) ∧
      ((drawLineDDAWith id 0 0 6 1).head? = some (0, 0) ∧
        (drawLineDDAWith id 0 0 6 1).getLast? = some (6, 1)) ∧
      ((drawLineDDA 0 0 6 1).head? = some (0, 0) ∧
        (drawLineDDA 0 0 6 1).getLast? = some (6, 1)) ∧
      (drawLineDDA 0 0 6 1).getLast?.map Prod.fst = some 6 :=
  have h := dda_first_and_last_pixel 0 0 6 1 (by decide)
  ⟨⟨by decide, by decide, by decide, by decide, by decide, by decide, by decide, by decide⟩,
    h.1, h.2.1 (by decide) (by decide) (by decide) (by decide),
    (h.2.2 (by decide) (by decide) (by decide) (by decide) (by decide) (by decide)).2.1
      (by decide)⟩
